import Mathlib

/-! # c-bst: an unbalanced binary search tree map with parent links

Shallow embedding of `src/src/bst.c`.

The C program manipulates heap nodes through pointers.  The embedding keeps
that: a `bst` value carries the fields of `struct bst` together with the node
heap `mem` (address ↦ node) and a log of the release callbacks invoked so far.
Every C function becomes a function on this state.

* A node pointer is `Option Nat`; `none` is `NULL`.
* Dereferencing an address that holds no node has no defined behaviour in C;
  the embedding returns `none` for the whole call.
* `while` loops and recursion over heap links take a `fuel` argument bounding
  the number of iterations; running out of fuel also returns `none`.  Every
  theorem that says a call produces a result shows that any fuel above the
  depth of the tree suffices.
* `malloc` is modelled by an extra argument giving the address it returns
  (`none` when it fails).
* `size_t` is 64 bits wide: `size++` and `size--` wrap modulo `2 ^ 64`.
* `int` is 32 bits wide: the addition in `height_rec` wraps in two's
  complement (`int_wrap`).
* Keys and values are the pointees of the `void*` arguments; the comparison
  callback is a function `K → K → Int`, the release callbacks are recorded in
  `log` when they are registered (`free_key`, `free_val` true).
* The guards `if (!bst) return ...` concern a NULL handle; the embedding only
  has non-NULL handles.  Likewise the cursor functions are modelled for a
  non-NULL cursor and non-NULL out-parameters.
-/

namespace CBst

/-! ## Data model -/

/-- A node pointer: `none` is NULL, `some a` the address `a`. -/
abbrev ptr := Option Nat

/-- The C `struct node`. -/
structure node_t (K V : Type) where
  key : K
  value : V
  left : ptr
  right : ptr
  parent : ptr
  deriving DecidableEq

/-- One call of a release callback: `free_key(k)` or `free_val(v)`. -/
inductive release (K V : Type) where
  | key : K → release K V
  | value : V → release K V
  deriving DecidableEq

/-- The C `struct bst`, together with the node heap it points into and the
log of release-callback calls. -/
structure bst (K V : Type) where
  root : ptr
  size : Nat
  cmp : K → K → Int
  free_key : Bool
  free_val : Bool
  mem : Nat → Option (node_t K V)
  log : List (release K V)

/-- Number of values of `size_t` (and of addresses): `2 ^ 64`. -/
def size_mod : Nat := 2 ^ 64

variable {K V U : Type}

/-- Heap write: the node at address `a` becomes `n`. -/
def store (m : Nat → Option (node_t K V)) (a : Nat) (n : node_t K V) :
    Nat → Option (node_t K V) :=
  fun x => if x = a then some n else m x

/-- The C `free(n)` on a node: address `a` no longer holds a node. -/
def dealloc (m : Nat → Option (node_t K V)) (a : Nat) : Nat → Option (node_t K V) :=
  fun x => if x = a then none else m x

/-- The assignment `a->left = p`. -/
def set_left (b : bst K V) (a : Nat) (p : ptr) : Option (bst K V) :=
  match b.mem a with
  | none => none
  | some n => some { b with mem := store b.mem a { n with left := p } }

/-- The assignment `a->right = p`. -/
def set_right (b : bst K V) (a : Nat) (p : ptr) : Option (bst K V) :=
  match b.mem a with
  | none => none
  | some n => some { b with mem := store b.mem a { n with right := p } }

/-- The assignment `a->parent = p`. -/
def set_parent (b : bst K V) (a : Nat) (p : ptr) : Option (bst K V) :=
  match b.mem a with
  | none => none
  | some n => some { b with mem := store b.mem a { n with parent := p } }

/-- The statement `if (c) c->parent = p;`. -/
def set_parent_if (b : bst K V) (c : ptr) (p : ptr) : Option (bst K V) :=
  match c with
  | none => some b
  | some ca => set_parent b ca p

/-! ## Construction and destruction -/

/-- `node_create(key, value)`: `fresh` is what `malloc` returns. -/
def node_create (m : Nat → Option (node_t K V)) (fresh : ptr) (key : K) (value : V) :
    ptr × (Nat → Option (node_t K V)) :=
  match fresh with
  | none => (none, m)
  | some a => (some a, store m a ⟨key, value, none, none, none⟩)

/-- The release calls of `free_node` on a node with key `k` and value `v`:
`if (bst->free_key) bst->free_key(n->key); if (bst->free_val) bst->free_val(n->value);`. -/
def release_calls (b : bst K V) (k : K) (v : V) : List (release K V) :=
  (if b.free_key then [release.key k] else []) ++
    (if b.free_val then [release.value v] else [])

/-- `free_node(bst, n)`. -/
def free_node (b : bst K V) (n : ptr) : Option (bst K V) :=
  match n with
  | none => some b
  | some a =>
    match b.mem a with
    | none => none
    | some nd =>
      some { b with log := b.log ++ release_calls b nd.key nd.value, mem := dealloc b.mem a }

/-- `bst_create(cmp, free_key, free_val)`; `cmp = none` is a NULL comparison
function, `alloc_ok` tells whether `malloc` succeeds. -/
def bst_create (cmp : Option (K → K → Int)) (free_key free_val : Bool) (alloc_ok : Bool) :
    Option (bst K V) :=
  match cmp with
  | none => none
  | some c =>
    if alloc_ok then some ⟨none, 0, c, free_key, free_val, fun _ => none, []⟩ else none

/-- `clear_rec(bst, n)`: post-order release of the subtree at `n`. -/
def clear_rec : Nat → bst K V → ptr → Option (bst K V)
  | 0, _, _ => none
  | _ + 1, b, none => some b
  | fuel + 1, b, some a =>
    match b.mem a with
    | none => none
    | some n =>
      match clear_rec fuel b n.left with
      | none => none
      | some b1 =>
        match b1.mem a with
        | none => none
        | some n1 =>
          match clear_rec fuel b1 n1.right with
          | none => none
          | some b2 => free_node b2 (some a)

/-- `bst_clear(bst)`. -/
def bst_clear (fuel : Nat) (b : bst K V) : Option (bst K V) :=
  match clear_rec fuel b b.root with
  | none => none
  | some b1 => some { b1 with root := none, size := 0 }

/-! ## Insertion and lookup -/

/-- How the descent loop of `bst_insert` ends: by the `return true` inside the
loop (the key matched and the value was replaced), or by `cur == NULL` with
the last node visited in `parent`. -/
inductive walk (K V : Type) where
  | updated : bst K V → walk K V
  | bottom : ptr → walk K V

/-- The `while (cur)` loop of `bst_insert`, started with the given `parent`
and `cur`. -/
def insert_loop (b : bst K V) (key : K) (value : V) : Nat → ptr → ptr → Option (walk K V)
  | 0, _, _ => none
  | _ + 1, parent, none => some (walk.bottom parent)
  | fuel + 1, _, some a =>
    match b.mem a with
    | none => none
    | some cn =>
      if b.cmp key cn.key = 0 then
        some (walk.updated
          { b with
            log := b.log ++ (if b.free_val then [release.value cn.value] else [])
            mem := store b.mem a { cn with value := value } })
      else if b.cmp key cn.key < 0 then insert_loop b key value fuel (some a) cn.left
      else insert_loop b key value fuel (some a) cn.right

/-- The part of `bst_insert` after the loop (`node_t* n = node_create(key, value);`
to the end), `parent` being the value the loop left in `parent`; `fresh` is
what `malloc` returns inside `node_create`. -/
def insert_attach (b : bst K V) (key : K) (value : V) (fresh : ptr) (parent : ptr) :
    Option (Bool × bst K V) :=
  match node_create b.mem fresh key value with
  | (none, _) => some (false, b)
  | (some n, m1) =>
    match set_parent { b with mem := m1 } n parent with
    | none => none
    | some b1 =>
      match parent with
      | none => some (true, { b1 with root := some n, size := (b1.size + 1) % size_mod })
      | some pa =>
        match b1.mem pa with
        | none => none
        | some pn =>
          if b1.cmp key pn.key < 0 then
            match set_left b1 pa (some n) with
            | none => none
            | some b2 => some (true, { b2 with size := (b2.size + 1) % size_mod })
          else
            match set_right b1 pa (some n) with
            | none => none
            | some b2 => some (true, { b2 with size := (b2.size + 1) % size_mod })

/-- `bst_insert(bst, key, value)`: the descent loop, then the attachment of a
new node. -/
def bst_insert (fuel : Nat) (b : bst K V) (key : K) (value : V) (fresh : ptr) :
    Option (Bool × bst K V) :=
  match insert_loop b key value fuel none b.root with
  | none => none
  | some (walk.updated b1) => some (true, b1)
  | some (walk.bottom parent) => insert_attach b key value fresh parent

/-- The loop of `find_node`, started at `cur`. -/
def find_loop (b : bst K V) (key : K) : Nat → ptr → Option ptr
  | 0, _ => none
  | _ + 1, none => some none
  | fuel + 1, some a =>
    match b.mem a with
    | none => none
    | some cn =>
      if b.cmp key cn.key = 0 then some (some a)
      else find_loop b key fuel (if b.cmp key cn.key < 0 then cn.left else cn.right)

/-- `find_node(bst, key)`. -/
def find_node (fuel : Nat) (b : bst K V) (key : K) : Option ptr :=
  find_loop b key fuel b.root

/-- `bst_get(bst, key)`: the inner `none` is the NULL result. -/
def bst_get (fuel : Nat) (b : bst K V) (key : K) : Option (Option V) :=
  match find_node fuel b key with
  | none => none
  | some none => some none
  | some (some a) =>
    match b.mem a with
    | none => none
    | some n => some (some n.value)

/-- `bst_contains(bst, key)`. -/
def bst_contains (fuel : Nat) (b : bst K V) (key : K) : Option Bool :=
  match find_node fuel b key with
  | none => none
  | some n => some (n != none)

/-- `bst_size(bst)`. -/
def bst_size (b : bst K V) : Nat := b.size

/-! ## Removal -/

/-- The loop `while (n->left) n = n->left;` of `subtree_min`. -/
def min_loop (m : Nat → Option (node_t K V)) : Nat → Nat → Option Nat
  | 0, _ => none
  | fuel + 1, a =>
    match m a with
    | none => none
    | some n =>
      match n.left with
      | none => some a
      | some l => min_loop m fuel l

/-- `subtree_min(n)`. -/
def subtree_min (m : Nat → Option (node_t K V)) (fuel : Nat) (n : ptr) : Option ptr :=
  match n with
  | none => some none
  | some a =>
    match min_loop m fuel a with
    | none => none
    | some y => some (some y)

/-- `transplant(bst, u, v)`. -/
def transplant (b : bst K V) (u v : ptr) : Option (bst K V) :=
  match u with
  | none => some b
  | some ua =>
    match b.mem ua with
    | none => none
    | some un =>
      match
        (match un.parent with
         | none => some { b with root := v }
         | some pa =>
           match b.mem pa with
           | none => none
           | some pn => if pn.left = some ua then set_left b pa v else set_right b pa v) with
      | none => none
      | some b1 =>
        match b1.mem ua with
        | none => none
        | some un1 => set_parent_if b1 v un1.parent

/-- Lines 157-161 of `bst_remove`, for the node `z` being removed and its
in-order successor `y`:
`if (y->parent != z) { transplant(bst, y, y->right); y->right = z->right;
 if (y->right) y->right->parent = y; }`. -/
def successor_detach (b : bst K V) (z y : Nat) : Option (bst K V) :=
  match b.mem y with
  | none => none
  | some yn =>
    if yn.parent ≠ some z then
      match transplant b (some y) yn.right with
      | none => none
      | some b1 =>
        match b1.mem z with
        | none => none
        | some zn1 =>
          match set_right b1 y zn1.right with
          | none => none
          | some b2 =>
            match b2.mem y with
            | none => none
            | some yn2 => set_parent_if b2 yn2.right (some y)
    else some b

/-- Lines 162-164 of `bst_remove`:
`transplant(bst, z, y); y->left = z->left; if (y->left) y->left->parent = y;`. -/
def successor_attach (b : bst K V) (z y : Nat) : Option (bst K V) :=
  match transplant b (some z) (some y) with
  | none => none
  | some b4 =>
    match b4.mem z with
    | none => none
    | some zn4 =>
      match set_left b4 y zn4.left with
      | none => none
      | some b5 =>
        match b5.mem y with
        | none => none
        | some yn5 => set_parent_if b5 yn5.left (some y)

/-- The body of `bst_remove` once `z` is known to be non-NULL (lines 149-168:
the three structural cases, up to and including the release of `z`). -/
def remove_at (fuel : Nat) (b : bst K V) (z : Nat) : Option (bst K V) :=
  match b.mem z with
  | none => none
  | some zn =>
    match zn.left with
    | none =>
      match transplant b (some z) zn.right with
      | none => none
      | some b1 => free_node b1 (some z)
    | some _ =>
      match zn.right with
      | none =>
        match transplant b (some z) zn.left with
        | none => none
        | some b1 => free_node b1 (some z)
      | some _ =>
        match subtree_min b.mem fuel zn.right with
        | none => none
        | some none => none
        | some (some y) =>
          match successor_detach b z y with
          | none => none
          | some b3 =>
            match successor_attach b3 z y with
            | none => none
            | some b6 =>
              match b6.mem z with
              | none => none
              | some zn6 =>
                some { b6 with
                       log := b6.log ++ release_calls b6 zn6.key zn6.value
                       mem := dealloc b6.mem z }

/-- `bst_remove(bst, key)`. -/
def bst_remove (fuel : Nat) (b : bst K V) (key : K) : Option (Bool × bst K V) :=
  match find_node fuel b key with
  | none => none
  | some none => some (false, b)
  | some (some z) =>
    match remove_at fuel b z with
    | none => none
    | some b1 => some (true, { b1 with size := (b1.size + size_mod - 1) % size_mod })

/-! ## Order queries -/

/-- The loop of `bst_floor_key`, with the loop variables `cur` and `floor`;
the result is the returned key pointer (`none` for NULL). -/
def floor_loop (b : bst K V) (key : K) : Nat → ptr → ptr → Option (Option K)
  | 0, _, _ => none
  | _ + 1, none, none => some none
  | _ + 1, none, some f =>
    match b.mem f with
    | none => none
    | some fn => some (some fn.key)
  | fuel + 1, some a, floor =>
    match b.mem a with
    | none => none
    | some cn =>
      if b.cmp key cn.key = 0 then some (some cn.key)
      else if b.cmp key cn.key < 0 then floor_loop b key fuel cn.left floor
      else floor_loop b key fuel cn.right (some a)

/-- `bst_floor_key(bst, key)`. -/
def bst_floor_key (fuel : Nat) (b : bst K V) (key : K) : Option (Option K) :=
  match b.root with
  | none => some none
  | some r => floor_loop b key fuel (some r) none

/-- The loop of `bst_ceiling_key`, with the loop variables `cur` and `ceil`. -/
def ceiling_loop (b : bst K V) (key : K) : Nat → ptr → ptr → Option (Option K)
  | 0, _, _ => none
  | _ + 1, none, none => some none
  | _ + 1, none, some c =>
    match b.mem c with
    | none => none
    | some n => some (some n.key)
  | fuel + 1, some a, ceil =>
    match b.mem a with
    | none => none
    | some cn =>
      if b.cmp key cn.key = 0 then some (some cn.key)
      else if b.cmp key cn.key < 0 then ceiling_loop b key fuel cn.left (some a)
      else ceiling_loop b key fuel cn.right ceil

/-- `bst_ceiling_key(bst, key)`. -/
def bst_ceiling_key (fuel : Nat) (b : bst K V) (key : K) : Option (Option K) :=
  match b.root with
  | none => some none
  | some r => ceiling_loop b key fuel (some r) none

/-- The loop `while (n->right) n = n->right;` of `subtree_max`. -/
def max_loop (m : Nat → Option (node_t K V)) : Nat → Nat → Option Nat
  | 0, _ => none
  | fuel + 1, a =>
    match m a with
    | none => none
    | some n =>
      match n.right with
      | none => some a
      | some r => max_loop m fuel r

/-- `subtree_max(n)`. -/
def subtree_max (m : Nat → Option (node_t K V)) (fuel : Nat) (n : ptr) : Option ptr :=
  match n with
  | none => some none
  | some a =>
    match max_loop m fuel a with
    | none => none
    | some y => some (some y)

/-- The return `m ? m->key : NULL` shared by the key queries: the key of the
node `p` points to, NULL for a NULL pointer. -/
def key_of (m : Nat → Option (node_t K V)) (p : ptr) : Option (Option K) :=
  match p with
  | none => some none
  | some a =>
    match m a with
    | none => none
    | some n => some (some n.key)

/-- `bst_min_key(bst)`. -/
def bst_min_key (fuel : Nat) (b : bst K V) : Option (Option K) :=
  match b.root with
  | none => some none
  | some r =>
    match subtree_min b.mem fuel (some r) with
    | none => none
    | some p => key_of b.mem p

/-- `bst_max_key(bst)`. -/
def bst_max_key (fuel : Nat) (b : bst K V) : Option (Option K) :=
  match b.root with
  | none => some none
  | some r =>
    match subtree_max b.mem fuel (some r) with
    | none => none
    | some p => key_of b.mem p

/-- The loop `while (p && n == p->right) { n = p; p = p->parent; }` of
`successor_node`, with the loop variables `n` and `p`; the result is the
final `p`. -/
def succ_loop (m : Nat → Option (node_t K V)) : Nat → Nat → ptr → Option ptr
  | 0, _, _ => none
  | _ + 1, _, none => some none
  | fuel + 1, n, some pa =>
    match m pa with
    | none => none
    | some pn => if pn.right = some n then succ_loop m fuel pa pn.parent else some (some pa)

/-- `successor_node(bst, key)`. -/
def successor_node (fuel : Nat) (b : bst K V) (key : K) : Option ptr :=
  match find_node fuel b key with
  | none => none
  | some none => some none
  | some (some n) =>
    match b.mem n with
    | none => none
    | some nn =>
      match nn.right with
      | some r => subtree_min b.mem fuel (some r)
      | none => succ_loop b.mem fuel n nn.parent

/-- The loop `while (p && n == p->left) { n = p; p = p->parent; }` of
`predecessor_node`. -/
def pred_loop (m : Nat → Option (node_t K V)) : Nat → Nat → ptr → Option ptr
  | 0, _, _ => none
  | _ + 1, _, none => some none
  | fuel + 1, n, some pa =>
    match m pa with
    | none => none
    | some pn => if pn.left = some n then pred_loop m fuel pa pn.parent else some (some pa)

/-- `predecessor_node(bst, key)`. -/
def predecessor_node (fuel : Nat) (b : bst K V) (key : K) : Option ptr :=
  match find_node fuel b key with
  | none => none
  | some none => some none
  | some (some n) =>
    match b.mem n with
    | none => none
    | some nn =>
      match nn.left with
      | some l => subtree_max b.mem fuel (some l)
      | none => pred_loop b.mem fuel n nn.parent

/-- `bst_successor_key(bst, key)`. -/
def bst_successor_key (fuel : Nat) (b : bst K V) (key : K) : Option (Option K) :=
  match successor_node fuel b key with
  | none => none
  | some s => key_of b.mem s

/-- `bst_predecessor_key(bst, key)`. -/
def bst_predecessor_key (fuel : Nat) (b : bst K V) (key : K) : Option (Option K) :=
  match predecessor_node fuel b key with
  | none => none
  | some p => key_of b.mem p

/-! ## Shape -/

/-- A C `int`: the value of the mathematical integer `x` in 32-bit two's
complement.  (Signed overflow is undefined in C; the usual implementations
wrap around.) -/
def int_wrap (x : Int) : Int := (x + 2 ^ 31) % 2 ^ 32 - 2 ^ 31

/-- `height_rec(n)`. -/
def height_rec (m : Nat → Option (node_t K V)) : Nat → ptr → Option Int
  | 0, _ => none
  | _ + 1, none => some (-1)
  | fuel + 1, some a =>
    match m a with
    | none => none
    | some n =>
      match height_rec m fuel n.left with
      | none => none
      | some hl =>
        match height_rec m fuel n.right with
        | none => none
        | some hr => some (int_wrap ((if hl > hr then hl else hr) + 1))

/-- `bst_height(bst)`. -/
def bst_height (fuel : Nat) (b : bst K V) : Option Int :=
  height_rec b.mem fuel b.root

/-! ## Traversal -/

/-- `traverse_in(n, visit, user)`; the callback is a state transformer on the
caller's context `U`. -/
def traverse_in (m : Nat → Option (node_t K V)) (visit : K → V → U → U) :
    Nat → ptr → U → Option U
  | 0, _, _ => none
  | _ + 1, none, u => some u
  | fuel + 1, some a, u =>
    match m a with
    | none => none
    | some n =>
      match traverse_in m visit fuel n.left u with
      | none => none
      | some u1 => traverse_in m visit fuel n.right (visit n.key n.value u1)

/-- `bst_traverse_inorder(bst, visit, user)`; `visit = none` is a NULL
callback. -/
def bst_traverse_inorder (fuel : Nat) (b : bst K V) (visit : Option (K → V → U → U)) (user : U) :
    Option U :=
  match visit with
  | none => some user
  | some f => traverse_in b.mem f fuel b.root user

/-- `traverse_pre(n, visit, user)`. -/
def traverse_pre (m : Nat → Option (node_t K V)) (visit : K → V → U → U) :
    Nat → ptr → U → Option U
  | 0, _, _ => none
  | _ + 1, none, u => some u
  | fuel + 1, some a, u =>
    match m a with
    | none => none
    | some n =>
      match traverse_pre m visit fuel n.left (visit n.key n.value u) with
      | none => none
      | some u1 => traverse_pre m visit fuel n.right u1

/-- `traverse_post(n, visit, user)`. -/
def traverse_post (m : Nat → Option (node_t K V)) (visit : K → V → U → U) :
    Nat → ptr → U → Option U
  | 0, _, _ => none
  | _ + 1, none, u => some u
  | fuel + 1, some a, u =>
    match m a with
    | none => none
    | some n =>
      match traverse_post m visit fuel n.left u with
      | none => none
      | some u1 =>
        match traverse_post m visit fuel n.right u1 with
        | none => none
        | some u2 => some (visit n.key n.value u2)

/-- `bst_traverse_preorder(bst, visit, user)`. -/
def bst_traverse_preorder (fuel : Nat) (b : bst K V) (visit : Option (K → V → U → U)) (user : U) :
    Option U :=
  match visit with
  | none => some user
  | some f => traverse_pre b.mem f fuel b.root user

/-- `bst_traverse_postorder(bst, visit, user)`. -/
def bst_traverse_postorder (fuel : Nat) (b : bst K V) (visit : Option (K → V → U → U))
    (user : U) : Option U :=
  match visit with
  | none => some user
  | some f => traverse_post b.mem f fuel b.root user

/-- The visitor that appends each visited pair to the caller's list. -/
def collect (k : K) (v : V) (acc : List (K × V)) : List (K × V) := acc ++ [(k, v)]

/-! ## Cursor -/

/-- `struct bst_iter`: `stack` lists the entries `stack[top-1]`, ..., `stack[0]`
of the array (`top` is its length; the slots above `top` are never read),
`current` is the field of that name.  The field `bst` is written at creation
and never read: the functions below take the tree whose heap holds the nodes
as an argument. -/
structure bst_iter where
  stack : List Nat
  current : ptr
  deriving DecidableEq

/-- The number of slots of `stack`: `sizeof(it->stack)/sizeof(it->stack[0])`. -/
def iter_capacity : Nat := 64

/-- `push(it, n)`: a NULL pointer is not pushed, and neither is a node when
the array is full. -/
def push (it : bst_iter) (n : ptr) : bst_iter :=
  match n with
  | none => it
  | some a => if it.stack.length < iter_capacity then { it with stack := a :: it.stack } else it

/-- `pop(it)`: the popped pointer (NULL on an empty stack) and the cursor. -/
def pop (it : bst_iter) : ptr × bst_iter :=
  match it.stack with
  | [] => (none, it)
  | a :: rest => (some a, { it with stack := rest })

/-- The loop `while (it->current) { push(it, it->current);
it->current = it->current->left; }` of `bst_iter_inorder_create`. -/
def create_loop (m : Nat → Option (node_t K V)) : Nat → bst_iter → Option bst_iter
  | 0, _ => none
  | fuel + 1, it =>
    match it.current with
    | none => some it
    | some a =>
      match m a with
      | none => none
      | some n => create_loop m fuel { push it (some a) with current := n.left }

/-- `bst_iter_inorder_create(bst)`; `alloc_ok` tells whether `malloc`
succeeds, and the result `some none` is a NULL cursor.  There is no test of
`bst->root`: with a NULL root the loop body does not run. -/
def bst_iter_inorder_create (fuel : Nat) (b : bst K V) (alloc_ok : Bool) :
    Option (Option bst_iter) :=
  if alloc_ok then
    match create_loop b.mem fuel ⟨[], b.root⟩ with
    | none => none
    | some it => some (some it)
  else some none

/-- The loop `while (r) { push(it, r); r = r->left; }` of `bst_iter_next`. -/
def next_loop (m : Nat → Option (node_t K V)) : Nat → bst_iter → ptr → Option bst_iter
  | 0, _, _ => none
  | _ + 1, it, none => some it
  | fuel + 1, it, some a =>
    match m a with
    | none => none
    | some n => next_loop m fuel (push it (some a)) n.left

/-- `bst_iter_next(iter, out_key, out_value)` on a cursor of the tree `b`:
`none` in the first component is the result `false`, `some (k, v)` is the
result `true` with the two out-parameters. -/
def bst_iter_next (fuel : Nat) (b : bst K V) (it : bst_iter) :
    Option (Option (K × V) × bst_iter) :=
  match pop it with
  | (none, it1) => some (none, it1)
  | (some a, it1) =>
    match b.mem a with
    | none => none
    | some n =>
      match next_loop b.mem fuel it1 n.right with
      | none => none
      | some it2 => some (some (n.key, n.value), it2)

/-- The caller's loop `while (bst_iter_next(it, &k, &v)) ...`: the pairs
yielded until `bst_iter_next` returns `false`, `calls` bounding the number of
calls. -/
def iter_drain (fuel : Nat) (b : bst K V) : Nat → bst_iter → Option (List (K × V))
  | 0, _ => none
  | calls + 1, it =>
    match bst_iter_next fuel b it with
    | none => none
    | some (none, _) => some []
    | some (some p, it1) =>
      match iter_drain fuel b calls it1 with
      | none => none
      | some ps => some (p :: ps)

/-- A sequence of `bst_insert` calls, `malloc` returning the given pointers. -/
def insert_all (fuel : Nat) : bst K V → List (K × V × ptr) → Option (bst K V)
  | b, [] => some b
  | b, (k, v, fresh) :: rest =>
    match bst_insert fuel b k v fresh with
    | none => none
    | some (_, b1) => insert_all fuel b1 rest

/-- A sequence of `bst_insert` calls with their results, in order. -/
def insert_seq (fuel : Nat) : bst K V → List (K × V × ptr) → Option (List Bool × bst K V)
  | b, [] => some ([], b)
  | b, (k, v, fresh) :: rest =>
    match bst_insert fuel b k v fresh with
    | none => none
    | some (r, b1) =>
      match insert_seq fuel b1 rest with
      | none => none
      | some (rs, b2) => some (r :: rs, b2)

/-! ## Abstraction: the tree a heap holds

The theorems relate the heap to the finite tree it holds.  A `Tree` records,
for every node, its address, key and value; `Rep` says that a heap holds
exactly that tree below a pointer. -/

/-- A finite binary tree of heap nodes: address, key and value per node. -/
inductive Tree (K V : Type) where
  | nil : Tree K V
  | node : Tree K V → Nat → K → V → Tree K V → Tree K V

namespace Tree

/-- The pointer to the root node of the tree. -/
def rootp : Tree K V → ptr
  | nil => none
  | node _ a _ _ _ => some a

/-- Addresses of the nodes, in in-order. -/
def addrs : Tree K V → List Nat
  | nil => []
  | node l a _ _ r => addrs l ++ a :: addrs r

/-- Keys of the nodes, in in-order. -/
def keys : Tree K V → List K
  | nil => []
  | node l _ k _ r => keys l ++ k :: keys r

/-- The (key, value) pairs of the nodes, in in-order. -/
def pairs : Tree K V → List (K × V)
  | nil => []
  | node l _ k v r => pairs l ++ (k, v) :: pairs r

/-- Number of nodes. -/
def count : Tree K V → Nat
  | nil => 0
  | node l _ _ _ r => count l + 1 + count r

/-- Number of nodes on the longest path from the root down. -/
def depth : Tree K V → Nat
  | nil => 0
  | node l _ _ _ r => max (depth l) (depth r) + 1

/-- The subtree whose root the search for `key` stops at (`nil` when the
search falls off the tree). -/
def locate (cmp : K → K → Int) (key : K) : Tree K V → Tree K V
  | nil => nil
  | node l a k v r =>
    if cmp key k = 0 then node l a k v r
    else if cmp key k < 0 then locate cmp key l
    else locate cmp key r

/-- The value found by the search for `key`. -/
def lookup (cmp : K → K → Int) (key : K) : Tree K V → Option V
  | nil => none
  | node l _ k v r =>
    if cmp key k = 0 then some v
    else if cmp key k < 0 then lookup cmp key l
    else lookup cmp key r

/-- The tree after `bst_insert` of `key`, `value`, when a new node would get
address `n`. -/
def insert (cmp : K → K → Int) (key : K) (value : V) (n : Nat) : Tree K V → Tree K V
  | nil => node nil n key value nil
  | node l a k v r =>
    if cmp key k = 0 then node l a k value r
    else if cmp key k < 0 then node (insert cmp key value n l) a k v r
    else node l a k v (insert cmp key value n r)

/-- The leftmost node of a tree, with its right subtree. -/
def leftmost : Tree K V → Tree K V
  | nil => nil
  | node nil a k v r => node nil a k v r
  | node (node ll la lk lv lr) _ _ _ _ => leftmost (node ll la lk lv lr)

/-- The tree without its leftmost node (whose right subtree moves up). -/
def remove_min : Tree K V → Tree K V
  | nil => nil
  | node nil _ _ _ r => r
  | node (node ll la lk lv lr) a k v r => node (remove_min (node ll la lk lv lr)) a k v r

/-- The tree without its root node, as `bst_remove` rebuilds it. -/
def remove_root : Tree K V → Tree K V
  | nil => nil
  | node nil _ _ _ r => r
  | node (node ll la lk lv lr) _ _ _ nil => node ll la lk lv lr
  | node (node ll la lk lv lr) _ _ _ (node rl ra rk rv rr) =>
    match leftmost (node rl ra rk rv rr) with
    | nil => nil
    | node _ ya yk yv _ =>
      node (node ll la lk lv lr) ya yk yv (remove_min (node rl ra rk rv rr))

/-- The tree after `bst_remove` of `key`. -/
def remove (cmp : K → K → Int) (key : K) : Tree K V → Tree K V
  | nil => nil
  | node l a k v r =>
    if cmp key k = 0 then remove_root (node l a k v r)
    else if cmp key k < 0 then node (remove cmp key l) a k v r
    else node l a k v (remove cmp key r)

/-- The key `bst_floor_key` returns, `acc` being the key of the node
remembered in `floor`. -/
def floor (cmp : K → K → Int) (key : K) : Tree K V → Option K → Option K
  | nil, acc => acc
  | node l _ k _ r, acc =>
    if cmp key k = 0 then some k
    else if cmp key k < 0 then floor cmp key l acc
    else floor cmp key r (some k)

/-- The key `bst_ceiling_key` returns, `acc` being the key of the node
remembered in `ceil`. -/
def ceiling (cmp : K → K → Int) (key : K) : Tree K V → Option K → Option K
  | nil, acc => acc
  | node l _ k _ r, acc =>
    if cmp key k = 0 then some k
    else if cmp key k < 0 then ceiling cmp key l (some k)
    else ceiling cmp key r acc

/-- The (key, value) pairs of the nodes, in pre-order. -/
def pre_pairs : Tree K V → List (K × V)
  | nil => []
  | node l _ k v r => (k, v) :: (pre_pairs l ++ pre_pairs r)

/-- The (key, value) pairs of the nodes, in post-order. -/
def post_pairs : Tree K V → List (K × V)
  | nil => []
  | node l _ k v r => post_pairs l ++ (post_pairs r ++ [(k, v)])

/-- The nodes (address, key, value), in in-order. -/
def nodes : Tree K V → List (Nat × K × V)
  | nil => []
  | node l a k v r => nodes l ++ (a, k, v) :: nodes r

/-- The value `height_rec` computes on the tree. -/
def height : Tree K V → Int
  | nil => -1
  | node l _ _ _ r => int_wrap ((if height l > height r then height l else height r) + 1)

/-- Number of nodes on the left spine. -/
def spine_len : Tree K V → Nat
  | nil => 0
  | node l _ _ _ _ => spine_len l + 1

/-- The nodes of the left spine of the tree, deepest first, on top of `st`:
the stack of subtrees a cursor holds after walking down the left spine. -/
def spine : Tree K V → List (Tree K V) → List (Tree K V)
  | nil, st => st
  | node l a k v r, st => spine l (node l a k v r :: st)

/-- The right-leaning chain of the given nodes, the first one at the root. -/
def chain : List (K × V × Nat) → Tree K V
  | [] => nil
  | (k, v, a) :: rest => node nil a k v (chain rest)

end Tree

/-- The heap `m` holds the tree `t` below a node whose `parent` field should be
`par`: every node of `t` is stored at its address with its key and value and
with `left`/`right` pointing to the roots of its subtrees.  With
`links = true` the `parent` fields are required to be consistent as well. -/
def Rep (links : Bool) (m : Nat → Option (node_t K V)) : ptr → Tree K V → Prop
  | _, Tree.nil => True
  | par, Tree.node l a k v r =>
    (∃ n, m a = some n ∧ n.key = k ∧ n.value = v ∧ n.left = l.rootp ∧ n.right = r.rootp ∧
      (links = true → n.parent = par)) ∧
    Rep links m (some a) l ∧ Rep links m (some a) r

/-- The search-tree order invariant: every key in a node's left subtree
compares less than the node's key, every key in its right subtree greater. -/
def Ordered (cmp : K → K → Int) : Tree K V → Prop
  | Tree.nil => True
  | Tree.node l _ k _ r =>
    (∀ x ∈ l.keys, cmp x k < 0) ∧ (∀ x ∈ r.keys, 0 < cmp x k) ∧ Ordered cmp l ∧ Ordered cmp r

/-- The comparison callback is a three-way comparison of a total order:
swapping the arguments swaps the sign, and "not greater" is transitive. -/
structure TotalCmp (cmp : K → K → Int) : Prop where
  swap : ∀ a b, cmp a b < 0 ↔ 0 < cmp b a
  le_trans : ∀ a b c, cmp a b ≤ 0 → cmp b c ≤ 0 → cmp a c ≤ 0

/-- The state `b` holds the tree `t`: the root pointer points to it and the
heap stores it. -/
def Holds (links : Bool) (b : bst K V) (t : Tree K V) : Prop :=
  b.root = t.rootp ∧ Rep links b.mem none t

/-- Strictly ascending under the comparison function. -/
def Ascending (cmp : K → K → Int) (l : List K) : Prop :=
  l.Pairwise (fun x y => cmp x y < 0)

/-- The loop variable `floor` (resp. `ceil`) points at a node whose key is `acc`. -/
def Remembered (b : bst K V) (f : ptr) (acc : Option K) : Prop :=
  (f = none ∧ acc = none) ∨ ∃ fa fn, f = some fa ∧ b.mem fa = some fn ∧ acc = some fn.key

/-- The node at which the search for `key` falls off the tree (`p` when it
falls off at once): the value of `parent` when the loop of `bst_insert` ends. -/
def Tree.last (cmp : K → K → Int) (key : K) : Tree K V → ptr → ptr
  | Tree.nil, p => p
  | Tree.node l a k _ r, p =>
    if cmp key k = 0 then p
    else if cmp key k < 0 then Tree.last cmp key l (some a)
    else Tree.last cmp key r (some a)

/-- The state `b'` is `b` with one subtree exchanged: where `b` holds `t`
below the node `par` (in its `left` field when `side` is true, else in its
`right` field; at the root when `par` is NULL), `b'` holds `t'`, and nothing
else changed. -/
structure Splice (s : Bool) (b b' : bst K V) (par : ptr) (side : Bool) (t t' : Tree K V) :
    Prop where
  rep : Rep s b'.mem par t'
  sub : ∀ x ∈ t'.addrs, x ∈ t.addrs ∨ b.mem x = none
  frame : ∀ x, x ∉ t.addrs → x ∉ t'.addrs → par ≠ some x → b'.mem x = b.mem x
  root_top : par = none → b.root = t.rootp → b'.root = t'.rootp
  root_sub : par ≠ none → b'.root = b.root
  link : ∀ pa pn, par = some pa → b.mem pa = some pn →
    (if side then pn.left else pn.right) = t.rootp →
    b'.mem pa = some (if side then { pn with left := t'.rootp } else { pn with right := t'.rootp })

/-- The callbacks of the handle are unchanged. -/
def SameConfig (b b' : bst K V) : Prop :=
  b'.cmp = b.cmp ∧ b'.free_key = b.free_key ∧ b'.free_val = b.free_val

/-- What `malloc` may return: NULL, or a non-NULL 64-bit address that holds no
live node. -/
def FreshAddr (b : bst K V) (fresh : ptr) : Prop :=
  ∀ n, fresh = some n → b.mem n = none ∧ 0 < n ∧ n < size_mod

/-- The size invariant: the entry count is the number of nodes of the tree;
the nodes sit at non-NULL 64-bit addresses. -/
def Counted (b : bst K V) (t : Tree K V) : Prop :=
  b.size = t.count ∧ ∀ x ∈ t.addrs, 0 < x ∧ x < size_mod

/-- The key and the three link fields of a node (everything but the value). -/
def node_t.links (n : node_t K V) : K × ptr × ptr × ptr :=
  (n.key, n.left, n.right, n.parent)

/-- The data-model invariants of a state: it holds a tree with consistent
parent links, the nodes of the tree sit at pairwise distinct addresses, and
the size counter is the number of nodes. -/
def Valid (b : bst K V) (t : Tree K V) : Prop :=
  Holds true b t ∧ t.addrs.Nodup ∧ Counted b t

/-- The states obtained from `bst_create` by a finite sequence of calls of
`bst_insert`, `bst_remove` and `bst_clear` that return, `malloc` returning
NULL or an unused address each time. -/
inductive Reachable : bst K V → Prop where
  | create (cmp : K → K → Int) (free_key free_val : Bool) (b : bst K V) :
      bst_create (some cmp) free_key free_val true = some b → Reachable b
  | insert (b b' : bst K V) (r : Bool) (key : K) (value : V) (fresh : ptr) (fuel : Nat) :
      Reachable b → FreshAddr b fresh →
      bst_insert fuel b key value fresh = some (r, b') → Reachable b'
  | remove (b b' : bst K V) (r : Bool) (key : K) (fuel : Nat) :
      Reachable b → bst_remove fuel b key = some (r, b') → Reachable b'
  | clear (b b' : bst K V) (fuel : Nat) :
      Reachable b → bst_clear fuel b = some b' → Reachable b'

/-- The address `a` on the cursor's stack stands for the subtree `f`: the node
at `a` is the root of `f`, and the heap holds the right subtree of `f`. -/
def Frame (m : Nat → Option (node_t K V)) (a : Nat) (f : Tree K V) : Prop :=
  match f with
  | Tree.nil => False
  | Tree.node _ a' k v r =>
    a = a' ∧ (∃ n, m a = some n ∧ n.key = k ∧ n.value = v ∧ n.right = r.rootp) ∧
      Rep false m (some a) r

/-- The cursor's stack stands for the given subtrees, top first. -/
def Frames (m : Nat → Option (node_t K V)) (st : List Nat) (fs : List (Tree K V)) : Prop :=
  List.Forall₂ (Frame m) st fs

/-- The pairs a cursor still has to yield when its stack stands for the given
subtrees: for each of them its root and then its right subtree. -/
def pending : List (Tree K V) → List (K × V)
  | [] => []
  | Tree.nil :: fs => pending fs
  | Tree.node _ _ k v r :: fs => (k, v) :: (r.pairs ++ pending fs)

/-- Every subtree on the stack has room left above it for its deepest path. -/
def Fits : List (Tree K V) → Prop
  | [] => True
  | f :: fs => f.depth + fs.length ≤ iter_capacity ∧ Fits fs

/-- The caller's use of a cursor: create it, call `bst_iter_next` until it
returns `false`, and collect the pairs. -/
def cursor_pairs (fuel calls : Nat) (b : bst K V) : Option (List (K × V)) :=
  match bst_iter_inorder_create fuel b true with
  | some (some it) => iter_drain fuel b calls it
  | _ => none

/-- The arguments of a sequence of `bst_insert` calls in which `malloc`
succeeds each time. -/
def with_alloc (l : List (K × V × Nat)) : List (K × V × ptr) :=
  l.map fun e => (e.1, e.2.1, some e.2.2)

/-! ## A concrete tree

The examples use integer keys with the three-way comparison `cmp_int` of
`src/tests/test_bst.c`. -/

/-- `cmp_int` of the test suite: `(ia > ib) - (ia < ib)`. -/
def cmp_int (a b : Int) : Int :=
  (if a > b then 1 else 0) - (if a < b then 1 else 0)

/-- A heap with three nodes: 20 at address 1, its children 10 at address 2 and
30 at address 3. -/
def demo_mem : Nat → Option (node_t Int Int) := fun a =>
  if a = 1 then some ⟨20, 200, some 2, some 3, none⟩
  else if a = 2 then some ⟨10, 100, none, none, some 1⟩
  else if a = 3 then some ⟨30, 300, none, none, some 1⟩
  else none

/-- A handle on `demo_mem` with both release callbacks registered. -/
def demo : bst Int Int := ⟨some 1, 3, cmp_int, true, true, demo_mem, []⟩

/-- The tree `demo` holds. -/
def demo_tree : Tree Int Int :=
  Tree.node (Tree.node Tree.nil 2 10 100 Tree.nil) 1 20 200 (Tree.node Tree.nil 3 30 300 Tree.nil)

/-- The state `bst_create(cmp_int, free, free)` returns. -/
def demo_empty : bst Int Int := ⟨none, 0, cmp_int, true, true, fun _ => none, []⟩

/-- The state after inserting key 20 into `demo_empty`, `malloc` returning
address 1. -/
def demo_one : bst Int Int :=
  { demo_empty with
    root := some 1
    size := 1
    mem := store (store demo_empty.mem 1 ⟨20, 200, none, none, none⟩) 1
      ⟨20, 200, none, none, none⟩ }

/-- The keys `0, 1, ..., n-1` in ascending order, all with value 0, for the
addresses `1, ..., n`. -/
def ramp (n : Nat) : List (Int × Int × Nat) :=
  (List.range n).map fun (i : Nat) => ((i : Int), (0 : Int), i + 1)

/-- The keys `n, n-1, ..., 1` in descending order, all with value 0, for the
addresses `1, ..., n`. -/
def slope (n : Nat) : List (Int × Int × Nat) :=
  (List.range n).map fun (i : Nat) => ((n : Int) - (i : Int), (0 : Int), i + 1)

/-- Key objects with integer content: a key is its content together with a
tag telling the objects apart, and the comparison looks at the content only
(as `cmp_str` does on two copies of a string). -/
def cmp_obj (a b : Int × Nat) : Int := cmp_int a.1 b.1

/-- The heap of `demo_mem` with the key objects tagged 0. -/
def obj_mem : Nat → Option (node_t (Int × Nat) Int) := fun a =>
  if a = 1 then some ⟨(20, 0), 200, some 2, some 3, none⟩
  else if a = 2 then some ⟨(10, 0), 100, none, none, some 1⟩
  else if a = 3 then some ⟨(30, 0), 300, none, none, some 1⟩
  else none

/-- A handle on `obj_mem` with both release callbacks registered. -/
def obj_demo : bst (Int × Nat) Int := ⟨some 1, 3, cmp_obj, true, true, obj_mem, []⟩

/-- The tree `obj_demo` holds. -/
def obj_tree : Tree (Int × Nat) Int :=
  Tree.node (Tree.node Tree.nil 2 (10, 0) 100 Tree.nil) 1 (20, 0) 200
    (Tree.node Tree.nil 3 (30, 0) 300 Tree.nil)

/-! ## The demonstration program

`src/examples/main.c` builds a tree with string keys compared by `strcmp`. -/

/-- `strcmp` on C strings, given as the bytes before the terminating NUL: the
difference of the first bytes that differ. -/
def strcmp : List Nat → List Nat → Int
  | [], [] => 0
  | [], c :: _ => 0 - (c : Int)
  | c :: _, [] => (c : Int)
  | c :: s, d :: t => if c = d then strcmp s t else (c : Int) - (d : Int)

/-- The bytes of a string literal. -/
def cstr (s : String) : List Nat := s.toList.map Char.toNat

/-- The insertion loop of `main`: the pairs are inserted in order, `malloc`
returning the given addresses. -/
def main_inserts (fuel : Nat) :
    bst (List Nat) Int → List (String × Int × Nat) → Option (bst (List Nat) Int)
  | b, [] => some b
  | b, (k, v, a) :: rest =>
    match bst_insert fuel b (cstr k) v (some a) with
    | some (_, b1) => main_inserts fuel b1 rest
    | none => none

/-- The tree of `main` after its five insertions. -/
def main_tree : Option (bst (List Nat) Int) :=
  match bst_create (some strcmp) true true true with
  | none => none
  | some b =>
    main_inserts 5 b
      [("delta", 4, 1), ("alpha", 1, 2), ("charlie", 3, 3), ("bravo", 2, 4), ("echo", 5, 5)]

/-! ## The test suite

`src/tests/test_bst.c` builds a tree with the keys "delta", "beta", "alpha",
"gamma", "epsilon", overwrites "alpha", and then removes keys one by one. -/

/-- The tree of the test suite after "Multiple insertions" and "Duplicate key
insertion". -/
def test_tree : Option (bst (List Nat) Int) :=
  match bst_create (some strcmp) true true true with
  | none => none
  | some b =>
    main_inserts 5 b
      [("delta", 4, 1), ("beta", 2, 2), ("alpha", 1, 3), ("gamma", 3, 4), ("epsilon", 5, 5),
        ("alpha", 99, 6)]

/-- The removals of the test suite, in order: the state after each of the
given `bst_remove` calls, with the list of their results. -/
def test_removes (fuel : Nat) :
    bst (List Nat) Int → List String → Option (List Bool × bst (List Nat) Int)
  | b, [] => some ([], b)
  | b, k :: rest =>
    match bst_remove fuel b (cstr k) with
    | none => none
    | some (r, b1) =>
      match test_removes fuel b1 rest with
      | none => none
      | some (rs, b2) => some (r :: rs, b2)

/-- A tree in which the in-order successor of the root is not its right
child: keys 50, 30, 80, 60, 90, 55, 57 inserted in that order. -/
def deep_tree : Option (bst Int Int) :=
  (((((((some demo_empty).bind fun b => (bst_insert 5 b 50 0 (some 1)).map Prod.snd).bind
    fun b => (bst_insert 5 b 30 0 (some 2)).map Prod.snd).bind
    fun b => (bst_insert 5 b 80 0 (some 3)).map Prod.snd).bind
    fun b => (bst_insert 5 b 60 0 (some 4)).map Prod.snd).bind
    fun b => (bst_insert 5 b 90 0 (some 5)).map Prod.snd).bind
    fun b => (bst_insert 5 b 55 0 (some 6)).map Prod.snd).bind
    fun b => (bst_insert 5 b 57 0 (some 7)).map Prod.snd

/-- The state a call of `bst_insert` leaves behind (the state before the call
when the fuel does not suffice for it). -/
def insert_step (fuel : Nat) (b : bst K V) (key : K) (value : V) (fresh : ptr) : bst K V :=
  ((bst_insert fuel b key value fresh).map Prod.snd).getD b

/-- The state a call of `bst_remove` leaves behind (the state before the call
when the fuel does not suffice for it). -/
def remove_step (fuel : Nat) (b : bst K V) (key : K) : bst K V :=
  ((bst_remove fuel b key).map Prod.snd).getD b

/-- The state after inserting the keys 50, 30, 80, 60, 90, 55, 57 in that
order into `demo_empty`, `malloc` returning the addresses 1, ..., 7. -/
def demo_grown : bst Int Int :=
  insert_step 6 (insert_step 6 (insert_step 6 (insert_step 6 (insert_step 6 (insert_step 6
    (insert_step 6 demo_empty 50 0 (some 1)) 30 0 (some 2)) 80 0 (some 3)) 60 0 (some 4))
    90 0 (some 5)) 55 0 (some 6)) 57 0 (some 7)

/-- The state after removing from `demo_grown` the key 50 (the root, with two
children, whose in-order successor 55 is not its right child) and then the key
60 (a node with one child). -/
def demo_pruned : bst Int Int :=
  remove_step 6 (remove_step 6 demo_grown 50) 60

/-- The state after inserting the key 70 into `demo_pruned`, `malloc`
returning the address 1 that the removal of 50 released. -/
def demo_run : bst Int Int :=
  insert_step 6 demo_pruned 70 0 (some 1)

/-! ## Facts about the comparison -/

theorem TotalCmp.refl {cmp : K → K → Int} (h : TotalCmp cmp) (a : K) : cmp a a = 0 := by
  have h1 := h.swap a a
  omega

theorem TotalCmp.eq_symm {cmp : K → K → Int} (h : TotalCmp cmp) {a b : K} (e : cmp a b = 0) :
    cmp b a = 0 := by
  have h1 := h.swap a b
  have h2 := h.swap b a
  omega

theorem TotalCmp.lt_of_lt_of_le {cmp : K → K → Int} (h : TotalCmp cmp) {a b c : K}
    (h1 : cmp a b < 0) (h2 : cmp b c ≤ 0) : cmp a c < 0 := by
  by_contra hn
  have h5 := h.swap a c
  have h7 := h.swap a b
  have := h.le_trans b c a h2 (by omega)
  omega

theorem TotalCmp.lt_of_le_of_lt {cmp : K → K → Int} (h : TotalCmp cmp) {a b c : K}
    (h1 : cmp a b ≤ 0) (h2 : cmp b c < 0) : cmp a c < 0 := by
  by_contra hn
  have h5 := h.swap a c
  have h7 := h.swap b c
  have := h.le_trans c a b (by omega) h1
  omega

theorem TotalCmp.lt_trans {cmp : K → K → Int} (h : TotalCmp cmp) {a b c : K}
    (h1 : cmp a b < 0) (h2 : cmp b c < 0) : cmp a c < 0 :=
  h.lt_of_lt_of_le h1 (by omega)

/-! ## Heap reads after writes -/

theorem store_same (m : Nat → Option (node_t K V)) (a : Nat) (n : node_t K V) :
    store m a n a = some n := by
  simp [store]

theorem store_other (m : Nat → Option (node_t K V)) {a x : Nat} (n : node_t K V) (h : x ≠ a) :
    store m a n x = m x := by
  simp [store, h]

theorem dealloc_same (m : Nat → Option (node_t K V)) (a : Nat) : dealloc m a a = none := by
  simp [dealloc]

theorem dealloc_other (m : Nat → Option (node_t K V)) {a x : Nat} (h : x ≠ a) :
    dealloc m a x = m x := by
  simp [dealloc, h]

/-! ## The representation predicate -/

theorem rep_nil (s : Bool) (m : Nat → Option (node_t K V)) (par : ptr) :
    Rep s m par Tree.nil ↔ True := by
  simp [Rep]

theorem rep_node (s : Bool) (m : Nat → Option (node_t K V)) (par : ptr)
    (l : Tree K V) (a : Nat) (k : K) (v : V) (r : Tree K V) :
    Rep s m par (Tree.node l a k v r) ↔
      (∃ n, m a = some n ∧ n.key = k ∧ n.value = v ∧ n.left = l.rootp ∧ n.right = r.rootp ∧
        (s = true → n.parent = par)) ∧
      Rep s m (some a) l ∧ Rep s m (some a) r := by
  simp [Rep]

/-- A heap that agrees with `m` on the addresses of `t` holds `t` as well. -/
theorem Rep.frame {s : Bool} {m m' : Nat → Option (node_t K V)} {par : ptr} {t : Tree K V}
    (h : Rep s m par t) (hf : ∀ x ∈ t.addrs, m' x = m x) : Rep s m' par t := by
  induction t generalizing par with
  | nil => simp [Rep]
  | node l a k v r ihl ihr =>
    rw [rep_node] at h ⊢
    obtain ⟨⟨n, hn, hrest⟩, h1, h2⟩ := h
    refine ⟨⟨n, ?_, hrest⟩, ihl h1 ?_, ihr h2 ?_⟩
    · rw [hf a (by simp [Tree.addrs])]; exact hn
    · intro x hx; exact hf x (by simp [Tree.addrs, hx])
    · intro x hx; exact hf x (by simp [Tree.addrs, hx])

/-- Consistent parent links are extra: dropping the requirement keeps `Rep`. -/
theorem Rep.forget {s : Bool} {m : Nat → Option (node_t K V)} {par par' : ptr} {t : Tree K V}
    (h : Rep s m par t) : Rep false m par' t := by
  induction t generalizing par par' with
  | nil => simp [Rep]
  | node l a k v r ihl ihr =>
    rw [rep_node] at h ⊢
    obtain ⟨⟨n, hn, hk, hv, hl, hr, _⟩, h1, h2⟩ := h
    exact ⟨⟨n, hn, hk, hv, hl, hr, by simp⟩, ihl h1, ihr h2⟩

/-- Every address of the tree holds a node whose key is a key of the tree. -/
theorem Rep.key_mem {s : Bool} {m : Nat → Option (node_t K V)} {par : ptr} {t : Tree K V}
    (h : Rep s m par t) {x : Nat} (hx : x ∈ t.addrs) : ∃ n, m x = some n ∧ n.key ∈ t.keys := by
  induction t generalizing par with
  | nil => simp [Tree.addrs] at hx
  | node l a k v r ihl ihr =>
    rw [rep_node] at h
    obtain ⟨⟨n, hn, hk, _⟩, h1, h2⟩ := h
    simp only [Tree.addrs, List.mem_append, List.mem_cons] at hx
    rcases hx with hx | hx | hx
    · obtain ⟨n', hn', hmem⟩ := ihl h1 hx
      exact ⟨n', hn', by simp [Tree.keys, hmem]⟩
    · subst hx
      exact ⟨n, hn, by simp [Tree.keys, hk]⟩
    · obtain ⟨n', hn', hmem⟩ := ihr h2 hx
      exact ⟨n', hn', by simp [Tree.keys, hmem]⟩

/-- In an ordered tree no address occurs twice: two occurrences would carry
the same key at two places of a strictly ascending sequence. -/
theorem Rep.nodup {s : Bool} {m : Nat → Option (node_t K V)} {par : ptr} {t : Tree K V}
    {cmp : K → K → Int} (hc : TotalCmp cmp) (h : Rep s m par t) (ho : Ordered cmp t) :
    t.addrs.Nodup := by
  induction t generalizing par with
  | nil => simp [Tree.addrs]
  | node l a k v r ihl ihr =>
    have h0 := h
    rw [rep_node] at h
    obtain ⟨⟨n, hn, hk, _⟩, h1, h2⟩ := h
    obtain ⟨ol, orr, o1, o2⟩ := ho
    simp only [Tree.addrs]
    rw [List.nodup_append]
    refine ⟨ihl h1 o1, ?_, ?_⟩
    · rw [List.nodup_cons]
      refine ⟨?_, ihr h2 o2⟩
      intro ha
      obtain ⟨n', hn', hmem⟩ := h2.key_mem ha
      rw [hn] at hn'
      cases hn'
      have := orr _ hmem
      rw [hk, hc.refl] at this
      omega
    · intro x hxl hxr
      obtain ⟨n1, hn1, hm1⟩ := h1.key_mem hxl
      rw [List.mem_cons] at hxr
      rcases hxr with hxr | hxr
      · subst hxr
        rw [hn] at hn1
        cases hn1
        have := ol _ hm1
        rw [hk, hc.refl] at this
        omega
      · obtain ⟨n2, hn2, hm2⟩ := h2.key_mem hxr
        rw [hn1] at hn2
        cases hn2
        have e1 := ol _ hm1
        have e2 := orr _ hm2
        have := hc.lt_trans e1 ((hc.swap _ _).mpr e2)
        rw [hc.refl] at this
        omega

/-! ## Read-only operations compute on the tree the heap holds -/

theorem rootp_nil : (Tree.nil : Tree K V).rootp = none := rfl

theorem rootp_node (l : Tree K V) (a : Nat) (k : K) (v : V) (r : Tree K V) :
    (Tree.node l a k v r).rootp = some a := rfl

theorem find_loop_rep {s : Bool} {b : bst K V} {par : ptr} {t : Tree K V}
    (h : Rep s b.mem par t) (key : K) {fuel : Nat} (hf : t.depth < fuel) :
    find_loop b key fuel t.rootp = some (t.locate b.cmp key).rootp := by
  induction t generalizing par fuel with
  | nil =>
    cases fuel with
    | zero => omega
    | succ f => simp [find_loop, rootp_nil, Tree.locate]
  | node l a k v r ihl ihr =>
    rw [rep_node] at h
    obtain ⟨⟨n, hn, hk, hv, hl, hr, _⟩, h1, h2⟩ := h
    cases fuel with
    | zero => omega
    | succ f =>
      simp only [Tree.depth] at hf
      simp only [find_loop, rootp_node, hn, hk, Tree.locate]
      by_cases c0 : b.cmp key k = 0
      · simp [c0, rootp_node]
      · by_cases c1 : b.cmp key k < 0
        · simp only [c0, c1, if_true, if_false, hl]
          exact ihl h1 (by omega)
        · simp only [c0, c1, if_false, hr]
          exact ihr h2 (by omega)

/-- The subtree located by a search is held by the heap too. -/
theorem Rep.locate {s : Bool} {m : Nat → Option (node_t K V)} {par : ptr} {t : Tree K V}
    (h : Rep s m par t) (cmp : K → K → Int) (key : K) :
    ∃ par', Rep s m par' (t.locate cmp key) := by
  induction t generalizing par with
  | nil => exact ⟨none, by simp [Tree.locate, Rep]⟩
  | node l a k v r ihl ihr =>
    have h0 := h
    rw [rep_node] at h
    simp only [Tree.locate]
    by_cases c0 : cmp key k = 0
    · simp only [c0, if_true]; exact ⟨par, h0⟩
    · by_cases c1 : cmp key k < 0
      · simp only [c0, c1, if_true, if_false]; exact ihl h.2.1
      · simp only [c0, c1, if_false]; exact ihr h.2.2

theorem locate_depth (cmp : K → K → Int) (key : K) (t : Tree K V) :
    (t.locate cmp key).depth ≤ t.depth := by
  induction t with
  | nil => simp [Tree.locate]
  | node l a k v r ihl ihr =>
    simp only [Tree.locate]
    by_cases c0 : cmp key k = 0
    · simp [c0]
    · by_cases c1 : cmp key k < 0
      · simp only [c0, c1, if_true, if_false, Tree.depth]; omega
      · simp only [c0, c1, if_false, Tree.depth]; omega

/-- The root of the located subtree carries a key comparing equal to the probe. -/
theorem locate_node (cmp : K → K → Int) (key : K) (t : Tree K V) :
    t.locate cmp key = Tree.nil ∨
      ∃ l a k v r, t.locate cmp key = Tree.node l a k v r ∧ cmp key k = 0 ∧
        t.lookup cmp key = some v ∧ k ∈ t.keys ∧ a ∈ t.addrs := by
  induction t with
  | nil => simp [Tree.locate]
  | node l a k v r ihl ihr =>
    simp only [Tree.locate, Tree.lookup]
    by_cases c0 : cmp key k = 0
    · right
      exact ⟨l, a, k, v, r, by simp [c0], c0, by simp [c0], by simp [Tree.keys], by simp [Tree.addrs]⟩
    · by_cases c1 : cmp key k < 0
      · simp only [c0, c1, if_true, if_false]
        rcases ihl with e | ⟨l', a', k', v', r', e, ec, el, ek, ea⟩
        · left; exact e
        · right; exact ⟨l', a', k', v', r', e, ec, el, by simp [Tree.keys, ek], by simp [Tree.addrs, ea]⟩
      · simp only [c0, c1, if_false]
        rcases ihr with e | ⟨l', a', k', v', r', e, ec, el, ek, ea⟩
        · left; exact e
        · right; exact ⟨l', a', k', v', r', e, ec, el, by simp [Tree.keys, ek], by simp [Tree.addrs, ea]⟩

theorem locate_nil_lookup (cmp : K → K → Int) (key : K) (t : Tree K V) :
    t.locate cmp key = Tree.nil ↔ t.lookup cmp key = none := by
  induction t with
  | nil => simp [Tree.locate, Tree.lookup]
  | node l a k v r ihl ihr =>
    simp only [Tree.locate, Tree.lookup]
    by_cases c0 : cmp key k = 0
    · simp [c0]
    · by_cases c1 : cmp key k < 0
      · simp only [c0, c1, if_true, if_false]; exact ihl
      · simp only [c0, c1, if_false]; exact ihr

theorem find_node_holds {s : Bool} {b : bst K V} {t : Tree K V} (h : Holds s b t) (key : K)
    {fuel : Nat} (hf : t.depth < fuel) :
    find_node fuel b key = some (t.locate b.cmp key).rootp := by
  unfold find_node
  rw [h.1]
  exact find_loop_rep h.2 key hf

theorem bst_get_holds {s : Bool} {b : bst K V} {t : Tree K V} (h : Holds s b t) (key : K)
    {fuel : Nat} (hf : t.depth < fuel) :
    bst_get fuel b key = some (t.lookup b.cmp key) := by
  unfold bst_get
  rw [find_node_holds h key hf]
  rcases locate_node b.cmp key t with e | ⟨l, a, k, v, r, e, _, el, _, _⟩
  · rw [e]
    rw [(locate_nil_lookup _ _ _).mp e]
    simp [rootp_nil]
  · obtain ⟨par', hr⟩ := h.2.locate b.cmp key
    rw [e, rep_node] at hr
    obtain ⟨⟨n, hn, _, hv, _⟩, _⟩ := hr
    rw [e, el]
    simp [rootp_node, hn, hv]

theorem bst_contains_holds {s : Bool} {b : bst K V} {t : Tree K V} (h : Holds s b t) (key : K)
    {fuel : Nat} (hf : t.depth < fuel) :
    bst_contains fuel b key = some (t.lookup b.cmp key).isSome := by
  unfold bst_contains
  rw [find_node_holds h key hf]
  rcases locate_node b.cmp key t with e | ⟨l, a, k, v, r, e, _, el, _, _⟩
  · rw [e, (locate_nil_lookup _ _ _).mp e]
    simp [rootp_nil]
  · rw [e, el]
    simp [rootp_node]

theorem traverse_in_rep {s : Bool} {m : Nat → Option (node_t K V)} {par : ptr} {t : Tree K V}
    (h : Rep s m par t) (visit : K → V → U → U) {fuel : Nat} (hf : t.depth < fuel) (u : U) :
    traverse_in m visit fuel t.rootp u = some (t.pairs.foldl (fun acc p => visit p.1 p.2 acc) u) := by
  induction t generalizing par fuel u with
  | nil =>
    cases fuel with
    | zero => omega
    | succ f => simp [traverse_in, rootp_nil, Tree.pairs]
  | node l a k v r ihl ihr =>
    rw [rep_node] at h
    obtain ⟨⟨n, hn, hk, hv, hl, hr, _⟩, h1, h2⟩ := h
    cases fuel with
    | zero => omega
    | succ f =>
      simp only [Tree.depth] at hf
      have e1 := fun u => @ihl (some a) h1 f (by omega) u
      have e2 := fun u => @ihr (some a) h2 f (by omega) u
      simp only [traverse_in, rootp_node, hn, hl, hr, hk, hv, e1, e2]
      simp [Tree.pairs, List.foldl_append]

theorem foldl_collect (l : List (K × V)) (acc : List (K × V)) :
    l.foldl (fun acc p => collect p.1 p.2 acc) acc = acc ++ l := by
  induction l generalizing acc with
  | nil => simp
  | cons p l ih =>
    rw [List.foldl_cons, ih]
    simp [collect]

/-- The in-order traversal visits the pairs of the tree, in order. -/
theorem bst_traverse_inorder_holds {s : Bool} {b : bst K V} {t : Tree K V} (h : Holds s b t)
    {fuel : Nat} (hf : t.depth < fuel) :
    bst_traverse_inorder fuel b (some collect) [] = some t.pairs := by
  unfold bst_traverse_inorder
  simp only []
  rw [h.1, traverse_in_rep h.2 collect hf, foldl_collect]
  simp

theorem pairs_keys (t : Tree K V) : t.pairs.map Prod.fst = t.keys := by
  induction t with
  | nil => simp [Tree.pairs, Tree.keys]
  | node l a k v r ihl ihr => simp [Tree.pairs, Tree.keys, ihl, ihr]

theorem pairs_length (t : Tree K V) : t.pairs.length = t.count := by
  induction t with
  | nil => simp [Tree.pairs, Tree.count]
  | node l a k v r ihl ihr => simp [Tree.pairs, Tree.count, ihl, ihr]; omega

theorem addrs_length (t : Tree K V) : t.addrs.length = t.count := by
  induction t with
  | nil => simp [Tree.addrs, Tree.count]
  | node l a k v r ihl ihr => simp [Tree.addrs, Tree.count, ihl, ihr]; omega

/-! ## Ordered trees have ascending key sequences -/

theorem ordered_ascending {cmp : K → K → Int} (hc : TotalCmp cmp) {t : Tree K V}
    (ho : Ordered cmp t) : Ascending cmp t.keys := by
  induction t with
  | nil => simp [Ascending, Tree.keys]
  | node l a k v r ihl ihr =>
    obtain ⟨ol, orr, o1, o2⟩ := ho
    unfold Ascending at *
    simp only [Tree.keys]
    rw [List.pairwise_append]
    refine ⟨ihl o1, ?_, ?_⟩
    · rw [List.pairwise_cons]
      exact ⟨fun x hx => (hc.swap _ _).mpr (orr x hx), ihr o2⟩
    · intro x hx y hy
      rw [List.mem_cons] at hy
      rcases hy with hy | hy
      · subst hy; exact ol x hx
      · exact hc.lt_trans (ol x hx) ((hc.swap _ _).mpr (orr y hy))

/-- Two keys of an ascending sequence that compare equal are the same key. -/
theorem ascending_eq {cmp : K → K → Int} (hc : TotalCmp cmp) {l : List K}
    (ha : Ascending cmp l) {x y : K} (hx : x ∈ l) (hy : y ∈ l) (e : cmp x y = 0) : x = y := by
  by_contra hne
  have hs : Symmetric (fun x y : K => cmp x y ≠ 0) := by
    intro p q hpq hqp
    exact hpq (hc.eq_symm hqp)
  have hp : l.Pairwise (fun x y : K => cmp x y ≠ 0) := by
    refine List.Pairwise.imp ?_ ha
    intro p q hpq
    omega
  exact hp.forall hs hx hy hne e

/-! ## Floor and ceiling -/

theorem floor_loop_rep {s : Bool} {b : bst K V} {par : ptr} {t : Tree K V}
    (h : Rep s b.mem par t) (key : K) {fuel : Nat} (hf : t.depth < fuel) (f : ptr)
    (acc : Option K) (hacc : Remembered b f acc) :
    floor_loop b key fuel t.rootp f = some (t.floor b.cmp key acc) := by
  induction t generalizing par fuel f acc with
  | nil =>
    cases fuel with
    | zero => omega
    | succ n =>
      rcases hacc with ⟨e1, e2⟩ | ⟨fa, fn, e1, e2, e3⟩
      · subst e1 e2; simp [floor_loop, rootp_nil, Tree.floor]
      · subst e1 e3; simp [floor_loop, rootp_nil, Tree.floor, e2]
  | node l a k v r ihl ihr =>
    rw [rep_node] at h
    obtain ⟨⟨n, hn, hk, hv, hl, hr, _⟩, h1, h2⟩ := h
    cases fuel with
    | zero => omega
    | succ g =>
      simp only [Tree.depth] at hf
      simp only [floor_loop, rootp_node, hn, hk, Tree.floor]
      by_cases c0 : b.cmp key k = 0
      · simp [c0]
      · by_cases c1 : b.cmp key k < 0
        · simp only [c0, c1, if_true, if_false, hl]
          exact ihl h1 (by omega) f acc hacc
        · simp only [c0, c1, if_false, hr]
          exact ihr h2 (by omega) (some a) (some k) (Or.inr ⟨a, n, rfl, hn, by rw [hk]⟩)

theorem ceiling_loop_rep {s : Bool} {b : bst K V} {par : ptr} {t : Tree K V}
    (h : Rep s b.mem par t) (key : K) {fuel : Nat} (hf : t.depth < fuel) (f : ptr)
    (acc : Option K) (hacc : Remembered b f acc) :
    ceiling_loop b key fuel t.rootp f = some (t.ceiling b.cmp key acc) := by
  induction t generalizing par fuel f acc with
  | nil =>
    cases fuel with
    | zero => omega
    | succ n =>
      rcases hacc with ⟨e1, e2⟩ | ⟨fa, fn, e1, e2, e3⟩
      · subst e1 e2; simp [ceiling_loop, rootp_nil, Tree.ceiling]
      · subst e1 e3; simp [ceiling_loop, rootp_nil, Tree.ceiling, e2]
  | node l a k v r ihl ihr =>
    rw [rep_node] at h
    obtain ⟨⟨n, hn, hk, hv, hl, hr, _⟩, h1, h2⟩ := h
    cases fuel with
    | zero => omega
    | succ g =>
      simp only [Tree.depth] at hf
      simp only [ceiling_loop, rootp_node, hn, hk, Tree.ceiling]
      by_cases c0 : b.cmp key k = 0
      · simp [c0]
      · by_cases c1 : b.cmp key k < 0
        · simp only [c0, c1, if_true, if_false, hl]
          exact ihl h1 (by omega) (some a) (some k) (Or.inr ⟨a, n, rfl, hn, by rw [hk]⟩)
        · simp only [c0, c1, if_false, hr]
          exact ihr h2 (by omega) f acc hacc

theorem bst_floor_key_holds {s : Bool} {b : bst K V} {t : Tree K V} (h : Holds s b t) (key : K)
    {fuel : Nat} (hf : t.depth < fuel) :
    bst_floor_key fuel b key = some (t.floor b.cmp key none) := by
  unfold bst_floor_key
  cases t with
  | nil => simp [h.1, rootp_nil, Tree.floor]
  | node l a k v r =>
    have := floor_loop_rep h.2 key hf none none (Or.inl ⟨rfl, rfl⟩)
    simp only [h.1, rootp_node] at this ⊢
    exact this

theorem bst_ceiling_key_holds {s : Bool} {b : bst K V} {t : Tree K V} (h : Holds s b t) (key : K)
    {fuel : Nat} (hf : t.depth < fuel) :
    bst_ceiling_key fuel b key = some (t.ceiling b.cmp key none) := by
  unfold bst_ceiling_key
  cases t with
  | nil => simp [h.1, rootp_nil, Tree.ceiling]
  | node l a k v r =>
    have := ceiling_loop_rep h.2 key hf none none (Or.inl ⟨rfl, rfl⟩)
    simp only [h.1, rootp_node] at this ⊢
    exact this

/-- What the floor search returns: a key not above the probe that is above
every other such key; the remembered key lies below the whole tree. -/
theorem floor_spec {cmp : K → K → Int} (hc : TotalCmp cmp) (q : K) {t : Tree K V}
    (ho : Ordered cmp t) (acc : Option K)
    (hacc : ∀ ak, acc = some ak → cmp ak q < 0 ∧ ∀ x ∈ t.keys, cmp ak x < 0) :
    (∀ f, t.floor cmp q acc = some f →
        (f ∈ t.keys ∨ acc = some f) ∧ cmp f q ≤ 0 ∧ ∀ x ∈ t.keys, cmp x q ≤ 0 → cmp x f ≤ 0) ∧
      (t.floor cmp q acc = none → acc = none ∧ ∀ x ∈ t.keys, 0 < cmp x q) := by
  induction t generalizing acc with
  | nil =>
    simp only [Tree.floor, Tree.keys, List.not_mem_nil, false_or, false_imp_iff, implies_true,
      and_true]
    refine ⟨fun f hf => ⟨hf, ?_⟩, fun e => e⟩
    have := (hacc f hf).1
    omega
  | node l a k v r ihl ihr =>
    obtain ⟨ol, orr, o1, o2⟩ := ho
    simp only [Tree.floor]
    by_cases c0 : cmp q k = 0
    · simp only [c0, if_true, Option.some.injEq, reduceCtorEq, false_imp_iff, and_true]
      intro f hf
      subst hf
      refine ⟨Or.inl (by simp [Tree.keys]), by have := hc.eq_symm c0; omega, ?_⟩
      intro x _ hxq
      exact hc.le_trans x q k hxq (by omega)
    · by_cases c1 : cmp q k < 0
      · simp only [c0, c1, if_true, if_false]
        have hq : ∀ x ∈ r.keys, 0 < cmp x q := by
          intro x hx
          have := hc.lt_trans c1 ((hc.swap _ _).mpr (orr x hx))
          exact (hc.swap _ _).mp this
        have hk : 0 < cmp k q := (hc.swap _ _).mp c1
        have := ihl o1 acc (fun ak e => ⟨(hacc ak e).1, fun x hx =>
          (hacc ak e).2 x (by simp [Tree.keys, hx])⟩)
        refine ⟨fun f hf => ?_, fun e => ?_⟩
        · obtain ⟨m1, m2, m3⟩ := this.1 f hf
          refine ⟨?_, m2, ?_⟩
          · rcases m1 with m1 | m1
            · left; simp [Tree.keys, m1]
            · right; exact m1
          · intro x hx hxq
            simp only [Tree.keys, List.mem_append, List.mem_cons] at hx
            rcases hx with hx | hx | hx
            · exact m3 x hx hxq
            · subst hx; omega
            · have := hq x hx; omega
        · obtain ⟨m1, m2⟩ := this.2 e
          refine ⟨m1, ?_⟩
          intro x hx
          simp only [Tree.keys, List.mem_append, List.mem_cons] at hx
          rcases hx with hx | hx | hx
          · exact m2 x hx
          · subst hx; exact hk
          · exact hq x hx
      · simp only [c0, c1, if_false]
        have hkq : cmp k q < 0 := by
          have := hc.swap k q
          have := hc.swap q k
          omega
        have := ihr o2 (some k) (fun ak e => by
          cases e
          exact ⟨hkq, fun x hx => (hc.swap _ _).mpr (orr x hx)⟩)
        refine ⟨fun f hf => ?_, fun e => ?_⟩
        · obtain ⟨m1, m2, m3⟩ := this.1 f hf
          refine ⟨Or.inl ?_, m2, ?_⟩
          · rcases m1 with m1 | m1
            · simp [Tree.keys, m1]
            · cases m1; simp [Tree.keys]
          · intro x hx hxq
            have hkf : cmp k f ≤ 0 := by
              rcases m1 with m1 | m1
              · have := (hc.swap _ _).mpr (orr f m1); omega
              · cases m1; rw [hc.refl]
            simp only [Tree.keys, List.mem_append, List.mem_cons] at hx
            rcases hx with hx | hx | hx
            · have := ol x hx
              exact hc.le_trans x k f (by omega) hkf
            · subst hx; exact hkf
            · exact m3 x hx hxq
        · have := (this.2 e).1
          cases this

theorem TotalCmp.ge_iff {cmp : K → K → Int} (h : TotalCmp cmp) (a b : K) :
    0 ≤ cmp a b ↔ cmp b a ≤ 0 := by
  have h1 := h.swap a b
  have h2 := h.swap b a
  omega

theorem TotalCmp.ge_trans {cmp : K → K → Int} (h : TotalCmp cmp) {a b c : K}
    (h1 : 0 ≤ cmp a b) (h2 : 0 ≤ cmp b c) : 0 ≤ cmp a c := by
  rw [h.ge_iff] at h1 h2 ⊢
  exact h.le_trans c b a h2 h1

/-- What the ceiling search returns: a key not below the probe that is below
every other such key; the remembered key lies above the whole tree. -/
theorem ceiling_spec {cmp : K → K → Int} (hc : TotalCmp cmp) (q : K) {t : Tree K V}
    (ho : Ordered cmp t) (acc : Option K)
    (hacc : ∀ ak, acc = some ak → 0 < cmp ak q ∧ ∀ x ∈ t.keys, cmp x ak < 0) :
    (∀ f, t.ceiling cmp q acc = some f →
        (f ∈ t.keys ∨ acc = some f) ∧ 0 ≤ cmp f q ∧ ∀ x ∈ t.keys, 0 ≤ cmp x q → 0 ≤ cmp x f) ∧
      (t.ceiling cmp q acc = none → acc = none ∧ ∀ x ∈ t.keys, cmp x q < 0) := by
  induction t generalizing acc with
  | nil =>
    simp only [Tree.ceiling, Tree.keys, List.not_mem_nil, false_or, false_imp_iff, implies_true,
      and_true]
    refine ⟨fun f hf => ⟨hf, ?_⟩, fun e => e⟩
    have := (hacc f hf).1
    omega
  | node l a k v r ihl ihr =>
    obtain ⟨ol, orr, o1, o2⟩ := ho
    simp only [Tree.ceiling]
    by_cases c0 : cmp q k = 0
    · simp only [c0, if_true, Option.some.injEq, reduceCtorEq, false_imp_iff, and_true]
      intro f hf
      subst hf
      refine ⟨Or.inl (by simp [Tree.keys]), by have := hc.eq_symm c0; omega, ?_⟩
      intro x _ hxq
      exact hc.ge_trans hxq (by omega)
    · by_cases c1 : cmp q k < 0
      · simp only [c0, c1, if_true, if_false]
        have hkq : 0 < cmp k q := (hc.swap _ _).mp c1
        have := ihl o1 (some k) (fun ak e => by
          cases e
          exact ⟨hkq, fun x hx => ol x hx⟩)
        refine ⟨fun f hf => ?_, fun e => ?_⟩
        · obtain ⟨m1, m2, m3⟩ := this.1 f hf
          refine ⟨Or.inl ?_, m2, ?_⟩
          · rcases m1 with m1 | m1
            · simp [Tree.keys, m1]
            · cases m1; simp [Tree.keys]
          · intro x hx hxq
            have hkf : 0 ≤ cmp k f := by
              rcases m1 with m1 | m1
              · have := (hc.swap _ _).mp (ol f m1); omega
              · cases m1; rw [hc.refl]
            simp only [Tree.keys, List.mem_append, List.mem_cons] at hx
            rcases hx with hx | hx | hx
            · exact m3 x hx hxq
            · subst hx; exact hkf
            · have := orr x hx
              exact hc.ge_trans (by omega) hkf
        · have := (this.2 e).1
          cases this
      · simp only [c0, c1, if_false]
        have hkq : cmp k q < 0 := by
          have := hc.swap k q
          have := hc.swap q k
          omega
        have hq : ∀ x ∈ l.keys, cmp x q < 0 := fun x hx => hc.lt_trans (ol x hx) hkq
        have := ihr o2 acc (fun ak e => ⟨(hacc ak e).1, fun x hx =>
          (hacc ak e).2 x (by simp [Tree.keys, hx])⟩)
        refine ⟨fun f hf => ?_, fun e => ?_⟩
        · obtain ⟨m1, m2, m3⟩ := this.1 f hf
          refine ⟨?_, m2, ?_⟩
          · rcases m1 with m1 | m1
            · left; simp [Tree.keys, m1]
            · right; exact m1
          · intro x hx hxq
            simp only [Tree.keys, List.mem_append, List.mem_cons] at hx
            rcases hx with hx | hx | hx
            · have := hq x hx; omega
            · subst hx; omega
            · exact m3 x hx hxq
        · obtain ⟨m1, m2⟩ := this.2 e
          refine ⟨m1, ?_⟩
          intro x hx
          simp only [Tree.keys, List.mem_append, List.mem_cons] at hx
          rcases hx with hx | hx | hx
          · exact hq x hx
          · subst hx; exact hkq
          · exact m2 x hx

/-! ## Exchanging a subtree -/

theorem Rep.alloc {s : Bool} {m : Nat → Option (node_t K V)} {par : ptr} {t : Tree K V}
    (h : Rep s m par t) {x : Nat} (hx : x ∈ t.addrs) : m x ≠ none := by
  obtain ⟨n, hn, _⟩ := h.key_mem hx
  simp [hn]

/-- An exchange in the left subtree of a node is an exchange in the tree at
that node. -/
theorem Splice.lift_left {s : Bool} {b b' : bst K V} {par : ptr} {side : Bool}
    {l l' r : Tree K V} {a : Nat} {k : K} {v : V}
    (h : Splice s b b' (some a) true l l') (hrep : Rep s b.mem par (Tree.node l a k v r))
    (hnd : (Tree.node l a k v r).addrs.Nodup)
    (hpar : ∀ pa, par = some pa → pa ∉ (Tree.node l a k v r).addrs ∧ b.mem pa ≠ none) :
    Splice s b b' par side (Tree.node l a k v r) (Tree.node l' a k v r) := by
  have hrep0 := hrep
  rw [rep_node] at hrep
  obtain ⟨⟨n, hn, hk, hv, hl, hr, hp⟩, h1, h2⟩ := hrep
  simp only [Tree.addrs] at hnd hpar
  rw [List.nodup_append, List.nodup_cons] at hnd
  obtain ⟨ndl, ⟨nar, ndr⟩, ndis⟩ := hnd
  have nal : a ∉ l.addrs := fun hx => ndis hx (by simp)
  have hl' : ∀ x ∈ l'.addrs, x ∈ l.addrs ∨ b.mem x = none := h.sub
  have hrl' : ∀ x ∈ r.addrs, x ∉ l'.addrs := by
    intro x hx hx'
    rcases hl' x hx' with e | e
    · exact ndis e (by simp [hx])
    · exact h2.alloc hx e
  have hal' : a ∉ l'.addrs := by
    intro hx'
    rcases hl' a hx' with e | e
    · exact nal e
    · rw [hn] at e; cases e
  constructor
  · rw [rep_node]
    refine ⟨?_, h.rep, ?_⟩
    · have := h.link a n rfl hn (by simpa using hl)
      simp only [if_true] at this
      exact ⟨_, this, hk, hv, rfl, hr, hp⟩
    · refine h2.frame ?_
      intro x hx
      refine h.frame x (fun e => ndis e (by simp [hx])) (hrl' x hx) ?_
      intro e
      cases e
      exact nar hx
  · intro x hx
    simp only [Tree.addrs, List.mem_append, List.mem_cons] at hx ⊢
    rcases hx with hx | hx | hx
    · rcases hl' x hx with e | e
      · exact Or.inl (Or.inl e)
      · exact Or.inr e
    · exact Or.inl (Or.inr (Or.inl hx))
    · exact Or.inl (Or.inr (Or.inr hx))
  · intro x hx hx' _
    simp only [Tree.addrs, List.mem_append, List.mem_cons, not_or] at hx hx'
    refine h.frame x hx.1 hx'.1 ?_
    intro e
    cases e
    exact hx.2.1 rfl
  · intro hp0 hroot
    rw [h.root_sub (by simp), hroot]
    rfl
  · intro _
    exact h.root_sub (by simp)
  · intro pa pn hpa hpn hslot
    obtain ⟨hpa1, _⟩ := hpar pa hpa
    simp only [List.mem_append, List.mem_cons, not_or] at hpa1
    have e : b'.mem pa = b.mem pa := by
      refine h.frame pa hpa1.1 ?_ ?_
      · intro hx'
        rcases hl' pa hx' with e | e
        · exact hpa1.1 e
        · rw [hpn] at e; cases e
      · intro e
        cases e
        exact hpa1.2.1 rfl
    rw [e, hpn]
    simp only [rootp_node] at hslot ⊢
    cases pn
    cases side <;> simp_all

/-- An exchange in the right subtree of a node is an exchange in the tree at
that node. -/
theorem Splice.lift_right {s : Bool} {b b' : bst K V} {par : ptr} {side : Bool}
    {l r r' : Tree K V} {a : Nat} {k : K} {v : V}
    (h : Splice s b b' (some a) false r r') (hrep : Rep s b.mem par (Tree.node l a k v r))
    (hnd : (Tree.node l a k v r).addrs.Nodup)
    (hpar : ∀ pa, par = some pa → pa ∉ (Tree.node l a k v r).addrs ∧ b.mem pa ≠ none) :
    Splice s b b' par side (Tree.node l a k v r) (Tree.node l a k v r') := by
  have hrep0 := hrep
  rw [rep_node] at hrep
  obtain ⟨⟨n, hn, hk, hv, hl, hr, hp⟩, h1, h2⟩ := hrep
  simp only [Tree.addrs] at hnd hpar
  rw [List.nodup_append, List.nodup_cons] at hnd
  obtain ⟨ndl, ⟨nar, ndr⟩, ndis⟩ := hnd
  have nal : a ∉ l.addrs := fun hx => ndis hx (by simp)
  have hr' : ∀ x ∈ r'.addrs, x ∈ r.addrs ∨ b.mem x = none := h.sub
  have hlr' : ∀ x ∈ l.addrs, x ∉ r'.addrs := by
    intro x hx hx'
    rcases hr' x hx' with e | e
    · exact ndis hx (by simp [e])
    · exact h1.alloc hx e
  have har' : a ∉ r'.addrs := by
    intro hx'
    rcases hr' a hx' with e | e
    · exact nar e
    · rw [hn] at e; cases e
  constructor
  · rw [rep_node]
    refine ⟨?_, ?_, h.rep⟩
    · have := h.link a n rfl hn (by simpa using hr)
      simp only [Bool.false_eq_true, if_false] at this
      exact ⟨_, this, hk, hv, hl, rfl, hp⟩
    · refine h1.frame ?_
      intro x hx
      refine h.frame x (fun e => ndis hx (by simp [e])) (hlr' x hx) ?_
      intro e
      cases e
      exact nal hx
  · intro x hx
    simp only [Tree.addrs, List.mem_append, List.mem_cons] at hx ⊢
    rcases hx with hx | hx | hx
    · exact Or.inl (Or.inl hx)
    · exact Or.inl (Or.inr (Or.inl hx))
    · rcases hr' x hx with e | e
      · exact Or.inl (Or.inr (Or.inr e))
      · exact Or.inr e
  · intro x hx hx' _
    simp only [Tree.addrs, List.mem_append, List.mem_cons, not_or] at hx hx'
    refine h.frame x hx.2.2 hx'.2.2 ?_
    intro e
    cases e
    exact hx.2.1 rfl
  · intro hp0 hroot
    rw [h.root_sub (by simp), hroot]
    rfl
  · intro _
    exact h.root_sub (by simp)
  · intro pa pn hpa hpn hslot
    obtain ⟨hpa1, _⟩ := hpar pa hpa
    simp only [List.mem_append, List.mem_cons, not_or] at hpa1
    have e : b'.mem pa = b.mem pa := by
      refine h.frame pa hpa1.2.2 ?_ ?_
      · intro hx'
        rcases hr' pa hx' with e | e
        · exact hpa1.2.2 e
        · rw [hpn] at e; cases e
      · intro e
        cases e
        exact hpa1.2.1 rfl
    rw [e, hpn]
    simp only [rootp_node] at hslot ⊢
    cases pn
    cases side <;> simp_all

/-- An exchange of the whole tree gives a state holding the new tree. -/
theorem Splice.holds {s : Bool} {b b' : bst K V} {side : Bool} {t t' : Tree K V}
    (h : Splice s b b' none side t t') (hb : Holds s b t) : Holds s b' t' :=
  ⟨h.root_top rfl hb.1, h.rep⟩

/-! ## Insertion -/

theorem insert_loop_bottom {s : Bool} {b : bst K V} {par : ptr} {t : Tree K V}
    (h : Rep s b.mem par t) (key : K) (value : V) {fuel : Nat} (hf : t.depth < fuel) (p : ptr)
    (hloc : t.locate b.cmp key = Tree.nil) :
    insert_loop b key value fuel p t.rootp = some (walk.bottom (t.last b.cmp key p)) := by
  induction t generalizing par fuel p with
  | nil =>
    cases fuel with
    | zero => omega
    | succ f => simp [insert_loop, rootp_nil, Tree.last]
  | node l a k v r ihl ihr =>
    rw [rep_node] at h
    obtain ⟨⟨n, hn, hk, hv, hl, hr, _⟩, h1, h2⟩ := h
    cases fuel with
    | zero => omega
    | succ f =>
      simp only [Tree.depth] at hf
      simp only [Tree.locate] at hloc
      simp only [insert_loop, rootp_node, hn, hk, Tree.last]
      by_cases c0 : b.cmp key k = 0
      · simp [c0] at hloc
      · by_cases c1 : b.cmp key k < 0
        · simp only [c0, c1, if_true, if_false, hl] at hloc ⊢
          exact ihl h1 (by omega) (some a) hloc
        · simp only [c0, c1, if_false, hr] at hloc ⊢
          exact ihr h2 (by omega) (some a) hloc

theorem insert_loop_update {s : Bool} {b : bst K V} {par : ptr} {t : Tree K V}
    (h : Rep s b.mem par t) (key : K) (value : V) {fuel : Nat} (hf : t.depth < fuel) (p : ptr)
    {l0 r0 : Tree K V} {a0 : Nat} {k0 : K} {v0 : V}
    (hloc : t.locate b.cmp key = Tree.node l0 a0 k0 v0 r0) :
    ∃ cn, b.mem a0 = some cn ∧ cn.key = k0 ∧ cn.value = v0 ∧
      insert_loop b key value fuel p t.rootp = some (walk.updated
        { b with
          log := b.log ++ (if b.free_val then [release.value v0] else [])
          mem := store b.mem a0 { cn with value := value } }) := by
  induction t generalizing par fuel p with
  | nil => simp [Tree.locate] at hloc
  | node l a k v r ihl ihr =>
    rw [rep_node] at h
    obtain ⟨⟨n, hn, hk, hv, hl, hr, _⟩, h1, h2⟩ := h
    cases fuel with
    | zero => omega
    | succ f =>
      simp only [Tree.depth] at hf
      simp only [Tree.locate] at hloc
      simp only [insert_loop, rootp_node, hn, hk]
      by_cases c0 : b.cmp key k = 0
      · simp only [c0, if_true, Tree.node.injEq] at hloc ⊢
        obtain ⟨_, e2, e3, e4, _⟩ := hloc
        subst e2 e3 e4
        exact ⟨n, hn, hk, hv, by simp [hk, hv]⟩
      · by_cases c1 : b.cmp key k < 0
        · simp only [c0, c1, if_true, if_false, hl] at hloc ⊢
          exact ihl h1 (by omega) (some a) hloc
        · simp only [c0, c1, if_false, hr] at hloc ⊢
          exact ihr h2 (by omega) (some a) hloc

/-- Replacing the value of the located node exchanges the tree for the one
`Tree.insert` computes. -/
theorem splice_update {s : Bool} {b b' : bst K V} {par : ptr} {side : Bool} {t : Tree K V}
    (h : Rep s b.mem par t) (hnd : t.addrs.Nodup)
    (hpar : ∀ pa, par = some pa → pa ∉ t.addrs ∧ b.mem pa ≠ none)
    (key : K) (value : V) (n : Nat)
    {l0 r0 : Tree K V} {a0 : Nat} {k0 : K} {v0 : V}
    (hloc : t.locate b.cmp key = Tree.node l0 a0 k0 v0 r0)
    {cn : node_t K V} (hcn : b.mem a0 = some cn)
    (hmem : b'.mem = store b.mem a0 { cn with value := value }) (hroot : b'.root = b.root) :
    Splice s b b' par side t (t.insert b.cmp key value n) := by
  induction t generalizing par side with
  | nil => simp [Tree.locate] at hloc
  | node l a k v r ihl ihr =>
    have h0 := h
    rw [rep_node] at h
    obtain ⟨⟨nd, hn, hk, hv, hl, hr, hp⟩, h1, h2⟩ := h
    have hnd0 := hnd
    simp only [Tree.addrs] at hnd
    rw [List.nodup_append, List.nodup_cons] at hnd
    obtain ⟨ndl, ⟨nar, ndr⟩, ndis⟩ := hnd
    have nal : a ∉ l.addrs := fun hx => ndis hx (by simp)
    simp only [Tree.locate] at hloc
    simp only [Tree.insert]
    by_cases c0 : b.cmp key k = 0
    · simp only [c0, if_true, Tree.node.injEq] at hloc ⊢
      obtain ⟨e1, e2, e3, e4, e5⟩ := hloc
      subst e1 e2 e3 e4 e5
      rw [hn] at hcn
      cases hcn
      have hm := congrFun hmem a
      rw [store_same] at hm
      constructor
      · rw [rep_node]
        refine ⟨⟨_, hm, hk, rfl, hl, hr, hp⟩, ?_, ?_⟩
        · refine h1.frame ?_
          intro x hx
          rw [hmem, store_other]
          intro e; subst e; exact nal hx
        · refine h2.frame ?_
          intro x hx
          rw [hmem, store_other]
          intro e; subst e; exact nar hx
      · intro x hx
        left
        simpa [Tree.addrs] using hx
      · intro x hx _ _
        rw [hmem, store_other]
        intro e; subst e; exact hx (by simp [Tree.addrs])
      · intro _ e
        rw [hroot, e]; rfl
      · intro _
        exact hroot
      · intro pa pn hpa hpn hslot
        have : pa ≠ a := by
          intro e; subst e
          exact (hpar _ hpa).1 (by simp [Tree.addrs])
        rw [hmem, store_other _ _ this, hpn]
        simp only [rootp_node] at hslot ⊢
        cases pn
        cases side <;> simp_all
    · by_cases c1 : b.cmp key k < 0
      · simp only [c0, c1, if_true, if_false] at hloc ⊢
        refine Splice.lift_left ?_ h0 hnd0 hpar
        refine ihl h1 ndl ?_ hloc
        intro pa hpa
        cases hpa
        exact ⟨nal, by simp [hn]⟩
      · simp only [c0, c1, if_false] at hloc ⊢
        refine Splice.lift_right ?_ h0 hnd0 hpar
        refine ihr h2 ndr ?_ hloc
        intro pa hpa
        cases hpa
        exact ⟨nar, by simp [hn]⟩

theorem insert_attach_root (b : bst K V) (key : K) (value : V) (n : Nat) :
    insert_attach b key value (some n) none = some (true,
      { b with
        root := some n
        size := (b.size + 1) % size_mod
        mem := store (store b.mem n ⟨key, value, none, none, none⟩) n
          ⟨key, value, none, none, none⟩ }) := by
  simp [insert_attach, node_create, set_parent, store_same]

theorem insert_attach_left (b : bst K V) (key : K) (value : V) (n pa : Nat) (pn : node_t K V)
    (hne : pa ≠ n) (hpn : b.mem pa = some pn) (c : b.cmp key pn.key < 0) :
    insert_attach b key value (some n) (some pa) = some (true,
      { b with
        size := (b.size + 1) % size_mod
        mem := store (store (store b.mem n ⟨key, value, none, none, none⟩) n
          ⟨key, value, none, none, some pa⟩) pa { pn with left := some n } }) := by
  simp [insert_attach, node_create, set_parent, set_left, store_same, store_other _ _ hne, hpn, c]

theorem insert_attach_right (b : bst K V) (key : K) (value : V) (n pa : Nat) (pn : node_t K V)
    (hne : pa ≠ n) (hpn : b.mem pa = some pn) (c : ¬ b.cmp key pn.key < 0) :
    insert_attach b key value (some n) (some pa) = some (true,
      { b with
        size := (b.size + 1) % size_mod
        mem := store (store (store b.mem n ⟨key, value, none, none, none⟩) n
          ⟨key, value, none, none, some pa⟩) pa { pn with right := some n } }) := by
  simp [insert_attach, node_create, set_parent, set_right, store_same, store_other _ _ hne, hpn, c]

/-- Attaching a new node where the search fell off the tree exchanges the
tree for the one `Tree.insert` computes. -/
theorem splice_attach {s : Bool} {b : bst K V} {par : ptr} {side : Bool} {t : Tree K V}
    (h : Rep s b.mem par t) (hnd : t.addrs.Nodup)
    (hpar : ∀ pa, par = some pa → pa ∉ t.addrs ∧ b.mem pa ≠ none)
    (key : K) (value : V) (n : Nat) (hfresh : b.mem n = none)
    (hside : ∀ pa pn, par = some pa → b.mem pa = some pn → (side = true ↔ b.cmp key pn.key < 0))
    (hloc : t.locate b.cmp key = Tree.nil) :
    ∃ b', insert_attach b key value (some n) (t.last b.cmp key par) = some (true, b') ∧
      Splice s b b' par side t (t.insert b.cmp key value n) ∧
      b'.size = (b.size + 1) % size_mod ∧ b'.log = b.log ∧ SameConfig b b' := by
  induction t generalizing par side with
  | nil =>
    simp only [Tree.last, Tree.insert]
    cases par with
    | none =>
      refine ⟨_, insert_attach_root b key value n, ?_, rfl, rfl, rfl, rfl, rfl⟩
      constructor
      · rw [rep_node]
        exact ⟨⟨_, store_same _ _ _, rfl, rfl, rfl, rfl, by simp⟩, by simp [Rep], by simp [Rep]⟩
      · intro x hx
        simp only [Tree.addrs, List.nil_append, List.mem_singleton] at hx
        subst hx
        exact Or.inr hfresh
      · intro x _ hx _
        simp only [Tree.addrs, List.nil_append, List.mem_singleton] at hx
        simp [store, hx]
      · intro _ _; rfl
      · intro e; exact absurd rfl e
      · intro pa pn e; cases e
    | some pa =>
      obtain ⟨_, hpa⟩ := hpar pa rfl
      obtain ⟨pn, hpn⟩ := Option.ne_none_iff_exists'.mp hpa
      have hne : pa ≠ n := by
        intro e; subst e; rw [hfresh] at hpn; cases hpn
      have hs := hside pa pn rfl hpn
      by_cases c1 : b.cmp key pn.key < 0
      · have hst : side = true := hs.mpr c1
        subst hst
        refine ⟨_, insert_attach_left b key value n pa pn hne hpn c1, ?_, rfl, rfl, rfl, rfl, rfl⟩
        constructor
        · rw [rep_node]
          have hm : ∀ pn' : node_t K V,
              store (store (store b.mem n ⟨key, value, none, none, none⟩) n
                ⟨key, value, none, none, some pa⟩) pa pn' n =
              some ⟨key, value, none, none, some pa⟩ := by
            intro pn'
            rw [store_other _ _ hne.symm, store_same]
          exact ⟨⟨_, hm _, rfl, rfl, rfl, rfl, by simp⟩, by simp [Rep], by simp [Rep]⟩
        · intro x hx
          simp only [Tree.addrs, List.nil_append, List.mem_singleton] at hx
          subst hx
          exact Or.inr hfresh
        · intro x _ hx hx2
          simp only [Tree.addrs, List.nil_append, List.mem_singleton] at hx
          have : x ≠ pa := fun e => hx2 (by rw [e])
          simp [store, hx, this]
        · intro e; cases e
        · intro _; rfl
        · intro pa' pn' e1 e2 _
          cases e1
          rw [hpn] at e2
          cases e2
          simp [store, rootp_node]
      · have hst : side = false := by
          cases side
          · rfl
          · exact absurd (hs.mp rfl) c1
        subst hst
        refine ⟨_, insert_attach_right b key value n pa pn hne hpn c1, ?_, rfl, rfl, rfl, rfl, rfl⟩
        constructor
        · rw [rep_node]
          have hm : ∀ pn' : node_t K V,
              store (store (store b.mem n ⟨key, value, none, none, none⟩) n
                ⟨key, value, none, none, some pa⟩) pa pn' n =
              some ⟨key, value, none, none, some pa⟩ := by
            intro pn'
            rw [store_other _ _ hne.symm, store_same]
          exact ⟨⟨_, hm _, rfl, rfl, rfl, rfl, by simp⟩, by simp [Rep], by simp [Rep]⟩
        · intro x hx
          simp only [Tree.addrs, List.nil_append, List.mem_singleton] at hx
          subst hx
          exact Or.inr hfresh
        · intro x _ hx hx2
          simp only [Tree.addrs, List.nil_append, List.mem_singleton] at hx
          have : x ≠ pa := fun e => hx2 (by rw [e])
          simp [store, hx, this]
        · intro e; cases e
        · intro _; rfl
        · intro pa' pn' e1 e2 _
          cases e1
          rw [hpn] at e2
          cases e2
          simp [store, rootp_node]
  | node l a k v r ihl ihr =>
    have h0 := h
    rw [rep_node] at h
    obtain ⟨⟨nd, hn, hk, hv, hl, hr, hp⟩, h1, h2⟩ := h
    have hnd0 := hnd
    simp only [Tree.addrs] at hnd
    rw [List.nodup_append, List.nodup_cons] at hnd
    obtain ⟨ndl, ⟨nar, ndr⟩, ndis⟩ := hnd
    have nal : a ∉ l.addrs := fun hx => ndis hx (by simp)
    simp only [Tree.locate] at hloc
    simp only [Tree.insert, Tree.last]
    by_cases c0 : b.cmp key k = 0
    · simp [c0] at hloc
    · by_cases c1 : b.cmp key k < 0
      · simp only [c0, c1, if_true, if_false] at hloc ⊢
        obtain ⟨b', e1, e2, e3⟩ := @ihl (some a) true h1 ndl
          (by intro pa hpa; cases hpa; exact ⟨nal, by simp [hn]⟩)
          (by intro pa pn hpa hpn; cases hpa; rw [hn] at hpn; cases hpn; simp [hk, c1]) hloc
        exact ⟨b', e1, Splice.lift_left e2 h0 hnd0 hpar, e3⟩
      · simp only [c0, c1, if_false] at hloc ⊢
        obtain ⟨b', e1, e2, e3⟩ := @ihr (some a) false h2 ndr
          (by intro pa hpa; cases hpa; exact ⟨nar, by simp [hn]⟩)
          (by intro pa pn hpa hpn; cases hpa; rw [hn] at hpn; cases hpn; simp [hk, c1]) hloc
        exact ⟨b', e1, Splice.lift_right e2 h0 hnd0 hpar, e3⟩

/-- The outcome of `bst_insert` when the key is not stored and `malloc`
succeeds: a new node is attached, the state holds `Tree.insert`. -/
theorem bst_insert_new {s : Bool} {b : bst K V} {t : Tree K V} (h : Holds s b t)
    (hnd : t.addrs.Nodup) (key : K) (value : V) {fuel : Nat} (hf : t.depth < fuel)
    (n : Nat) (hfresh : b.mem n = none) (hloc : t.locate b.cmp key = Tree.nil) :
    ∃ b', bst_insert fuel b key value (some n) = some (true, b') ∧
      Holds s b' (t.insert b.cmp key value n) ∧
      b'.size = (b.size + 1) % size_mod ∧ b'.log = b.log ∧ SameConfig b b' ∧
      (∀ x, x ∉ t.addrs → x ≠ n → b'.mem x = b.mem x) := by
  obtain ⟨b', e1, e2, e3⟩ := @splice_attach K V s b none true t h.2 hnd
    (by intro pa hpa; cases hpa) key value n hfresh (by intro pa pn hpa; cases hpa) hloc
  refine ⟨b', ?_, e2.holds h, e3.1, e3.2.1, e3.2.2, ?_⟩
  · unfold bst_insert
    rw [h.1, insert_loop_bottom h.2 key value hf none hloc]
    exact e1
  · intro x hx hxn
    refine e2.frame x hx ?_ (by simp)
    intro hx'
    have hsub : ∀ t : Tree K V, ∀ y ∈ (t.insert b.cmp key value n).addrs, y ∈ t.addrs ∨ y = n := by
      intro t
      induction t with
      | nil => intro y hy; simpa [Tree.insert, Tree.addrs] using hy
      | node l a k v r ihl ihr =>
        intro y hy
        simp only [Tree.insert] at hy
        by_cases c0 : b.cmp key k = 0
        · simp only [c0, if_true] at hy; exact Or.inl hy
        · by_cases c1 : b.cmp key k < 0
          · simp only [c0, c1, if_true, if_false, Tree.addrs, List.mem_append, List.mem_cons] at hy ⊢
            rcases hy with hy | hy | hy
            · rcases ihl y hy with e | e
              · exact Or.inl (Or.inl e)
              · exact Or.inr e
            · exact Or.inl (Or.inr (Or.inl hy))
            · exact Or.inl (Or.inr (Or.inr hy))
          · simp only [c0, c1, if_false, Tree.addrs, List.mem_append, List.mem_cons] at hy ⊢
            rcases hy with hy | hy | hy
            · exact Or.inl (Or.inl hy)
            · exact Or.inl (Or.inr (Or.inl hy))
            · rcases ihr y hy with e | e
              · exact Or.inl (Or.inr (Or.inr e))
              · exact Or.inr e
    rcases hsub t x hx' with e | e
    · exact hx e
    · exact hxn e

/-- The outcome of `bst_insert` when the key is not stored and `malloc`
fails: `false`, nothing changed. -/
theorem bst_insert_nomem {s : Bool} {b : bst K V} {t : Tree K V} (h : Holds s b t)
    (key : K) (value : V) {fuel : Nat} (hf : t.depth < fuel)
    (hloc : t.locate b.cmp key = Tree.nil) :
    bst_insert fuel b key value none = some (false, b) := by
  unfold bst_insert
  rw [h.1, insert_loop_bottom h.2 key value hf none hloc]
  simp [insert_attach, node_create]

/-- The outcome of `bst_insert` when a key comparing equal is stored: the
value of that node is replaced, whatever `malloc` would return. -/
theorem bst_insert_found {s : Bool} {b : bst K V} {t : Tree K V} (h : Holds s b t)
    (hnd : t.addrs.Nodup) (key : K) (value : V) {fuel : Nat} (hf : t.depth < fuel)
    (fresh : ptr) (n : Nat) {l0 r0 : Tree K V} {a0 : Nat} {k0 : K} {v0 : V}
    (hloc : t.locate b.cmp key = Tree.node l0 a0 k0 v0 r0) :
    ∃ cn, b.mem a0 = some cn ∧ cn.key = k0 ∧ cn.value = v0 ∧
      bst_insert fuel b key value fresh = some (true,
        { b with
          log := b.log ++ (if b.free_val then [release.value v0] else [])
          mem := store b.mem a0 { cn with value := value } }) ∧
      Holds s
        { b with
          log := b.log ++ (if b.free_val then [release.value v0] else [])
          mem := store b.mem a0 { cn with value := value } }
        (t.insert b.cmp key value n) := by
  obtain ⟨cn, e1, e2, e3, e4⟩ := insert_loop_update h.2 key value hf none hloc
  refine ⟨cn, e1, e2, e3, ?_, ?_⟩
  · simp only [bst_insert, h.1, e4]
  · have : Splice s b
        { b with
          log := b.log ++ (if b.free_val then [release.value v0] else [])
          mem := store b.mem a0 { cn with value := value } } none true t
        (t.insert b.cmp key value n) :=
      splice_update h.2 hnd (by intro pa hpa; cases hpa) key value n hloc e1 rfl rfl
    exact this.holds h

/-! ### The tree after an insertion -/

theorem insert_found_eq (cmp : K → K → Int) (key : K) (value : V) (n n' : Nat) (t : Tree K V)
    (hloc : t.locate cmp key ≠ Tree.nil) :
    t.insert cmp key value n = t.insert cmp key value n' := by
  induction t with
  | nil => simp [Tree.locate] at hloc
  | node l a k v r ihl ihr =>
    simp only [Tree.locate] at hloc
    simp only [Tree.insert]
    by_cases c0 : cmp key k = 0
    · simp [c0]
    · by_cases c1 : cmp key k < 0
      · simp only [c0, c1, if_true, if_false] at hloc ⊢
        rw [ihl hloc]
      · simp only [c0, c1, if_false] at hloc ⊢
        rw [ihr hloc]

theorem insert_lookup_same {cmp : K → K → Int} (key : K) (value : V) (n : Nat) (t : Tree K V)
    (hrefl : cmp key key = 0) :
    (t.insert cmp key value n).lookup cmp key = some value := by
  induction t with
  | nil => simp [Tree.insert, Tree.lookup, hrefl]
  | node l a k v r ihl ihr =>
    simp only [Tree.insert]
    by_cases c0 : cmp key k = 0
    · simp [c0, Tree.lookup]
    · by_cases c1 : cmp key k < 0
      · simp [c0, c1, Tree.lookup, ihl]
      · simp [c0, c1, Tree.lookup, ihr]

theorem insert_lookup_other {cmp : K → K → Int} (hc : TotalCmp cmp) (key : K) (value : V)
    (n : Nat) (t : Tree K V) (key' : K) (hne : cmp key' key ≠ 0) :
    (t.insert cmp key value n).lookup cmp key' = t.lookup cmp key' := by
  induction t with
  | nil =>
    simp only [Tree.insert, Tree.lookup, hne, if_false]
    split <;> rfl
  | node l a k v r ihl ihr =>
    simp only [Tree.insert]
    by_cases c0 : cmp key k = 0
    · have : cmp key' k ≠ 0 := by
        intro e
        have e1 := hc.le_trans key' k key (by omega) (by have := hc.eq_symm c0; omega)
        have e2 := hc.le_trans key k key' (by omega) (by have := hc.eq_symm e; omega)
        have := hc.swap key' key
        have := hc.swap key key'
        omega
      simp [c0, Tree.lookup, this]
    · by_cases c1 : cmp key k < 0
      · simp [c0, c1, Tree.lookup, ihl]
      · simp [c0, c1, Tree.lookup, ihr]

theorem insert_depth (cmp : K → K → Int) (key : K) (value : V) (n : Nat) (t : Tree K V) :
    (t.insert cmp key value n).depth ≤ t.depth + 1 := by
  induction t with
  | nil => simp [Tree.insert, Tree.depth]
  | node l a k v r ihl ihr =>
    simp only [Tree.insert]
    by_cases c0 : cmp key k = 0
    · simp [c0, Tree.depth]
    · by_cases c1 : cmp key k < 0
      · simp only [c0, c1, if_true, if_false, Tree.depth]; omega
      · simp only [c0, c1, if_false, Tree.depth]; omega

/-- Inserting a key that is not stored puts the new pair at its sorted
position of the in-order sequence. -/
theorem insert_pairs_new {cmp : K → K → Int} (hc : TotalCmp cmp) (key : K) (value : V) (n : Nat)
    {t : Tree K V} (ho : Ordered cmp t) (hloc : t.locate cmp key = Tree.nil) :
    ∃ p1 p2, t.pairs = p1 ++ p2 ∧ (t.insert cmp key value n).pairs = p1 ++ (key, value) :: p2 ∧
      (∀ x ∈ p1, cmp x.1 key < 0) ∧ (∀ x ∈ p2, cmp key x.1 < 0) := by
  induction t with
  | nil => exact ⟨[], [], by simp [Tree.pairs, Tree.insert]⟩
  | node l a k v r ihl ihr =>
    obtain ⟨ol, orr, o1, o2⟩ := ho
    simp only [Tree.locate] at hloc
    simp only [Tree.insert]
    by_cases c0 : cmp key k = 0
    · simp [c0] at hloc
    · by_cases c1 : cmp key k < 0
      · simp only [c0, c1, if_true, if_false] at hloc ⊢
        obtain ⟨p1, p2, e1, e2, e3, e4⟩ := ihl o1 hloc
        refine ⟨p1, p2 ++ (k, v) :: r.pairs, by simp [Tree.pairs, e1], by simp [Tree.pairs, e2],
          e3, ?_⟩
        intro x hx
        simp only [List.mem_append, List.mem_cons] at hx
        rcases hx with hx | hx | hx
        · exact e4 x hx
        · subst hx; exact c1
        · have : x.1 ∈ r.keys := by
            rw [← pairs_keys]; exact List.mem_map_of_mem _ hx
          exact hc.lt_trans c1 ((hc.swap _ _).mpr (orr _ this))
      · simp only [c0, c1, if_false] at hloc ⊢
        obtain ⟨p1, p2, e1, e2, e3, e4⟩ := ihr o2 hloc
        have hk : cmp k key < 0 := by
          have := hc.swap k key
          have := hc.swap key k
          omega
        refine ⟨l.pairs ++ (k, v) :: p1, p2, by simp [Tree.pairs, e1], by simp [Tree.pairs, e2],
          ?_, e4⟩
        intro x hx
        simp only [List.mem_append, List.mem_cons] at hx
        rcases hx with hx | hx | hx
        · have : x.1 ∈ l.keys := by
            rw [← pairs_keys]; exact List.mem_map_of_mem _ hx
          exact hc.lt_trans (ol _ this) hk
        · subst hx; exact hk
        · exact e3 x hx

theorem insert_count_new (cmp : K → K → Int) (key : K) (value : V) (n : Nat)
    (t : Tree K V) (hloc : t.locate cmp key = Tree.nil) :
    (t.insert cmp key value n).count = t.count + 1 := by
  induction t with
  | nil => simp [Tree.insert, Tree.count]
  | node l a k v r ihl ihr =>
    simp only [Tree.locate] at hloc
    simp only [Tree.insert]
    by_cases c0 : cmp key k = 0
    · simp [c0] at hloc
    · by_cases c1 : cmp key k < 0
      · simp only [c0, c1, if_true, if_false] at hloc ⊢
        simp only [Tree.count, ihl hloc]; omega
      · simp only [c0, c1, if_false] at hloc ⊢
        simp only [Tree.count, ihr hloc]; omega

/-- Inserting a stored key keeps addresses and keys and the shape of the tree. -/
theorem insert_found_same (cmp : K → K → Int) (key : K) (value : V) (n : Nat) (t : Tree K V)
    (hloc : t.locate cmp key ≠ Tree.nil) :
    (t.insert cmp key value n).addrs = t.addrs ∧ (t.insert cmp key value n).keys = t.keys ∧
      (t.insert cmp key value n).count = t.count ∧
      (t.insert cmp key value n).depth = t.depth ∧
      (t.insert cmp key value n).rootp = t.rootp := by
  induction t with
  | nil => simp [Tree.locate] at hloc
  | node l a k v r ihl ihr =>
    simp only [Tree.locate] at hloc
    simp only [Tree.insert]
    by_cases c0 : cmp key k = 0
    · simp [c0, Tree.addrs, Tree.keys, Tree.count, Tree.depth, rootp_node]
    · by_cases c1 : cmp key k < 0
      · simp only [c0, c1, if_true, if_false] at hloc ⊢
        obtain ⟨e1, e2, e3, e4, _⟩ := ihl hloc
        simp [Tree.addrs, Tree.keys, Tree.count, Tree.depth, rootp_node, e1, e2, e3, e4]
      · simp only [c0, c1, if_false] at hloc ⊢
        obtain ⟨e1, e2, e3, e4, _⟩ := ihr hloc
        simp [Tree.addrs, Tree.keys, Tree.count, Tree.depth, rootp_node, e1, e2, e3, e4]

theorem insert_keys_mem (cmp : K → K → Int) (key : K) (value : V) (n : Nat) (t : Tree K V) :
    ∀ x ∈ (t.insert cmp key value n).keys, x ∈ t.keys ∨ x = key := by
  induction t with
  | nil => intro x hx; simpa [Tree.insert, Tree.keys] using hx
  | node l a k v r ihl ihr =>
    intro x hx
    simp only [Tree.insert] at hx
    by_cases c0 : cmp key k = 0
    · simp only [c0, if_true] at hx; exact Or.inl (by simpa [Tree.keys] using hx)
    · by_cases c1 : cmp key k < 0
      · simp only [c0, c1, if_true, if_false, Tree.keys, List.mem_append, List.mem_cons] at hx ⊢
        rcases hx with hx | hx | hx
        · rcases ihl x hx with e | e
          · exact Or.inl (Or.inl e)
          · exact Or.inr e
        · exact Or.inl (Or.inr (Or.inl hx))
        · exact Or.inl (Or.inr (Or.inr hx))
      · simp only [c0, c1, if_false, Tree.keys, List.mem_append, List.mem_cons] at hx ⊢
        rcases hx with hx | hx | hx
        · exact Or.inl (Or.inl hx)
        · exact Or.inl (Or.inr (Or.inl hx))
        · rcases ihr x hx with e | e
          · exact Or.inl (Or.inr (Or.inr e))
          · exact Or.inr e

/-- `bst_insert` preserves the search-tree order. -/
theorem ordered_insert {cmp : K → K → Int} (key : K) (value : V) (n : Nat)
    {t : Tree K V} (ho : Ordered cmp t) : Ordered cmp (t.insert cmp key value n) := by
  induction t with
  | nil => simp [Tree.insert, Ordered, Tree.keys]
  | node l a k v r ihl ihr =>
    obtain ⟨ol, orr, o1, o2⟩ := ho
    simp only [Tree.insert]
    by_cases c0 : cmp key k = 0
    · simp only [c0, if_true]
      exact ⟨ol, orr, o1, o2⟩
    · by_cases c1 : cmp key k < 0
      · simp only [c0, c1, if_true, if_false]
        refine ⟨?_, orr, ihl o1, o2⟩
        intro x hx
        rcases insert_keys_mem cmp key value n l x hx with e | e
        · exact ol x e
        · rw [e]; exact c1
      · simp only [c0, c1, if_false]
        refine ⟨ol, ?_, o1, ihr o2⟩
        intro x hx
        rcases insert_keys_mem cmp key value n r x hx with e | e
        · exact orr x e
        · rw [e]; omega

/-! ## The concrete tree -/

theorem cmp_int_total : TotalCmp cmp_int := by
  constructor
  · intro a b
    simp only [cmp_int]
    split_ifs <;> omega
  · intro a b c
    simp only [cmp_int]
    split_ifs <;> omega

theorem demo_holds : Holds true demo demo_tree := by
  refine ⟨rfl, ?_⟩
  simp [demo_tree, Rep, demo, demo_mem, Tree.rootp]

theorem demo_ordered : Ordered demo.cmp demo_tree := by
  simp [demo_tree, Ordered, Tree.keys, demo, cmp_int]

/-- A state holding a tree with consistent parent links holds it. -/
theorem Holds.weaken {s : Bool} {b : bst K V} {t : Tree K V} (h : Holds s b t) :
    Holds false b t :=
  ⟨h.1, h.2.forget⟩

/-! ## Floor and ceiling: the claims -/

/-- C9 (floor correctness).  On a state holding an ordered tree, with any fuel
above the depth of the tree, `bst_floor_key` returns; a returned key is a
stored key not above the probe, and no stored key not above the probe is above
it; the result is NULL exactly when every stored key is above the probe.  The
floor of a stored key, in particular of the minimum, is that key, and the
floor of a probe below every stored key is NULL. -/
theorem C9_floor_key (b : bst K V) (t : Tree K V) (q : K) (fuel : Nat)
    (hc : TotalCmp b.cmp) (h : Holds false b t) (ho : Ordered b.cmp t) (hf : t.depth < fuel) :
    ∃ res, bst_floor_key fuel b q = some res ∧
      (∀ f, res = some f →
        f ∈ t.keys ∧ b.cmp f q ≤ 0 ∧ ∀ x ∈ t.keys, b.cmp x q ≤ 0 → b.cmp x f ≤ 0) ∧
      (res = none ↔ ∀ x ∈ t.keys, 0 < b.cmp x q) ∧
      (q ∈ t.keys → res = some q) ∧
      ((∀ x ∈ t.keys, b.cmp q x < 0) → res = none) := by
  have hs := floor_spec hc q ho none (by intro ak e; cases e)
  have hsome : ∀ f, t.floor b.cmp q none = some f →
      f ∈ t.keys ∧ b.cmp f q ≤ 0 ∧ ∀ x ∈ t.keys, b.cmp x q ≤ 0 → b.cmp x f ≤ 0 := by
    intro f hf'
    obtain ⟨m1, m2, m3⟩ := hs.1 f hf'
    rcases m1 with m1 | m1
    · exact ⟨m1, m2, m3⟩
    · cases m1
  have hnone : t.floor b.cmp q none = none ↔ ∀ x ∈ t.keys, 0 < b.cmp x q := by
    constructor
    · intro e; exact (hs.2 e).2
    · intro hall
      cases hfl : t.floor b.cmp q none with
      | none => rfl
      | some f =>
        obtain ⟨m1, m2, _⟩ := hsome f hfl
        have := hall f m1
        omega
  refine ⟨t.floor b.cmp q none, bst_floor_key_holds h q hf, hsome, hnone, ?_, ?_⟩
  · intro hq
    cases hfl : t.floor b.cmp q none with
    | none =>
      have := (hnone.mp hfl) q hq
      rw [hc.refl] at this
      omega
    | some f =>
      obtain ⟨m1, m2, m3⟩ := hsome f hfl
      have e1 := m3 q hq (by rw [hc.refl])
      have e2 : b.cmp f q = 0 := by
        have := hc.swap q f
        have := hc.swap f q
        omega
      rw [ascending_eq hc (ordered_ascending hc ho) m1 hq e2]
  · intro hall
    rw [hnone]
    intro x hx
    exact (hc.swap _ _).mp (hall x hx)

/-- C9 at the three-node tree: floor of 25 exists and has the properties. -/
theorem C9_floor_key_witness :
    ∃ res, bst_floor_key 3 demo 25 = some res ∧
      (∀ f, res = some f →
        f ∈ demo_tree.keys ∧ demo.cmp f 25 ≤ 0 ∧
          ∀ x ∈ demo_tree.keys, demo.cmp x 25 ≤ 0 → demo.cmp x f ≤ 0) ∧
      (res = none ↔ ∀ x ∈ demo_tree.keys, 0 < demo.cmp x 25) ∧
      ((25 : Int) ∈ demo_tree.keys → res = some 25) ∧
      ((∀ x ∈ demo_tree.keys, demo.cmp 25 x < 0) → res = none) :=
  C9_floor_key demo demo_tree 25 3 cmp_int_total demo_holds.weaken demo_ordered
    (by decide)

/-- C10 (ceiling correctness).  On a state holding an ordered tree, with any
fuel above the depth of the tree, `bst_ceiling_key` returns; a returned key is
a stored key not below the probe, and no stored key not below the probe is
below it; the result is NULL exactly when every stored key is below the
probe.  The ceiling of a stored key, in particular of the maximum, is that
key, and the ceiling of a probe above every stored key is NULL. -/
theorem C10_ceiling_key (b : bst K V) (t : Tree K V) (q : K) (fuel : Nat)
    (hc : TotalCmp b.cmp) (h : Holds false b t) (ho : Ordered b.cmp t) (hf : t.depth < fuel) :
    ∃ res, bst_ceiling_key fuel b q = some res ∧
      (∀ f, res = some f →
        f ∈ t.keys ∧ 0 ≤ b.cmp f q ∧ ∀ x ∈ t.keys, 0 ≤ b.cmp x q → 0 ≤ b.cmp x f) ∧
      (res = none ↔ ∀ x ∈ t.keys, b.cmp x q < 0) ∧
      (q ∈ t.keys → res = some q) ∧
      ((∀ x ∈ t.keys, 0 < b.cmp q x) → res = none) := by
  have hs := ceiling_spec hc q ho none (by intro ak e; cases e)
  have hsome : ∀ f, t.ceiling b.cmp q none = some f →
      f ∈ t.keys ∧ 0 ≤ b.cmp f q ∧ ∀ x ∈ t.keys, 0 ≤ b.cmp x q → 0 ≤ b.cmp x f := by
    intro f hf'
    obtain ⟨m1, m2, m3⟩ := hs.1 f hf'
    rcases m1 with m1 | m1
    · exact ⟨m1, m2, m3⟩
    · cases m1
  have hnone : t.ceiling b.cmp q none = none ↔ ∀ x ∈ t.keys, b.cmp x q < 0 := by
    constructor
    · intro e; exact (hs.2 e).2
    · intro hall
      cases hfl : t.ceiling b.cmp q none with
      | none => rfl
      | some f =>
        obtain ⟨m1, m2, _⟩ := hsome f hfl
        have := hall f m1
        omega
  refine ⟨t.ceiling b.cmp q none, bst_ceiling_key_holds h q hf, hsome, hnone, ?_, ?_⟩
  · intro hq
    cases hfl : t.ceiling b.cmp q none with
    | none =>
      have := (hnone.mp hfl) q hq
      rw [hc.refl] at this
      omega
    | some f =>
      obtain ⟨m1, m2, m3⟩ := hsome f hfl
      have e1 := m3 q hq (by rw [hc.refl])
      have e2 : b.cmp f q = 0 := by
        have := hc.swap q f
        have := hc.swap f q
        omega
      rw [ascending_eq hc (ordered_ascending hc ho) m1 hq e2]
  · intro hall
    rw [hnone]
    intro x hx
    exact (hc.swap _ _).mpr (hall x hx)

/-- C10 at the three-node tree: ceiling of 25 exists and has the properties. -/
theorem C10_ceiling_key_witness :
    ∃ res, bst_ceiling_key 3 demo 25 = some res ∧
      (∀ f, res = some f →
        f ∈ demo_tree.keys ∧ 0 ≤ demo.cmp f 25 ∧
          ∀ x ∈ demo_tree.keys, 0 ≤ demo.cmp x 25 → 0 ≤ demo.cmp x f) ∧
      (res = none ↔ ∀ x ∈ demo_tree.keys, demo.cmp x 25 < 0) ∧
      ((25 : Int) ∈ demo_tree.keys → res = some 25) ∧
      ((∀ x ∈ demo_tree.keys, 0 < demo.cmp 25 x) → res = none) :=
  C10_ceiling_key demo demo_tree 25 3 cmp_int_total demo_holds.weaken demo_ordered (by decide)

/-! ## Stored keys and the search -/

/-- In an ordered tree the search for a probe finds the stored key comparing
equal to it. -/
theorem locate_of_stored {cmp : K → K → Int} (hc : TotalCmp cmp) {t : Tree K V}
    (ho : Ordered cmp t) {k k0 : K} (hk0 : k0 ∈ t.keys) (e : cmp k k0 = 0) :
    ∃ l a v r, t.locate cmp k = Tree.node l a k0 v r := by
  induction t with
  | nil => simp [Tree.keys] at hk0
  | node l a kk v r ihl ihr =>
    obtain ⟨ol, orr, o1, o2⟩ := ho
    simp only [Tree.keys, List.mem_append, List.mem_cons] at hk0
    simp only [Tree.locate]
    have e' := hc.eq_symm e
    by_cases c0 : cmp k kk = 0
    · simp only [c0, if_true]
      rcases hk0 with h1 | h1 | h1
      · have := hc.le_trans kk k k0 (by have := hc.eq_symm c0; omega) (by omega)
        have := ol k0 h1
        have := hc.swap k0 kk
        omega
      · subst h1; exact ⟨l, a, v, r, rfl⟩
      · have := hc.le_trans k0 k kk (by omega) (by omega)
        have := orr k0 h1
        omega
    · by_cases c1 : cmp k kk < 0
      · simp only [c0, c1, if_true, if_false]
        rcases hk0 with h1 | h1 | h1
        · exact ihl o1 h1
        · subst h1; omega
        · have := hc.lt_of_le_of_lt (by omega : cmp k0 k ≤ 0) c1
          have := orr k0 h1
          omega
      · simp only [c0, c1, if_false]
        rcases hk0 with h1 | h1 | h1
        · have h2 : cmp kk k < 0 := by
            have := hc.swap kk k
            omega
          have := hc.lt_of_lt_of_le h2 (by omega : cmp k k0 ≤ 0)
          have := ol k0 h1
          have := hc.swap k0 kk
          omega
        · subst h1; omega
        · exact ihr o2 h1

theorem locate_nil_of_absent {cmp : K → K → Int} {t : Tree K V} {k : K}
    (habs : ∀ x ∈ t.keys, cmp k x ≠ 0) : t.locate cmp k = Tree.nil := by
  rcases locate_node cmp k t with e | ⟨l, a, k0, v, r, _, ec, _, ek, _⟩
  · exact e
  · exact absurd ec (habs k0 ek)

/-- Nodes at distinct non-NULL addresses below `2 ^ 64` are fewer than `2 ^ 64`. -/
theorem count_lt_size_mod {t : Tree K V} (hnd : t.addrs.Nodup)
    (hb : ∀ x ∈ t.addrs, 0 < x ∧ x < size_mod) : t.count + 1 < size_mod + 1 := by
  have hsub : t.addrs.toFinset ⊆ Finset.Ico 1 size_mod := by
    intro x hx
    rw [List.mem_toFinset] at hx
    rw [Finset.mem_Ico]
    exact ⟨(hb x hx).1, (hb x hx).2⟩
  have h1 := Finset.card_le_card hsub
  rw [List.toFinset_card_of_nodup hnd, addrs_length, Nat.card_Ico] at h1
  have : 0 < size_mod := by unfold size_mod; positivity
  omega

/-! ## The outcome of an insertion -/

/-- Addresses of the tree after an insertion: the old ones and possibly the
new node. -/
theorem insert_addrs_mem (cmp : K → K → Int) (key : K) (value : V) (n : Nat) (t : Tree K V) :
    ∀ y ∈ (t.insert cmp key value n).addrs, y ∈ t.addrs ∨ y = n := by
  induction t with
  | nil => intro y hy; simpa [Tree.insert, Tree.addrs] using hy
  | node l a k v r ihl ihr =>
    intro y hy
    simp only [Tree.insert] at hy
    by_cases c0 : cmp key k = 0
    · simp only [c0, if_true] at hy; exact Or.inl hy
    · by_cases c1 : cmp key k < 0
      · simp only [c0, c1, if_true, if_false, Tree.addrs, List.mem_append, List.mem_cons] at hy ⊢
        rcases hy with hy | hy | hy
        · rcases ihl y hy with e | e
          · exact Or.inl (Or.inl e)
          · exact Or.inr e
        · exact Or.inl (Or.inr (Or.inl hy))
        · exact Or.inl (Or.inr (Or.inr hy))
      · simp only [c0, c1, if_false, Tree.addrs, List.mem_append, List.mem_cons] at hy ⊢
        rcases hy with hy | hy | hy
        · exact Or.inl (Or.inl hy)
        · exact Or.inl (Or.inr (Or.inl hy))
        · rcases ihr y hy with e | e
          · exact Or.inl (Or.inr (Or.inr e))
          · exact Or.inr e

/-- Every call of `bst_insert` on a state holding a tree returns: `false`
with the state unchanged when the key is absent and `malloc` fails, otherwise
`true` with a state holding `Tree.insert`. -/
theorem bst_insert_outcome {s : Bool} {b : bst K V} {t : Tree K V} (h : Holds s b t)
    (hnd : t.addrs.Nodup) (key : K) (value : V) {fuel : Nat} (hf : t.depth < fuel)
    (fresh : ptr) (hm : FreshAddr b fresh) :
    (fresh = none ∧ t.locate b.cmp key = Tree.nil ∧
      bst_insert fuel b key value fresh = some (false, b)) ∨
    (∃ b', (fresh ≠ none ∨ t.locate b.cmp key ≠ Tree.nil) ∧
      bst_insert fuel b key value fresh = some (true, b') ∧
      Holds s b' (t.insert b.cmp key value (fresh.getD 0)) ∧ SameConfig b b' ∧
      (t.locate b.cmp key = Tree.nil →
        b'.size = (b.size + 1) % size_mod ∧ b'.log = b.log) ∧
      (∀ l0 a0 k0 v0 r0, t.locate b.cmp key = Tree.node l0 a0 k0 v0 r0 →
        b'.size = b.size ∧ b'.root = b.root ∧
        b'.log = b.log ++ (if b.free_val then [release.value v0] else []) ∧
        ∃ cn, b.mem a0 = some cn ∧ cn.key = k0 ∧ cn.value = v0 ∧
          b'.mem = store b.mem a0 { cn with value := value })) := by
  cases hloc : t.locate b.cmp key with
  | nil =>
    cases fresh with
    | none => exact Or.inl ⟨rfl, rfl, bst_insert_nomem h key value hf hloc⟩
    | some n =>
      right
      obtain ⟨b', e1, e2, e3, e4, e5, _⟩ :=
        bst_insert_new h hnd key value hf n (hm n rfl).1 hloc
      exact ⟨b', Or.inl (by simp), e1, e2, e5, fun _ => ⟨e3, e4⟩,
        fun l0 a0 k0 v0 r0 e => by cases e⟩
  | node l0 a0 k0 v0 r0 =>
    right
    obtain ⟨cn, e1, e2, e3, e4, e5⟩ :=
      bst_insert_found h hnd key value hf fresh (fresh.getD 0) hloc
    refine ⟨_, Or.inr (by simp), e4, e5, ?_, ?_, ?_⟩
    · exact ⟨rfl, rfl, rfl⟩
    · intro e; cases e
    · intro l1 a1 k1 v1 r1 e
      cases e
      exact ⟨rfl, rfl, rfl, cn, e1, e2, e3, rfl⟩

theorem demo_fresh : FreshAddr demo (some 4) := by
  intro n e
  cases e
  simp [demo, demo_mem, size_mod]

theorem demo_counted : Counted demo demo_tree := by
  simp [Counted, demo, demo_tree, Tree.count, Tree.addrs, size_mod]

/-! ## Insertion: the claims -/

/-- C2 (insert/lookup round trip).  On a state holding an ordered tree, with
fuel above the depth of the tree and `malloc` returning NULL or an unused
address, `bst_insert(k, v)` returns; it returns `false` only when `malloc`
failed for a key that is not stored; when it returns `true`, `bst_get(k)` on
the new state returns `v` and `bst_contains(k)` returns `true`, whether `k`
was new or already stored. -/
theorem C2_insert_lookup (b : bst K V) (t : Tree K V) (k : K) (v : V) (fresh : ptr) (fuel : Nat)
    (hc : TotalCmp b.cmp) (h : Holds false b t) (ho : Ordered b.cmp t) (hf : t.depth < fuel)
    (hm : FreshAddr b fresh) :
    ∃ r b', bst_insert fuel b k v fresh = some (r, b') ∧
      (r = false → fresh = none ∧ ∀ x ∈ t.keys, b.cmp k x ≠ 0) ∧
      (r = true → ∀ fuel', t.depth + 1 < fuel' →
        bst_get fuel' b' k = some (some v) ∧ bst_contains fuel' b' k = some true) := by
  have hnd := h.2.nodup hc ho
  rcases bst_insert_outcome h hnd k v hf fresh hm with ⟨e1, e2, e3⟩ | ⟨b', _, e1, e2, e3, _⟩
  · refine ⟨false, b, e3, fun _ => ⟨e1, ?_⟩, fun e => by cases e⟩
    intro x hx e
    obtain ⟨l, a, v', r, e'⟩ := locate_of_stored hc ho hx e
    rw [e2] at e'
    cases e'
  · refine ⟨true, b', e1, fun e => (by cases e), fun _ fuel' hf' => ?_⟩
    have hd := insert_depth b.cmp k v (fresh.getD 0) t
    have hl : (t.insert b.cmp k v (fresh.getD 0)).lookup b'.cmp k = some v := by
      rw [e3.1]
      exact insert_lookup_same k v _ t (hc.refl k)
    rw [bst_get_holds e2 k (by omega), bst_contains_holds e2 k (by omega), hl]
    simp

/-- C2 at the three-node tree: inserting the new key 25 with `malloc`
returning address 4. -/
theorem C2_insert_lookup_witness :
    ∃ r b', bst_insert 3 demo 25 250 (some 4) = some (r, b') ∧
      (r = false → (some 4 : ptr) = none ∧ ∀ x ∈ demo_tree.keys, demo.cmp 25 x ≠ 0) ∧
      (r = true → ∀ fuel', demo_tree.depth + 1 < fuel' →
        bst_get fuel' b' 25 = some (some 250) ∧ bst_contains fuel' b' 25 = some true) :=
  C2_insert_lookup demo demo_tree 25 250 (some 4) 3 cmp_int_total demo_holds.weaken demo_ordered
    (by decide) demo_fresh

/-- C3 (inserting a stored key updates).  On a state holding an ordered tree
that stores a key comparing equal to `k`, `bst_insert(k, v)` returns `true`
whatever `malloc` would do; `bst_size` is unchanged; the root pointer, the
key and the `left`/`right`/`parent` links of every node are unchanged, so the
new state holds a tree with the same addresses and the same key sequence; and
`bst_get(k)` then returns `v`. -/
theorem C3_insert_existing (b : bst K V) (t : Tree K V) (k : K) (v : V) (fresh : ptr)
    (fuel : Nat) (hc : TotalCmp b.cmp) (h : Holds false b t) (ho : Ordered b.cmp t)
    (hf : t.depth < fuel) (hst : ∃ k0 ∈ t.keys, b.cmp k k0 = 0) :
    ∃ b' t', bst_insert fuel b k v fresh = some (true, b') ∧ bst_size b' = bst_size b ∧
      Holds false b' t' ∧ t'.keys = t.keys ∧ t'.addrs = t.addrs ∧ b'.root = b.root ∧
      (∀ x, (b'.mem x).map node_t.links = (b.mem x).map node_t.links) ∧
      ∀ fuel', t.depth < fuel' → bst_get fuel' b' k = some (some v) := by
  have hnd := h.2.nodup hc ho
  obtain ⟨k0, hk0, e0⟩ := hst
  obtain ⟨l0, a0, v0, r0, hloc⟩ := locate_of_stored hc ho hk0 e0
  obtain ⟨cn, e1, e2, e3, e4, e5⟩ := bst_insert_found h hnd k v hf fresh 0 hloc
  have hne : t.locate b.cmp k ≠ Tree.nil := by rw [hloc]; simp
  obtain ⟨s1, s2, s3, s4, s5⟩ := insert_found_same b.cmp k v 0 t hne
  refine ⟨_, t.insert b.cmp k v 0, e4, rfl, e5, s2, s1, rfl, ?_, ?_⟩
  · intro x
    by_cases hx : x = a0
    · subst hx
      simp [store_same, e1, node_t.links]
    · simp [store_other _ _ hx]
  · intro fuel' hf'
    rw [bst_get_holds e5 k (by omega)]
    exact congrArg some (insert_lookup_same k v 0 t (hc.refl k))

/-- C3 at the three-node tree: inserting the stored key 10 again. -/
theorem C3_insert_existing_witness :
    ∃ b' t', bst_insert 3 demo 10 111 none = some (true, b') ∧ bst_size b' = bst_size demo ∧
      Holds false b' t' ∧ t'.keys = demo_tree.keys ∧ t'.addrs = demo_tree.addrs ∧
      b'.root = demo.root ∧
      (∀ x, (b'.mem x).map node_t.links = (demo.mem x).map node_t.links) ∧
      ∀ fuel', demo_tree.depth < fuel' → bst_get fuel' b' 10 = some (some 111) :=
  C3_insert_existing demo demo_tree 10 111 none 3 cmp_int_total demo_holds.weaken demo_ordered
    (by decide) ⟨10, by simp [demo_tree, Tree.keys], by decide⟩

/-- C4 (insertion does not disturb other entries).  On a state holding an
ordered tree, `bst_insert(k, v)` returns, and for every key `k'` that does not
compare equal to `k`, `bst_get(k')` and `bst_contains(k')` give the same
result on the new state as on the old one.  The call returns `true` whenever
`malloc` does not fail; it returns `false` only when `malloc` failed, and then
the state is the old one.  When the call returned `true` for a key that was
not stored, and the old state satisfies the size invariant, `bst_size` grew by
exactly 1 and the in-order traversal visits the old sequence with `(k, v)` put
between the smaller keys and the larger keys. -/
theorem C4_insert_others (b : bst K V) (t : Tree K V) (k : K) (v : V) (fresh : ptr) (fuel : Nat)
    (hc : TotalCmp b.cmp) (h : Holds false b t) (ho : Ordered b.cmp t) (hf : t.depth < fuel)
    (hm : FreshAddr b fresh) :
    ∃ r b', bst_insert fuel b k v fresh = some (r, b') ∧
      (∀ k', b.cmp k' k ≠ 0 → ∀ fuel', t.depth + 1 < fuel' →
        bst_get fuel' b' k' = bst_get fuel' b k' ∧
        bst_contains fuel' b' k' = bst_contains fuel' b k') ∧
      (fresh ≠ none → r = true) ∧
      (r = false → fresh = none ∧ b' = b) ∧
      (r = true → (∀ x ∈ t.keys, b.cmp k x ≠ 0) → Counted b t →
        bst_size b' = bst_size b + 1 ∧
        ∃ p1 p2, (∀ x ∈ p1, b.cmp x.1 k < 0) ∧ (∀ x ∈ p2, b.cmp k x.1 < 0) ∧
          ∀ fuel', t.depth + 1 < fuel' →
            bst_traverse_inorder fuel' b (some collect) [] = some (p1 ++ p2) ∧
            bst_traverse_inorder fuel' b' (some collect) [] = some (p1 ++ (k, v) :: p2)) := by
  have hnd := h.2.nodup hc ho
  rcases bst_insert_outcome h hnd k v hf fresh hm with ⟨e1, e2, e3⟩ | ⟨b', e0, e1, e2, e3, e4, _⟩
  · exact ⟨false, b, e3, fun _ _ _ _ => ⟨rfl, rfl⟩, fun hne => absurd e1 hne,
      fun _ => ⟨e1, rfl⟩, fun e => by cases e⟩
  · refine ⟨true, b', e1, ?_, fun _ => rfl, fun e => (by cases e), ?_⟩
    · intro k' hk' fuel' hf'
      have hd := insert_depth b.cmp k v (fresh.getD 0) t
      rw [bst_get_holds e2 k' (by omega), bst_contains_holds e2 k' (by omega),
        bst_get_holds h k' (by omega), bst_contains_holds h k' (by omega), e3.1,
        insert_lookup_other hc k v _ t k' hk']
      exact ⟨rfl, rfl⟩
    · intro _ habs hcnt
      have hloc := locate_nil_of_absent habs
      obtain ⟨n, hn⟩ : ∃ n, fresh = some n := by
        rcases e0 with e0 | e0
        · exact Option.ne_none_iff_exists'.mp e0
        · exact absurd hloc e0
      subst hn
      simp only [Option.getD_some] at e2
      obtain ⟨hfr, hpos, hlt⟩ := hm n rfl
      have hnd' : (t.insert b.cmp k v n).addrs.Nodup :=
        @Rep.nodup _ _ _ _ _ _ b.cmp hc e2.2 (ordered_insert k v n ho)
      have hb' : ∀ x ∈ (t.insert b.cmp k v n).addrs, 0 < x ∧ x < size_mod := by
        intro x hx
        rcases insert_addrs_mem b.cmp k v n t x hx with e | e
        · exact hcnt.2 x e
        · subst e; exact ⟨hpos, hlt⟩
      have hlt' := count_lt_size_mod hnd' hb'
      rw [insert_count_new b.cmp k v n t hloc] at hlt'
      constructor
      · unfold bst_size
        rw [(e4 hloc).1, hcnt.1, Nat.mod_eq_of_lt (by omega)]
      · obtain ⟨p1, p2, q1, q2, q3, q4⟩ := insert_pairs_new hc k v n ho hloc
        refine ⟨p1, p2, q3, q4, ?_⟩
        intro fuel' hf'
        have hd := insert_depth b.cmp k v n t
        rw [bst_traverse_inorder_holds h (by omega), bst_traverse_inorder_holds e2 (by omega),
          q1]
        exact ⟨rfl, congrArg some q2⟩

/-- C4 at the three-node tree: inserting the new key 25 with `malloc`
returning address 4.  The call returns `true`, `bst_size` goes from 3 to 4, the
lookups of the keys 10, 20, 30 and of the absent key 15 give what they gave
before, and the in-order traversal visits 25 between 20 and 30. -/
theorem C4_insert_others_witness :
    (∃ r b', bst_insert 3 demo 25 250 (some 4) = some (r, b') ∧
      (∀ k', demo.cmp k' 25 ≠ 0 → ∀ fuel', demo_tree.depth + 1 < fuel' →
        bst_get fuel' b' k' = bst_get fuel' demo k' ∧
        bst_contains fuel' b' k' = bst_contains fuel' demo k') ∧
      ((some 4 : ptr) ≠ none → r = true) ∧
      (r = false → (some 4 : ptr) = none ∧ b' = demo) ∧
      (r = true → (∀ x ∈ demo_tree.keys, demo.cmp 25 x ≠ 0) → Counted demo demo_tree →
        bst_size b' = bst_size demo + 1 ∧
        ∃ p1 p2, (∀ x ∈ p1, demo.cmp x.1 25 < 0) ∧ (∀ x ∈ p2, demo.cmp 25 x.1 < 0) ∧
          ∀ fuel', demo_tree.depth + 1 < fuel' →
            bst_traverse_inorder fuel' demo (some collect) [] = some (p1 ++ p2) ∧
            bst_traverse_inorder fuel' b' (some collect) [] =
              some (p1 ++ (25, 250) :: p2))) ∧
    (∀ x ∈ demo_tree.keys, demo.cmp 25 x ≠ 0) ∧ Counted demo demo_tree ∧
    bst_size demo = 3 ∧
    (bst_insert 3 demo 25 250 (some 4)).map (fun p => (p.1, bst_size p.2)) = some (true, 4) ∧
    bst_traverse_inorder 4 demo (some collect) [] = some [(10, 100), (20, 200), (30, 300)] ∧
    (bst_insert 3 demo 25 250 (some 4)).bind
        (fun p => bst_traverse_inorder 4 p.2 (some collect) []) =
      some [(10, 100), (20, 200), (25, 250), (30, 300)] ∧
    (bst_insert 3 demo 25 250 (some 4)).bind
        (fun p => (bst_get 4 p.2 10).bind fun g1 => (bst_get 4 p.2 20).bind fun g2 =>
          (bst_get 4 p.2 30).bind fun g3 => (bst_get 4 p.2 15).map fun g4 => [g1, g2, g3, g4]) =
      some [some 100, some 200, some 300, none] ∧
    ((bst_get 4 demo 10).bind fun g1 => (bst_get 4 demo 20).bind fun g2 =>
        (bst_get 4 demo 30).bind fun g3 => (bst_get 4 demo 15).map fun g4 => [g1, g2, g3, g4]) =
      some [some 100, some 200, some 300, none] :=
  ⟨C4_insert_others demo demo_tree 25 250 (some 4) 3 cmp_int_total demo_holds.weaken
    demo_ordered (by decide) demo_fresh, by decide, demo_counted, rfl, by decide, by decide,
    by decide, by decide, by decide⟩

/-! ## Removal: the heap steps -/

/-- What `transplant(bst, u, v)` does to the heap, address by address: the
parent of `u` gets `v` in the slot that held `u` (the root pointer when `u`
has no parent), and `v`, when not NULL, gets the parent of `u`. -/
theorem transplant_spec (b : bst K V) (u : Nat) (v : ptr) (un : node_t K V)
    (hu : b.mem u = some un)
    (hp : ∀ pa, un.parent = some pa → pa ≠ u ∧ b.mem pa ≠ none)
    (hv : ∀ va, v = some va → b.mem va ≠ none) :
    ∃ b', transplant b (some u) v = some b' ∧ b'.size = b.size ∧ b'.log = b.log ∧
      SameConfig b b' ∧
      b'.root = (match un.parent with
        | none => v
        | some _ => b.root) ∧
      ∀ x, b'.mem x =
        (if some x = v then Option.map (fun n => { n with parent := un.parent }) else id)
          ((if some x = un.parent then
              Option.map (fun pn =>
                if pn.left = some u then { pn with left := v } else { pn with right := v })
            else id) (b.mem x)) := by
  unfold transplant
  simp only [hu]
  cases hpar : un.parent with
  | none =>
    cases v with
    | none =>
      simp only [hu, set_parent_if]
      refine ⟨_, rfl, rfl, rfl, ⟨rfl, rfl, rfl⟩, rfl, ?_⟩
      intro x
      simp
    | some va =>
      obtain ⟨vn, hvn⟩ := Option.ne_none_iff_exists'.mp (hv va rfl)
      simp only [hu, set_parent_if, set_parent, hvn, hpar]
      refine ⟨_, rfl, rfl, rfl, ⟨rfl, rfl, rfl⟩, rfl, ?_⟩
      intro x
      by_cases hx : x = va
      · subst hx; simp [store_same, hvn]
      · have : ¬ (some x = some va) := by simpa using hx
        simp [store_other _ _ hx, this]
  | some pa =>
    obtain ⟨hpu, hpa⟩ := hp pa hpar
    obtain ⟨pn, hpn⟩ := Option.ne_none_iff_exists'.mp hpa
    simp only [hpn]
    have hup : u ≠ pa := fun e => hpu e.symm
    by_cases hl : pn.left = some u
    · simp only [hl, if_true, set_left, hpn, store_other _ _ hup, hu]
      cases v with
      | none =>
        refine ⟨_, rfl, rfl, rfl, ⟨rfl, rfl, rfl⟩, rfl, ?_⟩
        intro x
        by_cases hx : x = pa
        · subst hx; simp [store_same, hpn, hl]
        · have : ¬ (some x = some pa) := by simpa using hx
          simp [store_other _ _ hx, this]
      | some va =>
        obtain ⟨vn, hvn⟩ := Option.ne_none_iff_exists'.mp (hv va rfl)
        simp only [set_parent_if, set_parent, hpar]
        by_cases hvp : va = pa
        · subst hvp
          simp only [store_same]
          refine ⟨_, rfl, rfl, rfl, ⟨rfl, rfl, rfl⟩, rfl, ?_⟩
          intro x
          by_cases hx : x = va
          · subst hx; simp [store_same, hpn, hl]
          · have : ¬ (some x = some va) := by simpa using hx
            simp [store_other _ _ hx, this]
        · simp only [store_other _ _ hvp, hvn]
          refine ⟨_, rfl, rfl, rfl, ⟨rfl, rfl, rfl⟩, rfl, ?_⟩
          intro x
          by_cases hx : x = va
          · subst hx
            have : ¬ (some x = some pa) := by simpa using hvp
            simp [store_same, hvn, this]
          · have h1 : ¬ (some x = some va) := by simpa using hx
            by_cases hx2 : x = pa
            · subst hx2; simp [store_other _ _ hx, store_same, hpn, hl, h1]
            · have h2 : ¬ (some x = some pa) := by simpa using hx2
              simp [store_other _ _ hx, store_other _ _ hx2, h1, h2]
    · simp only [hl, if_false, set_right, hpn, store_other _ _ hup, hu]
      cases v with
      | none =>
        refine ⟨_, rfl, rfl, rfl, ⟨rfl, rfl, rfl⟩, rfl, ?_⟩
        intro x
        by_cases hx : x = pa
        · subst hx; simp [store_same, hpn, hl]
        · have : ¬ (some x = some pa) := by simpa using hx
          simp [store_other _ _ hx, this]
      | some va =>
        obtain ⟨vn, hvn⟩ := Option.ne_none_iff_exists'.mp (hv va rfl)
        simp only [set_parent_if, set_parent, hpar]
        by_cases hvp : va = pa
        · subst hvp
          simp only [store_same]
          refine ⟨_, rfl, rfl, rfl, ⟨rfl, rfl, rfl⟩, rfl, ?_⟩
          intro x
          by_cases hx : x = va
          · subst hx; simp [store_same, hpn, hl]
          · have : ¬ (some x = some va) := by simpa using hx
            simp [store_other _ _ hx, this]
        · simp only [store_other _ _ hvp, hvn]
          refine ⟨_, rfl, rfl, rfl, ⟨rfl, rfl, rfl⟩, rfl, ?_⟩
          intro x
          by_cases hx : x = va
          · subst hx
            have : ¬ (some x = some pa) := by simpa using hvp
            simp [store_same, hvn, this]
          · have h1 : ¬ (some x = some va) := by simpa using hx
            by_cases hx2 : x = pa
            · subst hx2; simp [store_other _ _ hx, store_same, hpn, hl, h1]
            · have h2 : ¬ (some x = some pa) := by simpa using hx2
              simp [store_other _ _ hx, store_other _ _ hx2, h1, h2]

/-- The leftmost node of a non-empty tree comes first in in-order; the rest is
`remove_min`. -/
theorem leftmost_spec (t : Tree K V) (hne : t ≠ Tree.nil) :
    ∃ ya yk yv yr, t.leftmost = Tree.node Tree.nil ya yk yv yr ∧
      t.pairs = (yk, yv) :: t.remove_min.pairs ∧ t.addrs = ya :: t.remove_min.addrs ∧
      t.keys = yk :: t.remove_min.keys ∧ t.count = t.remove_min.count + 1 ∧
      t.remove_min.depth ≤ t.depth := by
  induction t with
  | nil => exact absurd rfl hne
  | node l a k v r ihl _ =>
    cases l with
    | nil =>
      exact ⟨a, k, v, r, by simp [Tree.leftmost], by simp [Tree.remove_min, Tree.pairs],
        by simp [Tree.remove_min, Tree.addrs], by simp [Tree.remove_min, Tree.keys],
        by simp [Tree.remove_min, Tree.count]; omega, by simp [Tree.remove_min, Tree.depth]⟩
    | node ll la lk lv lr =>
      obtain ⟨ya, yk, yv, yr, e1, e2, e3, e4, e5, e6⟩ := ihl (by simp)
      refine ⟨ya, yk, yv, yr, by simpa [Tree.leftmost] using e1, ?_, ?_, ?_, ?_, ?_⟩
      · simp only [Tree.remove_min, Tree.pairs] at e2 ⊢
        rw [e2]; simp
      · simp only [Tree.remove_min, Tree.addrs] at e3 ⊢
        rw [e3]; simp
      · simp only [Tree.remove_min, Tree.keys] at e4 ⊢
        rw [e4]; simp
      · simp only [Tree.remove_min, Tree.count] at e5 ⊢
        omega
      · simp only [Tree.remove_min, Tree.depth] at e6 ⊢
        omega

/-- `transplant(bst, u, c)` for a node `u` whose only subtree is `c` exchanges
the tree at `u` for `c`; the node `u` itself is left as it was. -/
theorem transplant_child {b : bst K V} {par : ptr} {side : Bool} {l r : Tree K V} {u : Nat}
    {k : K} {v : V} (c : Tree K V)
    (hcase : (c = l ∧ r = Tree.nil) ∨ (c = r ∧ l = Tree.nil))
    (h : Rep true b.mem par (Tree.node l u k v r)) (hnd : (Tree.node l u k v r).addrs.Nodup)
    (hpar : ∀ pa, par = some pa → pa ∉ (Tree.node l u k v r).addrs ∧ b.mem pa ≠ none)
    (hside : ∀ pa pn, par = some pa → b.mem pa = some pn → (side = true ↔ pn.left = some u)) :
    ∃ b', transplant b (some u) c.rootp = some b' ∧
      Splice true b b' par side (Tree.node l u k v r) c ∧ b'.mem u = b.mem u ∧
      b'.size = b.size ∧ b'.log = b.log ∧ SameConfig b b' := by
  have h0 := h
  rw [rep_node] at h
  obtain ⟨⟨un, hun, hk, hv, hl, hr, hp⟩, h1, h2⟩ := h
  have hp' : un.parent = par := hp rfl
  have hnd0 := hnd
  simp only [Tree.addrs] at hnd hpar
  rw [List.nodup_append, List.nodup_cons] at hnd
  obtain ⟨ndl, ⟨nur, ndr⟩, ndis⟩ := hnd
  have nul : u ∉ l.addrs := fun hx => ndis hx (by simp)
  have hcrep : Rep true b.mem (some u) c := by
    rcases hcase with ⟨e, _⟩ | ⟨e, _⟩ <;> subst e <;> assumption
  have hcsub : ∀ x ∈ c.addrs, x ∈ (Tree.node l u k v r).addrs := by
    intro x hx
    rcases hcase with ⟨e, _⟩ | ⟨e, _⟩ <;> subst e <;> simp [Tree.addrs, hx]
  have huc : u ∉ c.addrs := by
    rcases hcase with ⟨e, _⟩ | ⟨e, _⟩ <;> subst e <;> assumption
  have hcnd : c.addrs.Nodup := by
    rcases hcase with ⟨e, _⟩ | ⟨e, _⟩ <;> subst e <;> assumption
  have hroot : ∀ ca, c.rootp = some ca → ca ∈ c.addrs := by
    intro ca e
    cases c with
    | nil => cases e
    | node cl ca' ck cv cr => cases e; simp [Tree.addrs]
  have hpau : ∀ pa, par = some pa → pa ≠ u ∧ pa ∉ c.addrs := by
    intro pa e
    have := (hpar pa e).1
    refine ⟨fun e' => this (by simp [e']), fun hx => this ?_⟩
    simpa [Tree.addrs] using hcsub pa hx
  obtain ⟨b', e1, e2, e3, e4, e5, e6⟩ := transplant_spec b u c.rootp un hun
    (by intro pa e; rw [hp'] at e; exact ⟨(hpau pa e).1, (hpar pa e).2⟩)
    (by intro va e; exact hcrep.alloc (hroot va e))
  rw [hp'] at e5 e6
  have hother : ∀ x, some x ≠ c.rootp → par ≠ some x → b'.mem x = b.mem x := by
    intro x hx1 hx2
    rw [e6 x]
    have h2 : ¬ (some x = par) := fun e => hx2 e.symm
    simp [hx1, h2]
  have hmu : b'.mem u = b.mem u := by
    refine hother u ?_ ?_
    · intro e; exact huc (hroot u e.symm)
    · intro e; exact (hpau u e).1 rfl
  refine ⟨b', e1, ?_, hmu, e2, e3, e4⟩
  constructor
  · cases c with
    | nil => simp [Rep]
    | node cl ca ck cv cr =>
      rw [rep_node] at hcrep ⊢
      obtain ⟨⟨cn, hcn, ck', cv', cl', cr', _⟩, c1, c2⟩ := hcrep
      simp only [Tree.addrs] at hcnd huc hpau
      rw [List.nodup_append, List.nodup_cons] at hcnd
      obtain ⟨_, ⟨ncr, _⟩, cdis⟩ := hcnd
      have ncl : ca ∉ cl.addrs := fun hx => cdis hx (by simp)
      have hca : b'.mem ca = some { cn with parent := par } := by
        rw [e6 ca]
        have : ¬ (some ca = par) := by
          intro e
          exact (hpau ca e.symm).2 (by simp)
        simp [rootp_node, this, hcn]
      refine ⟨⟨_, hca, ck', cv', cl', cr', fun _ => rfl⟩, ?_, ?_⟩
      · refine c1.frame ?_
        intro x hx
        refine hother x ?_ ?_
        · simp only [rootp_node, ne_eq, Option.some.injEq]
          intro e; subst e; exact ncl hx
        · intro e
          exact (hpau x e).2 (by simp [hx])
      · refine c2.frame ?_
        intro x hx
        refine hother x ?_ ?_
        · simp only [rootp_node, ne_eq, Option.some.injEq]
          intro e; subst e; exact ncr hx
        · intro e
          exact (hpau x e).2 (by simp [hx])
  · intro x hx
    exact Or.inl (hcsub x hx)
  · intro x hx _ hx2
    refine hother x ?_ hx2
    intro e
    exact hx (hcsub x (hroot x e.symm))
  · intro e _
    rw [e5, e]
  · intro e
    rw [e5]
    cases par with
    | none => exact absurd rfl e
    | some pa => rfl
  · intro pa pn e hpn _
    subst e
    rw [e6 pa]
    have h1 : ¬ (some pa = c.rootp) := by
      intro e
      exact (hpau pa rfl).2 (hroot pa e.symm)
    have hs := hside pa pn rfl hpn
    cases side
    · have : ¬ (pn.left = some u) := by
        intro e; have := hs.mpr e; cases this
      simp [h1, hpn, this]
    · have : pn.left = some u := hs.mp rfl
      simp [h1, hpn, this]

/-- The loop of `subtree_min` stops at the leftmost node of the tree, which
the heap stores with no left child. -/
theorem leftmost_rep {s : Bool} {m : Nat → Option (node_t K V)} {par : ptr} {t : Tree K V}
    (h : Rep s m par t) (hne : t ≠ Tree.nil) (hnd : t.addrs.Nodup) {fuel : Nat}
    (hf : t.depth ≤ fuel) :
    ∃ ya yk yv yr, t.leftmost = Tree.node Tree.nil ya yk yv yr ∧
      (∀ a, t.rootp = some a → min_loop m fuel a = some ya) ∧
      ∃ yn, m ya = some yn ∧ yn.key = yk ∧ yn.value = yv ∧ yn.left = none ∧
        yn.right = yr.rootp ∧ Rep s m (some ya) yr ∧
        (s = true → (t.rootp = some ya → yn.parent = par) ∧
          (t.rootp ≠ some ya → ∃ py ∈ t.addrs, yn.parent = some py)) := by
  induction t generalizing par fuel with
  | nil => exact absurd rfl hne
  | node l a k v r ihl _ =>
    rw [rep_node] at h
    obtain ⟨⟨n, hn, hk, hv, hl, hr, hp⟩, h1, h2⟩ := h
    simp only [Tree.addrs] at hnd
    rw [List.nodup_append, List.nodup_cons] at hnd
    obtain ⟨ndl, ⟨nar, ndr⟩, ndis⟩ := hnd
    have nal : a ∉ l.addrs := fun hx => ndis hx (by simp)
    cases fuel with
    | zero => simp [Tree.depth] at hf
    | succ f =>
      simp only [Tree.depth] at hf
      cases l with
      | nil =>
        refine ⟨a, k, v, r, by simp [Tree.leftmost], ?_, n, hn, hk, hv, by simpa using hl, hr,
          h2, ?_⟩
        · intro a' e
          cases e
          have : n.left = none := by simpa using hl
          simp [min_loop, hn, this]
        · intro hs
          exact ⟨fun _ => hp hs, fun e => absurd rfl e⟩
      | node ll la lk lv lr =>
        obtain ⟨ya, yk, yv, yr, e1, e2, yn, f1, f2, f3, f4, f5, f6, f7⟩ :=
          @ihl (some a) h1 (by simp) ndl f (by omega)
        obtain ⟨_, _, _, _, g1, _, g3, _⟩ :=
          leftmost_spec (Tree.node ll la lk lv lr) (by simp)
        rw [e1] at g1
        cases g1
        have hya : ya ∈ (Tree.node ll la lk lv lr).addrs := by rw [g3]; simp
        refine ⟨ya, yk, yv, yr, by simpa [Tree.leftmost] using e1, ?_, yn, f1, f2, f3, f4, f5,
          f6, ?_⟩
        · intro a' e
          cases e
          have : n.left = some la := by simpa using hl
          simp only [min_loop, hn, this]
          exact e2 la rfl
        · intro hs
          refine ⟨fun e => ?_, fun _ => ?_⟩
          · cases e
            exact absurd hya nal
          · by_cases hroot : (Tree.node ll la lk lv lr).rootp = some ya
            · exact ⟨a, by simp [Tree.addrs], (f7 hs).1 hroot⟩
            · obtain ⟨py, hpy, e⟩ := (f7 hs).2 hroot
              exact ⟨py, List.mem_append_left _ hpy, e⟩

/-- `transplant(bst, y, y->right)` for the leftmost node `y` of a tree
exchanges the tree for `remove_min`; the node `y` itself is left as it was. -/
theorem splice_remove_min {b : bst K V} {par : ptr} {side : Bool} {t : Tree K V}
    (h : Rep true b.mem par t) (hnd : t.addrs.Nodup)
    (hpar : ∀ pa, par = some pa → pa ∉ t.addrs ∧ b.mem pa ≠ none)
    (hside : ∀ pa pn, par = some pa → b.mem pa = some pn → (side = true ↔ pn.left = t.rootp))
    {ya : Nat} {yk : K} {yv : V} {yr : Tree K V}
    (hy : t.leftmost = Tree.node Tree.nil ya yk yv yr) :
    ∃ b', transplant b (some ya) yr.rootp = some b' ∧
      Splice true b b' par side t t.remove_min ∧ b'.mem ya = b.mem ya ∧
      b'.size = b.size ∧ b'.log = b.log ∧ SameConfig b b' := by
  induction t generalizing par side with
  | nil => simp [Tree.leftmost] at hy
  | node l a k v r ihl _ =>
    cases l with
    | nil =>
      simp only [Tree.leftmost, Tree.node.injEq, true_and] at hy
      obtain ⟨e1, e2, e3, e4⟩ := hy
      subst e1 e2 e3 e4
      simp only [Tree.remove_min]
      exact transplant_child r (Or.inr ⟨rfl, rfl⟩) h hnd hpar hside
    | node ll la lk lv lr =>
      have h0 := h
      rw [rep_node] at h
      obtain ⟨⟨n, hn, hk, hv, hl, hr, hp⟩, h1, h2⟩ := h
      have hnd0 := hnd
      simp only [Tree.addrs] at hnd
      rw [List.nodup_append, List.nodup_cons] at hnd
      obtain ⟨ndl, ⟨nar, ndr⟩, ndis⟩ := hnd
      have nal : a ∉ (Tree.node ll la lk lv lr).addrs := fun hx => ndis hx (by simp)
      simp only [Tree.leftmost] at hy
      obtain ⟨b', e1, e2, e3⟩ := @ihl (some a) true h1 ndl
        (by intro pa e; cases e; exact ⟨nal, by simp [hn]⟩)
        (by intro pa pn e hpn; cases e; rw [hn] at hpn; cases hpn; simp [hl]) hy
      refine ⟨b', e1, ?_, e3⟩
      simp only [Tree.remove_min]
      exact Splice.lift_left e2 h0 hnd0 hpar

/-- Lines 157-161 of `bst_remove`: afterwards the successor `y` is a node
with no left child whose right subtree is the right subtree of `z` without
`y`; the rest of the heap, the fields of `z` other than `right` included, is
as before. -/
theorem successor_detach_spec {b : bst K V} {z : Nat} {zn : node_t K V} {r : Tree K V}
    (hz : b.mem z = some zn) (hzr : zn.right = r.rootp) (hzl : zn.left ≠ r.rootp)
    (h : Rep true b.mem (some z) r) (hnd : r.addrs.Nodup) (hzr' : z ∉ r.addrs)
    {ya : Nat} {yk : K} {yv : V} {yr : Tree K V}
    (hy : r.leftmost = Tree.node Tree.nil ya yk yv yr) :
    ∃ b3, successor_detach b z ya = some b3 ∧
      Rep true b3.mem (some ya) r.remove_min ∧
      (∃ yn3, b3.mem ya = some yn3 ∧ yn3.key = yk ∧ yn3.value = yv ∧ yn3.left = none ∧
        yn3.right = r.remove_min.rootp) ∧
      (∃ zn3, b3.mem z = some zn3 ∧ zn3.key = zn.key ∧ zn3.value = zn.value ∧
        zn3.left = zn.left ∧ zn3.parent = zn.parent) ∧
      (∀ x, x ∉ r.addrs → x ≠ z → b3.mem x = b.mem x) ∧
      b3.root = b.root ∧ b3.size = b.size ∧ b3.log = b.log ∧ SameConfig b b3 := by
  cases r with
  | nil => simp [Tree.leftmost] at hy
  | node l a k v rr =>
    cases l with
    | nil =>
      simp only [Tree.leftmost, Tree.node.injEq, true_and] at hy
      obtain ⟨e1, e2, e3, e4⟩ := hy
      subst e1 e2 e3 e4
      rw [rep_node] at h
      obtain ⟨⟨n, hn, hk, hv, hl, hr, hp⟩, _, h2⟩ := h
      have hp' : n.parent = some z := hp rfl
      refine ⟨b, by simp [successor_detach, hn, hp'], by simpa [Tree.remove_min] using h2,
        ⟨n, hn, hk, hv, by simpa using hl, by simpa [Tree.remove_min] using hr⟩,
        ⟨zn, hz, rfl, rfl, rfl, rfl⟩, fun _ _ _ => rfl, rfl, rfl, rfl, ⟨rfl, rfl, rfl⟩⟩
    | node ll la lk lv lr =>
      obtain ⟨ya', yk', yv', yr', g1, _, yn, f1, f2, f3, f4, f5, _, f7⟩ :=
        leftmost_rep h (by simp) hnd (le_refl _)
      rw [hy] at g1
      cases g1
      obtain ⟨_, _, _, _, q1, _, q3, _⟩ :=
        leftmost_spec (Tree.node (Tree.node ll la lk lv lr) a k v rr) (by simp)
      rw [hy] at q1
      cases q1
      have hnd' := hnd
      rw [q3, List.nodup_cons] at hnd'
      obtain ⟨hya', hndr'⟩ := hnd'
      have hyar : ya ∈ (Tree.node (Tree.node ll la lk lv lr) a k v rr).addrs := by
        rw [q3]; simp
      have hya_ne : ya ≠ a := by
        intro e
        subst e
        simp [Tree.remove_min, Tree.addrs] at hya'
      obtain ⟨py, hpy, hyp⟩ := (f7 rfl).2 (by simpa [rootp_node] using hya_ne.symm)
      have hpyz : yn.parent ≠ some z := by
        rw [hyp]
        intro e
        cases e
        exact hzr' hpy
      obtain ⟨b1, t1, t2, t3, t4, t5, t6⟩ := @splice_remove_min K V b (some z) false _ h hnd
        (by intro pa e; cases e; exact ⟨hzr', by simp [hz]⟩)
        (by
          intro pa pn e hpn
          cases e
          rw [hz] at hpn
          cases hpn
          simp [hzl]) _ _ _ _ hy
      have hz1 := t2.link z zn rfl hz (by simpa using hzr)
      simp only [Bool.false_eq_true, if_false] at hz1
      have hrep1 := t2.rep
      simp only [Tree.remove_min] at hrep1 hz1 hya' hndr' ⊢
      rw [rep_node] at hrep1
      obtain ⟨⟨n1, hn1, hk1, hv1, hl1, hr1, _⟩, r1, r2⟩ := hrep1
      simp only [rootp_node] at hz1
      simp only [Tree.addrs] at hya' hndr'
      rw [List.nodup_append, List.nodup_cons] at hndr'
      obtain ⟨_, ⟨nar', _⟩, dis'⟩ := hndr'
      have nal' : a ∉ (Tree.node ll la lk lv lr).remove_min.addrs := fun hx => dis' hx (by simp)
      have hza : z ≠ a := by
        intro e; subst e; exact hzr' (by simp [Tree.addrs])
      have hzy : z ≠ ya := by
        intro e; subst e; exact hzr' hyar
      have hay : a ≠ ya := fun e => hya_ne e.symm
      refine ⟨{ b1 with mem := (store (store b1.mem ya { yn with right := some a }) a
          { n1 with parent := some ya }) }, ?_, ?_, ?_, ?_, ?_, ?_, t4, t5, t6⟩
      · simp [successor_detach, f1, hpyz, f5, t1, hz1, set_right, t3, store_same, set_parent_if,
          set_parent, store_other _ _ hay, hn1]
      · rw [rep_node]
        refine ⟨⟨_, store_same _ _ _, hk1, hv1, hl1, hr1, fun _ => rfl⟩, ?_, ?_⟩
        · refine r1.frame ?_
          intro x hx
          have hxa : x ≠ a := fun e => nal' (e ▸ hx)
          have hxy : x ≠ ya := fun e => hya' (by rw [← e]; simp [hx])
          dsimp only
          rw [store_other _ _ hxa, store_other _ _ hxy]
        · refine r2.frame ?_
          intro x hx
          have hxa : x ≠ a := fun e => nar' (e ▸ hx)
          have hxy : x ≠ ya := fun e => hya' (by rw [← e]; simp [hx])
          dsimp only
          rw [store_other _ _ hxa, store_other _ _ hxy]
      · refine ⟨{ yn with right := some a }, ?_, f2, f3, f4, rfl⟩
        dsimp only
        rw [store_other _ _ hya_ne, store_same]
      · refine ⟨{ zn with right := some a }, ?_, rfl, rfl, rfl, rfl⟩
        dsimp only
        rw [store_other _ _ hza, store_other _ _ hzy, hz1]
      · intro x hx hxz
        have hxa : x ≠ a := fun e => hx (by rw [e]; simp [Tree.addrs])
        have hxy : x ≠ ya := fun e => hx (e ▸ hyar)
        dsimp only
        rw [store_other _ _ hxa, store_other _ _ hxy]
        refine t2.frame x hx ?_ (by simpa using fun e => hxz e.symm)
        intro hx'
        exact hx (by
          rw [q3]
          simp only [Tree.remove_min, List.mem_cons]
          exact Or.inr hx')
      · exact t2.root_sub (by simp)

/-- Lines 162-164 of `bst_remove`: the successor `y` takes the place of `z`
below the parent of `z` and adopts the left child of `z`. -/
theorem successor_attach_spec {b3 : bst K V} {z ya la : Nat} {zn3 yn3 ln : node_t K V}
    {par : ptr} (hz : b3.mem z = some zn3) (hzp : zn3.parent = par) (hzl : zn3.left = some la)
    (hy : b3.mem ya = some yn3) (hl : b3.mem la = some ln)
    (hzy : z ≠ ya) (hzla : z ≠ la) (hyl : ya ≠ la)
    (hpar : ∀ pa, par = some pa → pa ≠ z ∧ pa ≠ ya ∧ pa ≠ la ∧ b3.mem pa ≠ none) :
    ∃ b6, successor_attach b3 z ya = some b6 ∧ b6.size = b3.size ∧ b6.log = b3.log ∧
      SameConfig b3 b6 ∧
      (par = none → b6.root = some ya) ∧ (par ≠ none → b6.root = b3.root) ∧
      b6.mem z = some zn3 ∧
      b6.mem ya = some { yn3 with parent := par, left := some la } ∧
      b6.mem la = some { ln with parent := some ya } ∧
      (∀ pa pn, par = some pa → b3.mem pa = some pn →
        b6.mem pa = some (if pn.left = some z then { pn with left := some ya }
          else { pn with right := some ya })) ∧
      (∀ x, x ≠ z → x ≠ ya → x ≠ la → par ≠ some x → b6.mem x = b3.mem x) := by
  obtain ⟨b4, e1, e2, e3, e4, e5, e6⟩ := transplant_spec b3 z (some ya) zn3 hz
    (by intro pa e; rw [hzp] at e; exact ⟨(hpar pa e).1, (hpar pa e).2.2.2⟩)
    (by intro va e; cases e; simp [hy])
  rw [hzp] at e5 e6
  have hzpar : ¬ (some z = par) := fun e => (hpar z e.symm).1 rfl
  have hypar : ¬ (some ya = par) := fun e => (hpar ya e.symm).2.1 rfl
  have hlpar : ¬ (some la = par) := fun e => (hpar la e.symm).2.2.1 rfl
  have m4z : b4.mem z = some zn3 := by
    rw [e6 z]; simp [hzy, hzpar, hz]
  have m4y : b4.mem ya = some { yn3 with parent := par } := by
    rw [e6 ya]; simp [hypar, hy]
  have m4l : b4.mem la = some ln := by
    rw [e6 la]; simp [hyl.symm, hlpar, hl]
  refine ⟨{ b4 with mem := (store (store b4.mem ya { yn3 with parent := par, left := some la })
      la { ln with parent := some ya }) }, ?_, e2, e3, e4, ?_, ?_, ?_, ?_, ?_, ?_, ?_⟩
  · simp [successor_attach, e1, m4z, set_left, m4y, hzl, store_same, set_parent_if, set_parent,
      store_other _ _ hyl.symm, m4l]
  · intro e
    subst e
    exact e5
  · intro e
    cases par with
    | none => exact absurd rfl e
    | some pa => exact e5
  · dsimp only
    rw [store_other _ _ hzla, store_other _ _ hzy, m4z]
  · dsimp only
    rw [store_other _ _ hyl, store_same]
  · dsimp only
    rw [store_same]
  · intro pa pn e hpn
    obtain ⟨p1, p2, p3, _⟩ := hpar pa e
    dsimp only
    rw [store_other _ _ p3, store_other _ _ p2, e6 pa]
    have : ¬ (par = some ya) := fun e' => hypar e'.symm
    simp [p2, e.symm, hpn, this]
  · intro x x1 x2 x3 x4
    dsimp only
    rw [store_other _ _ x3, store_other _ _ x2, e6 x]
    have : ¬ (some x = par) := fun e => x4 e.symm
    simp [x2, this]

/-- Releasing a node that is no longer part of the exchanged tree keeps the
exchange. -/
theorem Splice.dealloc {s : Bool} {b b1 b2 : bst K V} {par : ptr} {side : Bool}
    {t t' : Tree K V} (h : Splice s b b1 par side t t') {z : Nat} (hzt : z ∈ t.addrs)
    (hzt' : z ∉ t'.addrs) (hzp : par ≠ some z) (hmem : b2.mem = dealloc b1.mem z)
    (hroot : b2.root = b1.root) : Splice s b b2 par side t t' := by
  constructor
  · refine h.rep.frame ?_
    intro x hx
    rw [hmem, dealloc_other]
    intro e; subst e; exact hzt' hx
  · exact h.sub
  · intro x hx hx' hp
    rw [hmem, dealloc_other]
    · exact h.frame x hx hx' hp
    · intro e; subst e; exact hx hzt
  · intro e1 e2
    rw [hroot]; exact h.root_top e1 e2
  · intro e
    rw [hroot]; exact h.root_sub e
  · intro pa pn e hpn hslot
    rw [hmem, dealloc_other]
    · exact h.link pa pn e hpn hslot
    · intro e'; subst e'; exact hzp e

theorem mem_addrs_node {l r : Tree K V} {a x : Nat} {k : K} {v : V} :
    x ∈ (Tree.node l a k v r).addrs ↔ x ∈ l.addrs ∨ x = a ∨ x ∈ r.addrs := by
  simp [Tree.addrs]

theorem not_mem_addrs_node {l r : Tree K V} {a x : Nat} {k : K} {v : V} :
    x ∉ (Tree.node l a k v r).addrs ↔ x ∉ l.addrs ∧ x ≠ a ∧ x ∉ r.addrs := by
  simp [Tree.addrs]

theorem release_calls_config {b b1 : bst K V} (h : SameConfig b b1) (k : K) (v : V) :
    release_calls b1 k v = release_calls b k v := by
  unfold release_calls
  rw [h.2.1, h.2.2]

/-- The three structural cases of `bst_remove` at a node `z`: the tree at `z`
is exchanged for `Tree.remove_root` of it, the key and value of `z` are
released, and `z` is freed. -/
theorem remove_at_root {b : bst K V} {par : ptr} {side : Bool} {l r : Tree K V} {z : Nat}
    {k : K} {v : V} (h : Rep true b.mem par (Tree.node l z k v r))
    (hnd : (Tree.node l z k v r).addrs.Nodup)
    (hpar : ∀ pa, par = some pa → pa ∉ (Tree.node l z k v r).addrs ∧ b.mem pa ≠ none)
    (hside : ∀ pa pn, par = some pa → b.mem pa = some pn → (side = true ↔ pn.left = some z))
    {fuel : Nat} (hf : (Tree.node l z k v r).depth ≤ fuel) :
    ∃ b', remove_at fuel b z = some b' ∧
      Splice true b b' par side (Tree.node l z k v r) (Tree.node l z k v r).remove_root ∧
      b'.size = b.size ∧ b'.log = b.log ++ release_calls b k v ∧ SameConfig b b' := by
  have h0 := h
  rw [rep_node] at h
  obtain ⟨⟨zn, hzn, hk, hv, hl, hr, hp⟩, h1, h2⟩ := h
  have hp' : zn.parent = par := hp rfl
  have hnd0 := hnd
  simp only [Tree.addrs] at hnd
  rw [List.nodup_append, List.nodup_cons] at hnd
  obtain ⟨ndl, ⟨nzr, ndr⟩, ndis⟩ := hnd
  have nzl : z ∉ l.addrs := fun hx => ndis hx (by simp)
  have hzs : z ∈ (Tree.node l z k v r).addrs := by simp [Tree.addrs]
  have hpz : par ≠ some z := fun e => (hpar z e).1 hzs
  cases l with
  | nil =>
    obtain ⟨b1, t1, t2, t3, t4, t5, t6⟩ :=
      transplant_child r (Or.inr ⟨rfl, rfl⟩) h0 hnd0 hpar hside
    have hl' : zn.left = none := by simpa using hl
    refine ⟨{ b1 with log := b1.log ++ release_calls b1 zn.key zn.value,
                      mem := dealloc b1.mem z }, ?_, ?_, t4, ?_, t6⟩
    · simp [remove_at, hzn, hl', hr, t1, free_node, t3]
    · simp only [Tree.remove_root]
      exact Splice.dealloc t2 hzs nzr hpz rfl rfl
    · dsimp only
      rw [t5, release_calls_config t6, hk, hv]
  | node ll la lk lv lr =>
    have hl' : zn.left = some la := by simpa using hl
    cases r with
    | nil =>
      obtain ⟨b1, t1, t2, t3, t4, t5, t6⟩ :=
        transplant_child (Tree.node ll la lk lv lr) (Or.inl ⟨rfl, rfl⟩) h0 hnd0 hpar hside
      have hr' : zn.right = none := by simpa using hr
      refine ⟨{ b1 with log := b1.log ++ release_calls b1 zn.key zn.value,
                        mem := dealloc b1.mem z }, ?_, ?_, t4, ?_, t6⟩
      · have : transplant b (some z) (some la) = some b1 := by simpa [rootp_node] using t1
        simp [remove_at, hzn, hl', hr', this, free_node, t3]
      · simp only [Tree.remove_root]
        exact Splice.dealloc t2 hzs nzl hpz rfl rfl
      · dsimp only
        rw [t5, release_calls_config t6, hk, hv]
    | node rl ra rk rv rr =>
      have hr' : zn.right = some ra := by simpa using hr
      have hla : la ∈ (Tree.node ll la lk lv lr).addrs := by simp [Tree.addrs]
      have hra : ra ∈ (Tree.node rl ra rk rv rr).addrs := by simp [Tree.addrs]
      have hlra : la ≠ ra := by
        intro e
        exact ndis hla (by rw [e]; simp [hra])
      simp only [Tree.depth] at hf
      obtain ⟨ya, yk, yv, yr, g1, g2, _⟩ :=
        leftmost_rep h2 (by simp) ndr (by simp only [Tree.depth]; omega : _ ≤ fuel)
      obtain ⟨_, _, _, _, q1, _, q3, _⟩ := leftmost_spec (Tree.node rl ra rk rv rr) (by simp)
      rw [g1] at q1
      cases q1
      have ndr' := ndr
      rw [q3, List.nodup_cons] at ndr'
      obtain ⟨hya', _⟩ := ndr'
      have hyar : ya ∈ (Tree.node rl ra rk rv rr).addrs := by rw [q3]; simp
      have hsubr : ∀ x ∈ (Tree.node rl ra rk rv rr).remove_min.addrs,
          x ∈ (Tree.node rl ra rk rv rr).addrs := by
        intro x hx; rw [q3]; simp [hx]
      obtain ⟨b3, d1, d2, ⟨yn3, y1, y2, y3, y4, y5⟩, ⟨zn3, z1, z2, z3, z4, z5⟩, d5, d6, d7, d8,
          d9⟩ := successor_detach_spec hzn hr
        (by rw [hl']; simpa [rootp_node] using hlra) h2 ndr nzr g1
      have hzy : z ≠ ya := fun e => nzr (e ▸ hyar)
      have hzla : z ≠ la := fun e => nzl (e ▸ hla)
      have hyl : ya ≠ la := fun e => ndis hla (by rw [← e]; simp [hyar])
      have h1' := h1
      rw [rep_node] at h1'
      obtain ⟨⟨ln, hln, lk', lv', ll', lr', _⟩, l1, l2⟩ := h1'
      have hl3 : b3.mem la = some ln := by
        rw [d5 la (fun hx => ndis hla (by simp [hx])) hzla.symm, hln]
      have hpar3 : ∀ pa, par = some pa → pa ≠ z ∧ pa ≠ ya ∧ pa ≠ la ∧ b3.mem pa ≠ none := by
        intro pa e
        obtain ⟨p1, p2⟩ := hpar pa e
        rw [not_mem_addrs_node] at p1
        have pz : pa ≠ z := p1.2.1
        have py : pa ≠ ya := fun e' => p1.2.2 (e' ▸ hyar)
        have pl : pa ≠ la := fun e' => p1.1 (e' ▸ hla)
        refine ⟨pz, py, pl, ?_⟩
        rw [d5 pa p1.2.2 pz]
        exact p2
      obtain ⟨b6, a1, a2, a3, a4, a5, a6, a7, a8, a9, a10, a11⟩ :=
        successor_attach_spec z1 (z5.trans hp') (z4.trans hl') y1 hl3 hzy hzla hyl hpar3
      have hread : ∀ x, x ∉ (Tree.node rl ra rk rv rr).addrs → x ≠ z → x ≠ la →
          par ≠ some x → b6.mem x = b.mem x := by
        intro x x1 x2 x3 x4
        rw [a11 x x2 (fun e => x1 (e ▸ hyar)) x3 x4, d5 x x1 x2]
      have hs6 : Splice true b b6 par side
          (Tree.node (Tree.node ll la lk lv lr) z k v (Tree.node rl ra rk rv rr))
          (Tree.node (Tree.node ll la lk lv lr) ya yk yv
            (Tree.node rl ra rk rv rr).remove_min) := by
        constructor
        · rw [rep_node]
          refine ⟨⟨_, a8, y2, y3, rfl, y5, fun _ => rfl⟩, ?_, ?_⟩
          · rw [rep_node]
            simp only [Tree.addrs] at ndl
            rw [List.nodup_append, List.nodup_cons] at ndl
            obtain ⟨_, ⟨nlr, _⟩, ldis⟩ := ndl
            have nll : la ∉ ll.addrs := fun hx => ldis hx (by simp)
            refine ⟨⟨_, a9, lk', lv', ll', lr', fun _ => rfl⟩, ?_, ?_⟩
            · refine l1.frame ?_
              intro x hx
              have hxl : x ∈ (Tree.node ll la lk lv lr).addrs := by simp [Tree.addrs, hx]
              refine hread x (fun hx' => ndis hxl (by simp [hx'])) (fun e => nzl (e ▸ hxl))
                (fun e => nll (e ▸ hx)) ?_
              intro e
              exact (hpar x e).1 (mem_addrs_node.mpr (Or.inl hxl))
            · refine l2.frame ?_
              intro x hx
              have hxl : x ∈ (Tree.node ll la lk lv lr).addrs := by simp [Tree.addrs, hx]
              refine hread x (fun hx' => ndis hxl (by simp [hx'])) (fun e => nzl (e ▸ hxl))
                (fun e => nlr (e ▸ hx)) ?_
              intro e
              exact (hpar x e).1 (mem_addrs_node.mpr (Or.inl hxl))
          · refine d2.frame ?_
            intro x hx
            have hxr := hsubr x hx
            refine a11 x (fun e => nzr (e ▸ hxr)) (fun e => hya' (e ▸ hx))
              (fun e => ndis hla (by rw [← e]; simp [hxr])) ?_
            intro e
            exact (hpar x e).1 (mem_addrs_node.mpr (Or.inr (Or.inr hxr)))
        · intro x hx
          left
          rw [mem_addrs_node] at hx ⊢
          rcases hx with hx | hx | hx
          · exact Or.inl hx
          · subst hx
            exact Or.inr (Or.inr hyar)
          · exact Or.inr (Or.inr (hsubr x hx))
        · intro x hx _ hx2
          rw [not_mem_addrs_node] at hx
          refine hread x hx.2.2 hx.2.1 ?_ hx2
          intro e; exact hx.1 (e ▸ hla)
        · intro e _
          exact a5 e
        · intro e
          rw [a6 e, d6]
        · intro pa pn e hpn _
          obtain ⟨p1, p2, p3, _⟩ := hpar3 pa e
          have hpa3 : b3.mem pa = some pn := by
            rw [d5 pa ?_ p1, hpn]
            intro hx
            exact (hpar pa e).1 (mem_addrs_node.mpr (Or.inr (Or.inr hx)))
          rw [a10 pa pn e hpa3]
          have hs := hside pa pn e hpn
          cases side
          · have : ¬ (pn.left = some z) := by
              intro e'; have := hs.mpr e'; cases this
            simp [this, rootp_node]
          · have : pn.left = some z := hs.mp rfl
            simp [this, rootp_node]
      refine ⟨{ b6 with log := b6.log ++ release_calls b6 zn3.key zn3.value,
                        mem := dealloc b6.mem z }, ?_, ?_, ?_, ?_, ?_⟩
      · simp [remove_at, hzn, hl', hr', subtree_min, g2 ra rfl, d1, a1, a7]
      · simp only [Tree.remove_root, g1]
        refine Splice.dealloc hs6 hzs ?_ hpz rfl rfl
        rw [not_mem_addrs_node]
        exact ⟨nzl, hzy, fun hx => nzr (hsubr z hx)⟩
      · dsimp only
        rw [a2, d7]
      · dsimp only
        have hc : SameConfig b b6 := ⟨a4.1.trans d9.1, a4.2.1.trans d9.2.1, a4.2.2.trans d9.2.2⟩
        rw [a3, d8, release_calls_config hc, z2, z3, hk, hv]
      · exact ⟨a4.1.trans d9.1, a4.2.1.trans d9.2.1, a4.2.2.trans d9.2.2⟩

theorem rootp_mem_addrs {t : Tree K V} {a : Nat} (h : t.rootp = some a) : a ∈ t.addrs := by
  cases t with
  | nil => cases h
  | node l a' k v r => cases h; simp [Tree.addrs]

/-- The removal of the node the search stops at exchanges the tree for
`Tree.remove`. -/
theorem splice_remove {b : bst K V} {par : ptr} {side : Bool} {t : Tree K V}
    (h : Rep true b.mem par t) (hnd : t.addrs.Nodup)
    (hpar : ∀ pa, par = some pa → pa ∉ t.addrs ∧ b.mem pa ≠ none)
    (hside : ∀ pa pn, par = some pa → b.mem pa = some pn → (side = true ↔ pn.left = t.rootp))
    (key : K) {fuel : Nat} (hf : t.depth ≤ fuel)
    {l0 r0 : Tree K V} {z : Nat} {k0 : K} {v0 : V}
    (hloc : t.locate b.cmp key = Tree.node l0 z k0 v0 r0) :
    ∃ b', remove_at fuel b z = some b' ∧
      Splice true b b' par side t (t.remove b.cmp key) ∧
      b'.size = b.size ∧ b'.log = b.log ++ release_calls b k0 v0 ∧ SameConfig b b' := by
  induction t generalizing par side with
  | nil => simp [Tree.locate] at hloc
  | node l a k v r ihl ihr =>
    have h0 := h
    rw [rep_node] at h
    obtain ⟨⟨n, hn, hk, hv, hl, hr, hp⟩, h1, h2⟩ := h
    have hnd0 := hnd
    simp only [Tree.addrs] at hnd
    rw [List.nodup_append, List.nodup_cons] at hnd
    obtain ⟨ndl, ⟨nar, ndr⟩, ndis⟩ := hnd
    have nal : a ∉ l.addrs := fun hx => ndis hx (by simp)
    simp only [Tree.locate] at hloc
    simp only [Tree.remove]
    simp only [Tree.depth] at hf
    by_cases c0 : b.cmp key k = 0
    · simp only [c0, if_true, Tree.node.injEq] at hloc ⊢
      obtain ⟨e1, e2, e3, e4, e5⟩ := hloc
      subst e1 e2 e3 e4 e5
      exact remove_at_root h0 hnd0 hpar hside (by simp only [Tree.depth]; omega)
    · by_cases c1 : b.cmp key k < 0
      · simp only [c0, c1, if_true, if_false] at hloc ⊢
        obtain ⟨b', e1, e2, e3⟩ := @ihl (some a) true h1 ndl
          (by intro pa e; cases e; exact ⟨nal, by simp [hn]⟩)
          (by intro pa pn e hpn; cases e; rw [hn] at hpn; cases hpn; simp [hl])
          (by omega) hloc
        exact ⟨b', e1, Splice.lift_left e2 h0 hnd0 hpar, e3⟩
      · simp only [c0, c1, if_false] at hloc ⊢
        have hne : n.left ≠ r.rootp := by
          intro e
          cases r with
          | nil => simp [Tree.locate] at hloc
          | node rl ra rk rv rr =>
            rw [hl] at e
            exact ndis (rootp_mem_addrs e) (by simp [Tree.addrs])
        obtain ⟨b', e1, e2, e3⟩ := @ihr (some a) false h2 ndr
          (by intro pa e; cases e; exact ⟨nar, by simp [hn]⟩)
          (by intro pa pn e hpn; cases e; rw [hn] at hpn; cases hpn; simp [hne])
          (by omega) hloc
        exact ⟨b', e1, Splice.lift_right e2 h0 hnd0 hpar, e3⟩

/-- `bst_remove` of a stored key: `true`, and the new state holds
`Tree.remove`; the counter is decremented, the key and value of the removed
node are released. -/
theorem bst_remove_found {b : bst K V} {t : Tree K V} (h : Holds true b t)
    (hnd : t.addrs.Nodup) (key : K) {fuel : Nat} (hf : t.depth < fuel)
    {l0 r0 : Tree K V} {z : Nat} {k0 : K} {v0 : V}
    (hloc : t.locate b.cmp key = Tree.node l0 z k0 v0 r0) :
    ∃ b', bst_remove fuel b key = some (true, b') ∧ Holds true b' (t.remove b.cmp key) ∧
      b'.size = (b.size + size_mod - 1) % size_mod ∧
      b'.log = b.log ++ release_calls b k0 v0 ∧ SameConfig b b' := by
  obtain ⟨b1, e1, e2, e3, e4, e5⟩ := @splice_remove K V b none true t h.2 hnd
    (by intro pa e; cases e) (by intro pa pn e; cases e) key fuel (by omega) _ _ _ _ _ hloc
  have hh := e2.holds h
  refine ⟨{ b1 with size := (b1.size + size_mod - 1) % size_mod }, ?_, ⟨hh.1, hh.2⟩, ?_, e4,
    ⟨e5.1, e5.2.1, e5.2.2⟩⟩
  · unfold bst_remove
    rw [find_node_holds h key hf, hloc]
    simp only [rootp_node, e1]
  · dsimp only
    rw [e3]

/-- `bst_remove` of a key that is not stored: `false`, nothing changed. -/
theorem bst_remove_absent {s : Bool} {b : bst K V} {t : Tree K V} (h : Holds s b t) (key : K)
    {fuel : Nat} (hf : t.depth < fuel) (hloc : t.locate b.cmp key = Tree.nil) :
    bst_remove fuel b key = some (false, b) := by
  unfold bst_remove
  rw [find_node_holds h key hf, hloc]
  simp only [rootp_nil]

/-! ### The tree after a removal -/

theorem remove_root_lists (l : Tree K V) (a : Nat) (k : K) (v : V) (r : Tree K V) :
    (Tree.node l a k v r).remove_root.pairs = l.pairs ++ r.pairs ∧
      (Tree.node l a k v r).remove_root.addrs = l.addrs ++ r.addrs ∧
      (Tree.node l a k v r).remove_root.depth ≤ (Tree.node l a k v r).depth := by
  cases l with
  | nil => simp [Tree.remove_root, Tree.pairs, Tree.addrs, Tree.depth]
  | node ll la lk lv lr =>
    cases r with
    | nil => simp [Tree.remove_root, Tree.pairs, Tree.addrs, Tree.depth]
    | node rl ra rk rv rr =>
      obtain ⟨ya, yk, yv, yr, e1, e2, e3, _, _, e6⟩ :=
        leftmost_spec (Tree.node rl ra rk rv rr) (by simp)
      simp only [Tree.remove_root, e1]
      refine ⟨?_, ?_, ?_⟩
      · rw [e2]; simp [Tree.pairs]
      · rw [e3]; simp [Tree.addrs]
      · simp only [Tree.depth] at e6 ⊢
        omega

theorem remove_depth (cmp : K → K → Int) (key : K) (t : Tree K V) :
    (t.remove cmp key).depth ≤ t.depth := by
  induction t with
  | nil => simp [Tree.remove]
  | node l a k v r ihl ihr =>
    simp only [Tree.remove]
    by_cases c0 : cmp key k = 0
    · simp only [c0, if_true]
      exact (remove_root_lists l a k v r).2.2
    · by_cases c1 : cmp key k < 0
      · simp only [c0, c1, if_true, if_false, Tree.depth]; omega
      · simp only [c0, c1, if_false, Tree.depth]; omega

/-- Removing the located node deletes exactly its pair from the in-order
sequence, and its address from the address sequence. -/
theorem remove_lists (cmp : K → K → Int) (key : K) {t : Tree K V}
    {l0 r0 : Tree K V} {z : Nat} {k0 : K} {v0 : V}
    (hloc : t.locate cmp key = Tree.node l0 z k0 v0 r0) :
    ∃ p1 p2 a1 a2, t.pairs = p1 ++ (k0, v0) :: p2 ∧ (t.remove cmp key).pairs = p1 ++ p2 ∧
      t.addrs = a1 ++ z :: a2 ∧ (t.remove cmp key).addrs = a1 ++ a2 := by
  induction t with
  | nil => simp [Tree.locate] at hloc
  | node l a k v r ihl ihr =>
    simp only [Tree.locate] at hloc
    simp only [Tree.remove]
    by_cases c0 : cmp key k = 0
    · simp only [c0, if_true, Tree.node.injEq] at hloc ⊢
      obtain ⟨e1, e2, e3, e4, e5⟩ := hloc
      subst e1 e2 e3 e4 e5
      obtain ⟨q1, q2, _⟩ := remove_root_lists l a k v r
      exact ⟨l.pairs, r.pairs, l.addrs, r.addrs, rfl, q1, rfl, q2⟩
    · by_cases c1 : cmp key k < 0
      · simp only [c0, c1, if_true, if_false] at hloc ⊢
        obtain ⟨p1, p2, a1, a2, e1, e2, e3, e4⟩ := ihl hloc
        exact ⟨p1, p2 ++ (k, v) :: r.pairs, a1, a2 ++ a :: r.addrs,
          by simp [Tree.pairs, e1], by simp [Tree.pairs, e2],
          by simp [Tree.addrs, e3], by simp [Tree.addrs, e4]⟩
      · simp only [c0, c1, if_false] at hloc ⊢
        obtain ⟨p1, p2, a1, a2, e1, e2, e3, e4⟩ := ihr hloc
        exact ⟨l.pairs ++ (k, v) :: p1, p2, l.addrs ++ a :: a1, a2,
          by simp [Tree.pairs, e1], by simp [Tree.pairs, e2],
          by simp [Tree.addrs, e3], by simp [Tree.addrs, e4]⟩

/-- A tree whose key sequence is ascending is ordered. -/
theorem ascending_ordered {cmp : K → K → Int} (hc : TotalCmp cmp) {t : Tree K V}
    (ha : Ascending cmp t.keys) : Ordered cmp t := by
  induction t with
  | nil => simp [Ordered]
  | node l a k v r ihl ihr =>
    unfold Ascending at *
    simp only [Tree.keys] at ha
    rw [List.pairwise_append, List.pairwise_cons] at ha
    obtain ⟨h1, ⟨h2, h3⟩, h4⟩ := ha
    exact ⟨fun x hx => h4 x hx k (by simp), fun x hx => (hc.swap _ _).mp (h2 x hx),
      ihl h1, ihr h3⟩

/-- In an ordered tree the search finds exactly the values paired with a key
comparing equal to the probe. -/
theorem lookup_iff {cmp : K → K → Int} (hc : TotalCmp cmp) {t : Tree K V}
    (ho : Ordered cmp t) (q : K) (w : V) :
    t.lookup cmp q = some w ↔ ∃ k, (k, w) ∈ t.pairs ∧ cmp q k = 0 := by
  induction t with
  | nil => simp [Tree.lookup, Tree.pairs]
  | node l a k v r ihl ihr =>
    obtain ⟨ol, orr, o1, o2⟩ := ho
    have kl : ∀ k1 w1, (k1, w1) ∈ l.pairs → cmp k1 k < 0 := by
      intro k1 w1 hm
      exact ol k1 (by rw [← pairs_keys]; exact List.mem_map_of_mem Prod.fst hm)
    have kr : ∀ k1 w1, (k1, w1) ∈ r.pairs → cmp k k1 < 0 := by
      intro k1 w1 hm
      exact (hc.swap _ _).mpr (orr k1 (by rw [← pairs_keys]; exact List.mem_map_of_mem Prod.fst hm))
    simp only [Tree.lookup, Tree.pairs, List.mem_append, List.mem_cons, Prod.mk.injEq]
    by_cases c0 : cmp q k = 0
    · simp only [c0, if_true, Option.some.injEq]
      constructor
      · intro e; subst e; exact ⟨k, Or.inr (Or.inl ⟨rfl, rfl⟩), c0⟩
      · rintro ⟨k1, hm | ⟨e1, e2⟩ | hm, e⟩
        · have h1 := kl k1 w hm
          have h2 := hc.le_trans k q k1 (by have := hc.eq_symm c0; omega) (by omega)
          have := hc.swap k1 k
          omega
        · exact e2.symm
        · have h1 := kr k1 w hm
          have h2 := hc.le_trans k1 q k (by have := hc.eq_symm e; omega) (by omega)
          have := hc.swap k k1
          omega
    · by_cases c1 : cmp q k < 0
      · simp only [c0, c1, if_true, if_false]
        rw [ihl o1]
        constructor
        · rintro ⟨k1, hm, e⟩
          exact ⟨k1, Or.inl hm, e⟩
        · rintro ⟨k1, hm | ⟨e1, e2⟩ | hm, e⟩
          · exact ⟨k1, hm, e⟩
          · subst e1; exact absurd e c0
          · have h1 := kr k1 w hm
            have h2 := hc.lt_of_lt_of_le c1 (by omega : cmp k k1 ≤ 0)
            omega
      · simp only [c0, c1, if_false]
        rw [ihr o2]
        have c2 : cmp k q < 0 := by
          have := hc.swap k q
          omega
        constructor
        · rintro ⟨k1, hm, e⟩
          exact ⟨k1, Or.inr (Or.inr hm), e⟩
        · rintro ⟨k1, hm | ⟨e1, e2⟩ | hm, e⟩
          · have h1 := kl k1 w hm
            have h2 := hc.lt_of_lt_of_le h1 (by omega : cmp k q ≤ 0)
            have := hc.swap k1 q
            omega
          · subst e1; exact absurd e c0
          · exact ⟨k1, hm, e⟩

/-- `bst_remove` preserves the search-tree order. -/
theorem ordered_remove {cmp : K → K → Int} (hc : TotalCmp cmp) (key : K) {t : Tree K V}
    (ho : Ordered cmp t) : Ordered cmp (t.remove cmp key) := by
  rcases locate_node cmp key t with e | ⟨l0, z, k0, v0, r0, e, _⟩
  · have : t.remove cmp key = t := by
      clear ho
      induction t with
      | nil => simp [Tree.remove]
      | node l a k v r ihl ihr =>
        simp only [Tree.locate] at e
        simp only [Tree.remove]
        by_cases c0 : cmp key k = 0
        · simp [c0] at e
        · by_cases c1 : cmp key k < 0
          · simp only [c0, c1, if_true, if_false] at e ⊢
            rw [ihl e]
          · simp only [c0, c1, if_false] at e ⊢
            rw [ihr e]
    rw [this]; exact ho
  · obtain ⟨p1, p2, _, _, e1, e2, _, _⟩ := remove_lists cmp key e
    refine ascending_ordered hc ?_
    have ha := ordered_ascending hc ho
    unfold Ascending at *
    rw [← pairs_keys] at ha ⊢
    rw [e1] at ha
    rw [e2]
    refine List.Pairwise.sublist ?_ ha
    simp

/-- After the removal the search for the removed key finds nothing, and the
search for any other key finds what it found before. -/
theorem remove_lookup {cmp : K → K → Int} (hc : TotalCmp cmp) (key : K) {t : Tree K V}
    (ho : Ordered cmp t) {l0 r0 : Tree K V} {z : Nat} {k0 : K} {v0 : V}
    (hloc : t.locate cmp key = Tree.node l0 z k0 v0 r0) :
    (t.remove cmp key).lookup cmp key = none ∧
      ∀ key', cmp key' key ≠ 0 → (t.remove cmp key).lookup cmp key' = t.lookup cmp key' := by
  obtain ⟨p1, p2, _, _, e1, e2, _, _⟩ := remove_lists cmp key hloc
  have ho' := ordered_remove hc key ho
  have hk0 : cmp key k0 = 0 := by
    rcases locate_node cmp key t with e | ⟨_, _, _, _, _, e, ec, _⟩
    · rw [e] at hloc; cases hloc
    · rw [e] at hloc; cases hloc; exact ec
  have ha := ordered_ascending hc ho
  unfold Ascending at ha
  rw [← pairs_keys, e1, List.map_append, List.map_cons, List.pairwise_append,
    List.pairwise_cons] at ha
  obtain ⟨_, ⟨ha2, _⟩, ha4⟩ := ha
  constructor
  · cases hl : (t.remove cmp key).lookup cmp key with
    | none => rfl
    | some w =>
      obtain ⟨k1, hm, e⟩ := (lookup_iff hc ho' key w).mp hl
      rw [e2, List.mem_append] at hm
      have h10 : cmp k1 k0 = 0 := by
        have a1 := hc.le_trans k1 key k0 (by have := hc.eq_symm e; omega) (by omega)
        have a2 := hc.le_trans k0 key k1 (by have := hc.eq_symm hk0; omega) (by omega)
        have := hc.swap k1 k0
        have := hc.swap k0 k1
        omega
      rcases hm with hm | hm
      · have := ha4 k1 (List.mem_map_of_mem Prod.fst hm) k0 (by simp)
        omega
      · have h20 : cmp k0 k1 < 0 := ha2 k1 (List.mem_map_of_mem Prod.fst hm)
        have := hc.eq_symm h10
        omega
  · intro key' hne
    have hne0 : cmp key' k0 ≠ 0 := by
      intro e
      have a1 := hc.le_trans key' k0 key (by omega) (by have := hc.eq_symm hk0; omega)
      have a2 := hc.le_trans key k0 key' (by omega) (by have := hc.eq_symm e; omega)
      have := hc.swap key' key
      have := hc.swap key key'
      omega
    apply Option.ext
    intro w
    simp only [Option.mem_def]
    rw [lookup_iff hc ho' key' w, lookup_iff hc ho key' w, e1, e2]
    constructor
    · rintro ⟨k1, hm, e⟩
      rw [List.mem_append] at hm
      exact ⟨k1, by rw [List.mem_append, List.mem_cons]; tauto, e⟩
    · rintro ⟨k1, hm, e⟩
      rw [List.mem_append, List.mem_cons] at hm
      rcases hm with hm | hm | hm
      · exact ⟨k1, by rw [List.mem_append]; exact Or.inl hm, e⟩
      · cases hm; exact absurd e hne0
      · exact ⟨k1, by rw [List.mem_append]; exact Or.inr hm, e⟩

/-! ## Removal: the claims -/

/-- C5 (deletion of a stored key).  On a state holding an ordered tree with
consistent parent links and satisfying the size invariant, `bst_remove(k)` of
a stored key returns `true`; afterwards `bst_contains(k)` returns `false` and
`bst_size` is exactly one less.  The statement covers the three structural
cases of the removed node (no left child, no right child, two children). -/
theorem C5_remove_stored (b : bst K V) (t : Tree K V) (k : K) (fuel : Nat)
    (hc : TotalCmp b.cmp) (h : Holds true b t) (ho : Ordered b.cmp t) (hcnt : Counted b t)
    (hf : t.depth < fuel) (hst : ∃ k0 ∈ t.keys, b.cmp k k0 = 0) :
    ∃ b', bst_remove fuel b k = some (true, b') ∧
      (∀ fuel', t.depth < fuel' → bst_contains fuel' b' k = some false) ∧
      bst_size b' + 1 = bst_size b := by
  have hnd := h.2.nodup hc ho
  obtain ⟨k0, hk0, e0⟩ := hst
  obtain ⟨l0, z, v0, r0, hloc⟩ := locate_of_stored hc ho hk0 e0
  obtain ⟨b', e1, e2, e3, _, e5⟩ := bst_remove_found h hnd k hf hloc
  refine ⟨b', e1, ?_, ?_⟩
  · intro fuel' hf'
    have hd := remove_depth b.cmp k t
    rw [bst_contains_holds e2 k (by omega), e5.1, (remove_lookup hc k ho hloc).1]
    rfl
  · obtain ⟨p1, p2, _, _, q1, _⟩ := remove_lists b.cmp k hloc
    have hlen : t.count = p1.length + 1 + p2.length := by
      rw [← pairs_length, q1]; simp; omega
    have hlt := count_lt_size_mod hnd hcnt.2
    unfold bst_size
    rw [e3, hcnt.1]
    unfold size_mod at *
    omega

/-- C5 at the three-node tree: removing the root key 20, a node with two
children. -/
theorem C5_remove_stored_witness :
    ∃ b', bst_remove 3 demo 20 = some (true, b') ∧
      (∀ fuel', demo_tree.depth < fuel' → bst_contains fuel' b' 20 = some false) ∧
      bst_size b' + 1 = bst_size demo :=
  C5_remove_stored demo demo_tree 20 3 cmp_int_total demo_holds demo_ordered demo_counted
    (by decide) ⟨20, by simp [demo_tree, Tree.keys], by decide⟩

/-- C6 (removal keeps every other entry).  On a state holding an ordered tree
with consistent parent links, `bst_remove(k)` of a stored key returns `true`,
and the in-order traversal of the new state visits the pairs visited before
with exactly the pair of the removed key deleted; for every key not comparing
equal to `k`, `bst_get` and `bst_contains` give the same result as before. -/
theorem C6_remove_others (b : bst K V) (t : Tree K V) (k : K) (fuel : Nat)
    (hc : TotalCmp b.cmp) (h : Holds true b t) (ho : Ordered b.cmp t)
    (hf : t.depth < fuel) (hst : ∃ k0 ∈ t.keys, b.cmp k k0 = 0) :
    ∃ b' p1 k0 v0 p2, bst_remove fuel b k = some (true, b') ∧ b.cmp k k0 = 0 ∧
      (∀ fuel', t.depth < fuel' →
        bst_traverse_inorder fuel' b (some collect) [] = some (p1 ++ (k0, v0) :: p2) ∧
        bst_traverse_inorder fuel' b' (some collect) [] = some (p1 ++ p2)) ∧
      (∀ k', b.cmp k' k ≠ 0 → ∀ fuel', t.depth < fuel' →
        bst_get fuel' b' k' = bst_get fuel' b k' ∧
        bst_contains fuel' b' k' = bst_contains fuel' b k') := by
  have hnd := h.2.nodup hc ho
  obtain ⟨k0, hk0, e0⟩ := hst
  obtain ⟨l0, z, v0, r0, hloc⟩ := locate_of_stored hc ho hk0 e0
  obtain ⟨b', e1, e2, _, _, e5⟩ := bst_remove_found h hnd k hf hloc
  obtain ⟨p1, p2, _, _, q1, q2, _⟩ := remove_lists b.cmp k hloc
  have hd := remove_depth b.cmp k t
  refine ⟨b', p1, k0, v0, p2, e1, e0, ?_, ?_⟩
  · intro fuel' hf'
    rw [bst_traverse_inorder_holds h hf', bst_traverse_inorder_holds e2 (by omega), q1, q2]
    exact ⟨rfl, rfl⟩
  · intro k' hk' fuel' hf'
    rw [bst_get_holds e2 k' (by omega), bst_contains_holds e2 k' (by omega),
      bst_get_holds h k' hf', bst_contains_holds h k' hf', e5.1,
      (remove_lookup hc k ho hloc).2 k' hk']
    exact ⟨rfl, rfl⟩

/-- C6 at the three-node tree: removing the root key 20, whose in-order
successor is relinked into its position. -/
theorem C6_remove_others_witness :
    ∃ b' p1 k0 v0 p2, bst_remove 3 demo 20 = some (true, b') ∧ demo.cmp 20 k0 = 0 ∧
      (∀ fuel', demo_tree.depth < fuel' →
        bst_traverse_inorder fuel' demo (some collect) [] = some (p1 ++ (k0, v0) :: p2) ∧
        bst_traverse_inorder fuel' b' (some collect) [] = some (p1 ++ p2)) ∧
      (∀ k', demo.cmp k' 20 ≠ 0 → ∀ fuel', demo_tree.depth < fuel' →
        bst_get fuel' b' k' = bst_get fuel' demo k' ∧
        bst_contains fuel' b' k' = bst_contains fuel' demo k') :=
  C6_remove_others demo demo_tree 20 3 cmp_int_total demo_holds demo_ordered
    (by decide) ⟨20, by simp [demo_tree, Tree.keys], by decide⟩

/-- C7 (removing an absent key is a no-op).  On a state holding a tree in
which no stored key compares equal to `k`, `bst_remove(k)` returns `false` and
the state afterwards is the state before: same root, same heap (all links,
keys and values), same size counter, and the same release log, so no release
callback was invoked. -/
theorem C7_remove_absent (b : bst K V) (t : Tree K V) (k : K) (fuel : Nat)
    (h : Holds false b t) (hf : t.depth < fuel) (habs : ∀ x ∈ t.keys, b.cmp k x ≠ 0) :
    bst_remove fuel b k = some (false, b) :=
  bst_remove_absent h k hf (locate_nil_of_absent habs)

/-- C7 at the three-node tree: removing the absent key 25. -/
theorem C7_remove_absent_witness : bst_remove 3 demo 25 = some (false, demo) :=
  C7_remove_absent demo demo_tree 25 3 demo_holds.weaken (by decide)
    (by simp [demo_tree, Tree.keys, demo, cmp_int])

/-! ## More fuel does not change a result -/

theorem fuel_mono {α : Type} (F : Nat → Option α)
    (h : ∀ f r, F f = some r → F (f + 1) = some r) {f f' : Nat} {r : α} (hle : f ≤ f')
    (hf : F f = some r) : F f' = some r := by
  induction hle with
  | refl => exact hf
  | step _ ih => exact h _ _ ih

theorem find_loop_succ (b : bst K V) (key : K) (f : Nat) (p : ptr) (r : ptr)
    (h : find_loop b key f p = some r) : find_loop b key (f + 1) p = some r := by
  induction f generalizing p with
  | zero => simp [find_loop] at h
  | succ f ih =>
    cases p with
    | none => simpa [find_loop] using h
    | some a =>
      rw [find_loop] at h ⊢
      cases hm : b.mem a with
      | none => simp [hm] at h
      | some cn =>
        simp only [hm] at h ⊢
        by_cases c0 : b.cmp key cn.key = 0
        · simpa [c0] using h
        · simp only [c0, if_false] at h ⊢
          exact ih _ h

theorem insert_loop_succ (b : bst K V) (key : K) (value : V) (f : Nat) (par p : ptr)
    (r : walk K V) (h : insert_loop b key value f par p = some r) :
    insert_loop b key value (f + 1) par p = some r := by
  induction f generalizing par p with
  | zero => simp [insert_loop] at h
  | succ f ih =>
    cases p with
    | none => simpa [insert_loop] using h
    | some a =>
      rw [insert_loop] at h ⊢
      cases hm : b.mem a with
      | none => simp [hm] at h
      | some cn =>
        simp only [hm] at h ⊢
        by_cases c0 : b.cmp key cn.key = 0
        · simpa [c0] using h
        · by_cases c1 : b.cmp key cn.key < 0
          · simp only [c0, c1, if_true, if_false] at h ⊢
            exact ih _ _ h
          · simp only [c0, c1, if_false] at h ⊢
            exact ih _ _ h

theorem min_loop_succ (m : Nat → Option (node_t K V)) (f : Nat) (a : Nat) (r : Nat)
    (h : min_loop m f a = some r) : min_loop m (f + 1) a = some r := by
  induction f generalizing a with
  | zero => simp [min_loop] at h
  | succ f ih =>
    rw [min_loop] at h ⊢
    cases hm : m a with
    | none => simp [hm] at h
    | some n =>
      simp only [hm] at h ⊢
      cases hl : n.left with
      | none => simpa [hl] using h
      | some l =>
        simp only [hl] at h ⊢
        exact ih _ h

theorem clear_rec_succ (f : Nat) (b : bst K V) (p : ptr) (r : bst K V)
    (h : clear_rec f b p = some r) : clear_rec (f + 1) b p = some r := by
  induction f generalizing b p r with
  | zero => simp [clear_rec] at h
  | succ f ih =>
    cases p with
    | none => simpa [clear_rec] using h
    | some a =>
      rw [clear_rec] at h ⊢
      cases hm : b.mem a with
      | none => simp [hm] at h
      | some n =>
        simp only [hm] at h ⊢
        cases h1 : clear_rec f b n.left with
        | none => simp [h1] at h
        | some b1 =>
          simp only [h1, ih _ _ _ h1] at h ⊢
          cases hm1 : b1.mem a with
          | none => simp [hm1] at h
          | some n1 =>
            simp only [hm1] at h ⊢
            cases h2 : clear_rec f b1 n1.right with
            | none => simp [h2] at h
            | some b2 =>
              simp only [h2, ih _ _ _ h2] at h ⊢
              exact h

theorem bst_insert_mono (b : bst K V) (key : K) (value : V) (fresh : ptr) {f f' : Nat}
    {r : Bool × bst K V} (hle : f ≤ f') (h : bst_insert f b key value fresh = some r) :
    bst_insert f' b key value fresh = some r := by
  unfold bst_insert at h ⊢
  cases hw : insert_loop b key value f none b.root with
  | none => simp [hw] at h
  | some w =>
    have := fuel_mono (fun f => insert_loop b key value f none b.root)
      (fun f r => insert_loop_succ b key value f none b.root r) hle hw
    simp only at this
    rw [hw] at h
    rw [this]
    exact h

theorem bst_clear_mono (b : bst K V) {f f' : Nat} {r : bst K V} (hle : f ≤ f')
    (h : bst_clear f b = some r) : bst_clear f' b = some r := by
  unfold bst_clear at h ⊢
  cases hw : clear_rec f b b.root with
  | none => simp [hw] at h
  | some w =>
    have := fuel_mono (fun f => clear_rec f b b.root)
      (fun f r => clear_rec_succ f b b.root r) hle hw
    simp only at this
    rw [hw] at h
    rw [this]
    exact h

theorem remove_at_mono (b : bst K V) (z : Nat) {f f' : Nat} {r : bst K V} (hle : f ≤ f')
    (h : remove_at f b z = some r) : remove_at f' b z = some r := by
  unfold remove_at at h ⊢
  cases hm : b.mem z with
  | none => simp [hm] at h
  | some zn =>
    simp only [hm] at h ⊢
    cases hl : zn.left with
    | none => simpa [hl] using h
    | some la =>
      simp only [hl] at h ⊢
      cases hr : zn.right with
      | none => simpa [hr] using h
      | some ra =>
        simp only [hr] at h ⊢
        simp only [subtree_min] at h ⊢
        cases hw : min_loop b.mem f ra with
        | none => simp [hw] at h
        | some y =>
          have := fuel_mono (fun f => min_loop b.mem f ra)
            (fun f r => min_loop_succ b.mem f ra r) hle hw
          simp only at this
          rw [hw] at h
          rw [this]
          exact h

theorem bst_remove_mono (b : bst K V) (key : K) {f f' : Nat} {r : Bool × bst K V}
    (hle : f ≤ f') (h : bst_remove f b key = some r) : bst_remove f' b key = some r := by
  unfold bst_remove find_node at h ⊢
  cases hw : find_loop b key f b.root with
  | none => simp [hw] at h
  | some p =>
    have := fuel_mono (fun f => find_loop b key f b.root)
      (fun f r => find_loop_succ b key f b.root r) hle hw
    simp only at this
    rw [hw] at h
    rw [this]
    cases p with
    | none => exact h
    | some z =>
      simp only at h ⊢
      cases hr : remove_at f b z with
      | none => simp [hr] at h
      | some b1 =>
        rw [hr] at h
        rw [remove_at_mono b z hle hr]
        exact h

/-! ## Clearing -/

/-- `clear_rec` on a subtree the heap holds returns, and touches only the
nodes of that subtree. -/
theorem clear_rec_rep {s : Bool} {t : Tree K V} :
    ∀ {b : bst K V} {par : ptr} {fuel : Nat}, Rep s b.mem par t → t.addrs.Nodup →
      t.depth < fuel →
      ∃ b', clear_rec fuel b t.rootp = some b' ∧ (∀ x, x ∉ t.addrs → b'.mem x = b.mem x) ∧
        b'.root = b.root ∧ b'.size = b.size ∧ SameConfig b b' := by
  induction t with
  | nil =>
    intro b par fuel _ _ hf
    cases fuel with
    | zero => omega
    | succ f => exact ⟨b, by simp [clear_rec, rootp_nil], fun _ _ => rfl, rfl, rfl, rfl, rfl, rfl⟩
  | node l a k v r ihl ihr =>
    intro b par fuel h hnd hf
    rw [rep_node] at h
    obtain ⟨⟨n, hn, hk, hv, hl, hr, _⟩, h1, h2⟩ := h
    simp only [Tree.addrs] at hnd
    rw [List.nodup_append, List.nodup_cons] at hnd
    obtain ⟨ndl, ⟨nar, ndr⟩, ndis⟩ := hnd
    have nal : a ∉ l.addrs := fun hx => ndis hx (by simp)
    cases fuel with
    | zero => omega
    | succ f =>
      simp only [Tree.depth] at hf
      obtain ⟨b1, e1, e2, e3, e4, e5⟩ := @ihl b (some a) f h1 ndl (by omega)
      have hn1 : b1.mem a = some n := by rw [e2 a nal, hn]
      have h2' : Rep s b1.mem (some a) r := by
        refine h2.frame ?_
        intro x hx
        exact e2 x (fun hx' => ndis hx' (by simp [hx]))
      obtain ⟨b2, g1, g2, g3, g4, g5⟩ := @ihr b1 (some a) f h2' ndr (by omega)
      have hn2 : b2.mem a = some n := by rw [g2 a nar, hn1]
      refine ⟨{ b2 with log := b2.log ++ release_calls b2 n.key n.value,
                        mem := dealloc b2.mem a }, ?_, ?_, g3.trans e3, g4.trans e4,
        ⟨g5.1.trans e5.1, g5.2.1.trans e5.2.1, g5.2.2.trans e5.2.2⟩⟩
      · rw [← hl] at e1
        rw [← hr] at g1
        simp [clear_rec, rootp_node, hn, e1, hn1, g1, free_node, hn2]
      · intro x hx
        rw [not_mem_addrs_node] at hx
        dsimp only
        rw [dealloc_other _ hx.2.1, g2 x hx.2.2, e2 x hx.1]

/-- `bst_clear` on a state holding a tree returns a state holding the empty
tree, with size 0. -/
theorem bst_clear_holds {s : Bool} {b : bst K V} {t : Tree K V} (h : Holds s b t)
    (hnd : t.addrs.Nodup) {fuel : Nat} (hf : t.depth < fuel) :
    ∃ b', bst_clear fuel b = some b' ∧ Holds true b' Tree.nil ∧ b'.size = 0 ∧
      SameConfig b b' := by
  obtain ⟨b1, e1, _, _, _, e5⟩ := clear_rec_rep h.2 hnd hf
  refine ⟨{ b1 with root := none, size := 0 }, ?_, ⟨rfl, by simp [Rep]⟩, rfl,
    ⟨e5.1, e5.2.1, e5.2.2⟩⟩
  unfold bst_clear
  rw [h.1, e1]

/-! ## The invariants along a run -/

theorem insert_addrs_new (cmp : K → K → Int) (key : K) (value : V) (n : Nat) {t : Tree K V}
    (hloc : t.locate cmp key = Tree.nil) :
    ∃ a1 a2, t.addrs = a1 ++ a2 ∧ (t.insert cmp key value n).addrs = a1 ++ n :: a2 := by
  induction t with
  | nil => exact ⟨[], [], by simp [Tree.addrs, Tree.insert]⟩
  | node l a k v r ihl ihr =>
    simp only [Tree.locate] at hloc
    simp only [Tree.insert]
    by_cases c0 : cmp key k = 0
    · simp [c0] at hloc
    · by_cases c1 : cmp key k < 0
      · simp only [c0, c1, if_true, if_false] at hloc ⊢
        obtain ⟨a1, a2, e1, e2⟩ := ihl hloc
        exact ⟨a1, a2 ++ a :: r.addrs, by simp [Tree.addrs, e1], by simp [Tree.addrs, e2]⟩
      · simp only [c0, c1, if_false] at hloc ⊢
        obtain ⟨a1, a2, e1, e2⟩ := ihr hloc
        exact ⟨l.addrs ++ a :: a1, a2, by simp [Tree.addrs, e1], by simp [Tree.addrs, e2]⟩

theorem valid_create (cmp : K → K → Int) (fk fv : Bool) (b : bst K V)
    (h : bst_create (some cmp) fk fv true = some b) :
    Valid b Tree.nil ∧ b.cmp = cmp := by
  simp only [bst_create, if_true, Option.some.injEq] at h
  subst h
  exact ⟨⟨⟨rfl, by simp [Rep]⟩, by simp [Tree.addrs], rfl, by simp [Tree.addrs]⟩, rfl⟩

theorem valid_insert {b b' : bst K V} {t : Tree K V} (hv : Valid b t) {fresh : ptr}
    (hm : FreshAddr b fresh) {fuel : Nat} {key : K} {value : V} {r : Bool}
    (h : bst_insert fuel b key value fresh = some (r, b')) :
    ∃ t', Valid b' t' ∧ SameConfig b b' ∧ (Ordered b.cmp t → Ordered b.cmp t') := by
  obtain ⟨hh, hnd, hcnt⟩ := hv
  have h' := bst_insert_mono b key value fresh (Nat.le_max_left fuel (t.depth + 1)) h
  have hf : t.depth < max fuel (t.depth + 1) := by omega
  rcases bst_insert_outcome hh hnd key value hf fresh hm with
    ⟨_, _, e3⟩ | ⟨b1, e0, e1, e2, e3, e4, e5⟩
  · rw [e3] at h'
    cases h'
    exact ⟨t, ⟨hh, hnd, hcnt⟩, ⟨rfl, rfl, rfl⟩, fun ho => ho⟩
  · rw [e1] at h'
    cases h'
    refine ⟨t.insert b.cmp key value (fresh.getD 0), ⟨e2, ?_⟩, e3,
      fun ho => ordered_insert key value _ ho⟩
    cases hloc : t.locate b.cmp key with
    | nil =>
      obtain ⟨n, hn⟩ : ∃ n, fresh = some n := by
        rcases e0 with e0 | e0
        · exact Option.ne_none_iff_exists'.mp e0
        · exact absurd hloc e0
      subst hn
      simp only [Option.getD_some] at e2 ⊢
      obtain ⟨hfr, hpos, hlt⟩ := hm n rfl
      obtain ⟨a1, a2, q1, q2⟩ := insert_addrs_new b.cmp key value n hloc
      have hnt : n ∉ t.addrs := fun hx => hh.2.alloc hx hfr
      have hnd' : (t.insert b.cmp key value n).addrs.Nodup := by
        rw [q2, List.nodup_middle, List.nodup_cons, ← q1]
        exact ⟨hnt, hnd⟩
      have hb' : ∀ x ∈ (t.insert b.cmp key value n).addrs, 0 < x ∧ x < size_mod := by
        intro x hx
        rcases insert_addrs_mem b.cmp key value n t x hx with e | e
        · exact hcnt.2 x e
        · subst e; exact ⟨hpos, hlt⟩
      have hlt' := count_lt_size_mod hnd' hb'
      rw [insert_count_new b.cmp key value n t hloc] at hlt'
      refine ⟨hnd', ?_, hb'⟩
      rw [(e4 hloc).1, hcnt.1, insert_count_new b.cmp key value n t hloc,
        Nat.mod_eq_of_lt (by omega)]
    | node l0 a0 k0 v0 r0 =>
      have hne : t.locate b.cmp key ≠ Tree.nil := by rw [hloc]; simp
      obtain ⟨s1, _, s3, _⟩ := insert_found_same b.cmp key value (fresh.getD 0) t hne
      refine ⟨by rw [s1]; exact hnd, ?_, by rw [s1]; exact hcnt.2⟩
      rw [(e5 _ _ _ _ _ hloc).1, s3]
      exact hcnt.1

theorem valid_remove {b b' : bst K V} {t : Tree K V} (hv : Valid b t) {fuel : Nat} {key : K}
    {r : Bool} (h : bst_remove fuel b key = some (r, b')) :
    ∃ t', Valid b' t' ∧ SameConfig b b' ∧
      (TotalCmp b.cmp → Ordered b.cmp t → Ordered b.cmp t') ∧
      (r = true → b'.size + 1 = b.size) := by
  obtain ⟨hh, hnd, hcnt⟩ := hv
  have h' := bst_remove_mono b key (Nat.le_max_left fuel (t.depth + 1)) h
  have hf : t.depth < max fuel (t.depth + 1) := by omega
  cases hloc : t.locate b.cmp key with
  | nil =>
    rw [bst_remove_absent hh key hf hloc] at h'
    cases h'
    exact ⟨t, ⟨hh, hnd, hcnt⟩, ⟨rfl, rfl, rfl⟩, fun _ ho => ho, fun e => by cases e⟩
  | node l0 z k0 v0 r0 =>
    obtain ⟨b1, e1, e2, e3, _, e5⟩ := bst_remove_found hh hnd key hf hloc
    rw [e1] at h'
    cases h'
    obtain ⟨p1, p2, a1, a2, _, _, q3, q4⟩ := remove_lists b.cmp key hloc
    have hnd' : (t.remove b.cmp key).addrs.Nodup := by
      rw [q3, List.nodup_middle, List.nodup_cons] at hnd
      rw [q4]; exact hnd.2
    have hc1 : t.count = a1.length + 1 + a2.length := by
      rw [← addrs_length, q3]; simp; omega
    have hc2 : (t.remove b.cmp key).count = a1.length + a2.length := by
      rw [← addrs_length, q4]; simp
    have hlt := count_lt_size_mod hnd hcnt.2
    have hsz : b'.size + 1 = b.size := by
      rw [e3, hcnt.1]
      unfold size_mod at *
      omega
    refine ⟨t.remove b.cmp key, ⟨e2, hnd', ?_, ?_⟩, e5,
      fun hc ho => ordered_remove hc key ho, fun _ => hsz⟩
    · have := hcnt.1
      omega
    · intro x hx
      refine hcnt.2 x ?_
      rw [q3]
      rw [q4] at hx
      simp only [List.mem_append, List.mem_cons] at hx ⊢
      tauto

theorem valid_clear {b b' : bst K V} {t : Tree K V} (hv : Valid b t) {fuel : Nat}
    (h : bst_clear fuel b = some b') : Valid b' Tree.nil ∧ SameConfig b b' := by
  obtain ⟨hh, hnd, _⟩ := hv
  have h' := bst_clear_mono b (Nat.le_max_left fuel (t.depth + 1)) h
  have hf : t.depth < max fuel (t.depth + 1) := by omega
  obtain ⟨b1, e1, e2, e3, e4⟩ := bst_clear_holds hh hnd hf
  rw [e1] at h'
  cases h'
  exact ⟨⟨e2, by simp [Tree.addrs], e3, by simp [Tree.addrs]⟩, e4⟩

/-- Every reachable state satisfies the data-model invariants, and the tree
it holds is ordered when the comparison is a total order. -/
theorem reachable_valid {b : bst K V} (hr : Reachable b) :
    ∃ t, Valid b t ∧ (TotalCmp b.cmp → Ordered b.cmp t) := by
  induction hr with
  | create cmp fk fv b h =>
    exact ⟨Tree.nil, (valid_create cmp fk fv b h).1, fun _ => by simp [Ordered]⟩
  | insert b b' r key value fresh fuel _ hm h ih =>
    obtain ⟨t, hv, ho⟩ := ih
    obtain ⟨t', hv', hc, ho'⟩ := valid_insert hv hm h
    refine ⟨t', hv', fun htc => ?_⟩
    rw [hc.1] at htc ⊢
    exact ho' (ho htc)
  | remove b b' r key fuel _ h ih =>
    obtain ⟨t, hv, ho⟩ := ih
    obtain ⟨t', hv', hc, ho', _⟩ := valid_remove hv h
    refine ⟨t', hv', fun htc => ?_⟩
    rw [hc.1] at htc ⊢
    exact ho' htc (ho htc)
  | clear b b' fuel _ h ih =>
    obtain ⟨t, hv, _⟩ := ih
    exact ⟨Tree.nil, (valid_clear hv h).1, fun _ => by simp [Ordered]⟩

/-- On a reachable state every call returns once the fuel exceeds the depth
of the tree: the runs that `Reachable` collects are all the runs. -/
theorem reachable_progress {b : bst K V} (hr : Reachable b) :
    ∃ t, Valid b t ∧ ∀ fuel, t.depth < fuel →
      (∀ key value fresh, FreshAddr b fresh →
        ∃ r b', bst_insert fuel b key value fresh = some (r, b')) ∧
      (∀ key, ∃ r b', bst_remove fuel b key = some (r, b')) ∧
      ∃ b', bst_clear fuel b = some b' := by
  obtain ⟨t, hv, _⟩ := reachable_valid hr
  refine ⟨t, hv, fun fuel hf => ⟨?_, ?_, ?_⟩⟩
  · intro key value fresh hm
    rcases bst_insert_outcome hv.1 hv.2.1 key value hf fresh hm with
      ⟨_, _, e⟩ | ⟨b', _, e, _⟩
    · exact ⟨false, b, e⟩
    · exact ⟨true, b', e⟩
  · intro key
    cases hloc : t.locate b.cmp key with
    | nil => exact ⟨false, b, bst_remove_absent hv.1 key hf hloc⟩
    | node l0 z k0 v0 r0 =>
      obtain ⟨b', e, _⟩ := bst_remove_found hv.1 hv.2.1 key hf hloc
      exact ⟨true, b', e⟩
  · obtain ⟨b', e, _⟩ := bst_clear_holds hv.1 hv.2.1 hf
    exact ⟨b', e⟩

theorem demo_empty_fresh : FreshAddr demo_empty (some 1) := by
  intro n e
  cases e
  simp [demo_empty, size_mod]

theorem demo_one_reachable : Reachable demo_one :=
  Reachable.insert demo_empty demo_one true 20 200 (some 1) 1
    (Reachable.create cmp_int true true demo_empty rfl) demo_empty_fresh rfl

/-! ## Invariants: the claims -/

/-- A run of `bst_insert` keeps the state reachable. -/
theorem reachable_insert_step {b : bst K V} (hr : Reachable b) (fuel : Nat) (key : K)
    (value : V) {fresh : ptr} (hm : FreshAddr b fresh) :
    Reachable (insert_step fuel b key value fresh) := by
  cases h : bst_insert fuel b key value fresh with
  | none =>
    simp only [insert_step, h, Option.map_none', Option.getD_none]
    exact hr
  | some p =>
    simp only [insert_step, h, Option.map_some', Option.getD_some]
    exact Reachable.insert b p.2 p.1 key value fresh fuel hr hm h

/-- A run of `bst_remove` keeps the state reachable. -/
theorem reachable_remove_step {b : bst K V} (hr : Reachable b) (fuel : Nat) (key : K) :
    Reachable (remove_step fuel b key) := by
  cases h : bst_remove fuel b key with
  | none =>
    simp only [remove_step, h, Option.map_none', Option.getD_none]
    exact hr
  | some p =>
    simp only [remove_step, h, Option.map_some', Option.getD_some]
    exact Reachable.remove b p.2 p.1 key fuel hr h

/-- An address that holds no node, is not NULL and fits 64 bits is one that
`malloc` may return. -/
theorem fresh_of_free {b : bst K V} {n : Nat} (h1 : (b.mem n).isNone = true) (h2 : 0 < n)
    (h3 : n < size_mod) : FreshAddr b (some n) := by
  intro m e
  cases e
  exact ⟨Option.isNone_iff_eq_none.mp h1, h2, h3⟩

theorem demo_grown_reachable : Reachable demo_grown := by
  have h0 : Reachable demo_empty := Reachable.create cmp_int true true demo_empty rfl
  have h1 := reachable_insert_step h0 6 50 0
    (@fresh_of_free _ _ _ 1 (by decide) (by decide) (by decide))
  have h2 := reachable_insert_step h1 6 30 0
    (@fresh_of_free _ _ _ 2 (by decide) (by decide) (by decide))
  have h3 := reachable_insert_step h2 6 80 0
    (@fresh_of_free _ _ _ 3 (by decide) (by decide) (by decide))
  have h4 := reachable_insert_step h3 6 60 0
    (@fresh_of_free _ _ _ 4 (by decide) (by decide) (by decide))
  have h5 := reachable_insert_step h4 6 90 0
    (@fresh_of_free _ _ _ 5 (by decide) (by decide) (by decide))
  have h6 := reachable_insert_step h5 6 55 0
    (@fresh_of_free _ _ _ 6 (by decide) (by decide) (by decide))
  exact reachable_insert_step h6 6 57 0
    (@fresh_of_free _ _ _ 7 (by decide) (by decide) (by decide))

theorem demo_pruned_reachable : Reachable demo_pruned :=
  reachable_remove_step (reachable_remove_step demo_grown_reachable 6 50) 6 60

theorem demo_run_reachable : Reachable demo_run :=
  reachable_insert_step demo_pruned_reachable 6 70 0
    (@fresh_of_free _ _ _ 1 (by decide) (by decide) (by decide))

/-- What the calls that built `demo_run` returned, and what they left: seven
insertions of new keys, the removal of the root 50 (two children), the removal
of 60 (one child), and the insertion of 70 at the released address 1. -/
theorem demo_run_trace :
    (bst_insert 6 demo_empty 50 0 (some 1)).map Prod.fst = some true ∧
    bst_size demo_grown = 7 ∧
    bst_traverse_inorder 6 demo_grown (some collect) [] =
      some [(30, 0), (50, 0), (55, 0), (57, 0), (60, 0), (80, 0), (90, 0)] ∧
    (bst_remove 6 demo_grown 50).map Prod.fst = some true ∧
    (bst_remove 6 (remove_step 6 demo_grown 50) 60).map Prod.fst = some true ∧
    bst_size demo_pruned = 5 ∧
    bst_traverse_inorder 6 demo_pruned (some collect) [] =
      some [(30, 0), (55, 0), (57, 0), (80, 0), (90, 0)] ∧
    (bst_insert 6 demo_pruned 70 0 (some 1)).map Prod.fst = some true ∧
    bst_size demo_run = 6 := by
  refine ⟨?_, ?_, ?_, ?_, ?_, ?_, ?_, ?_, ?_⟩ <;> decide

/-! ## The order invariant: the claim -/

/-- C1 (order invariant).  Every state obtained from `bst_create` by a finite
sequence of `bst_insert` and `bst_remove` (and `bst_clear`) calls, with a
comparison that is a total order, holds a tree that satisfies the search-tree
ordering: every key in the left subtree of a node is less than the key of the
node, every key in its right subtree is greater.  With fuel above the depth of
the tree, `bst_traverse_inorder` returns and visits the pairs of that tree in
order, a sequence whose keys are strictly ascending under the comparison; and
each call of `bst_insert` (with `malloc` returning NULL or an unused address)
and of `bst_remove` returns and leaves a state holding a tree that satisfies
the ordering again. -/
theorem C1_order_invariant (b : bst K V) (hr : Reachable b) (hc : TotalCmp b.cmp) :
    ∃ t, Holds true b t ∧ Ordered b.cmp t ∧
      (∀ fuel, t.depth < fuel →
        ∃ ps, bst_traverse_inorder fuel b (some collect) [] = some ps ∧ ps = t.pairs ∧
          ps.map Prod.fst = t.keys ∧ Ascending b.cmp (ps.map Prod.fst)) ∧
      (∀ fuel, t.depth < fuel → ∀ key value fresh, FreshAddr b fresh →
        ∃ r b' t', bst_insert fuel b key value fresh = some (r, b') ∧ Holds true b' t' ∧
          b'.cmp = b.cmp ∧ Ordered b.cmp t' ∧ Ascending b.cmp t'.keys) ∧
      (∀ fuel, t.depth < fuel → ∀ key,
        ∃ r b' t', bst_remove fuel b key = some (r, b') ∧ Holds true b' t' ∧
          b'.cmp = b.cmp ∧ Ordered b.cmp t' ∧ Ascending b.cmp t'.keys) := by
  obtain ⟨t, hv, ho⟩ := reachable_valid hr
  refine ⟨t, hv.1, ho hc, fun fuel hf => ⟨t.pairs, bst_traverse_inorder_holds hv.1 hf, rfl,
    pairs_keys t, ?_⟩, fun fuel hf key value fresh hm => ?_, fun fuel hf key => ?_⟩
  · rw [pairs_keys]
    exact ordered_ascending hc (ho hc)
  · obtain ⟨r, b', e⟩ : ∃ r b', bst_insert fuel b key value fresh = some (r, b') := by
      rcases bst_insert_outcome hv.1 hv.2.1 key value hf fresh hm with
        ⟨_, _, e⟩ | ⟨b', _, e, _⟩
      · exact ⟨false, b, e⟩
      · exact ⟨true, b', e⟩
    obtain ⟨t', hv', hcfg, ho'⟩ := valid_insert hv hm e
    exact ⟨r, b', t', e, hv'.1, hcfg.1, ho' (ho hc), ordered_ascending hc (ho' (ho hc))⟩
  · obtain ⟨r, b', e⟩ : ∃ r b', bst_remove fuel b key = some (r, b') := by
      cases hloc : t.locate b.cmp key with
      | nil => exact ⟨false, b, bst_remove_absent hv.1 key hf hloc⟩
      | node l0 z k0 v0 r0 =>
        obtain ⟨b', e, _⟩ := bst_remove_found hv.1 hv.2.1 key hf hloc
        exact ⟨true, b', e⟩
    obtain ⟨t', hv', hcfg, ho', _⟩ := valid_remove hv e
    exact ⟨r, b', t', e, hv'.1, hcfg.1, ho' hc (ho hc),
      ordered_ascending hc (ho' hc (ho hc))⟩

/-- C1 at the state `demo_run`, reached from `bst_create` by seven insertions
(keys 50, 30, 80, 60, 90, 55, 57), the removal of the root 50 (two children,
successor 55 deeper in the right subtree), the removal of 60 (one child) and
the insertion of 70 at a released address: the in-order traversal visits the
keys 30, 55, 57, 70, 80, 90, and the removal of the new root 55 leaves the
keys 30, 57, 70, 80, 90. -/
theorem C1_order_invariant_witness :
    (∃ t, Holds true demo_run t ∧ Ordered demo_run.cmp t ∧
      (∀ fuel, t.depth < fuel →
        ∃ ps, bst_traverse_inorder fuel demo_run (some collect) [] = some ps ∧ ps = t.pairs ∧
          ps.map Prod.fst = t.keys ∧ Ascending demo_run.cmp (ps.map Prod.fst)) ∧
      (∀ fuel, t.depth < fuel → ∀ key value fresh, FreshAddr demo_run fresh →
        ∃ r b' t', bst_insert fuel demo_run key value fresh = some (r, b') ∧
          Holds true b' t' ∧ b'.cmp = demo_run.cmp ∧ Ordered demo_run.cmp t' ∧
          Ascending demo_run.cmp t'.keys) ∧
      (∀ fuel, t.depth < fuel → ∀ key,
        ∃ r b' t', bst_remove fuel demo_run key = some (r, b') ∧ Holds true b' t' ∧
          b'.cmp = demo_run.cmp ∧ Ordered demo_run.cmp t' ∧
          Ascending demo_run.cmp t'.keys)) ∧
    bst_traverse_inorder 6 demo_run (some collect) [] =
      some [(30, 0), (55, 0), (57, 0), (70, 0), (80, 0), (90, 0)] ∧
    Ascending demo_run.cmp [30, 55, 57, 70, 80, 90] ∧
    bst_traverse_inorder 6 (remove_step 6 demo_run 55) (some collect) [] =
      some [(30, 0), (57, 0), (70, 0), (80, 0), (90, 0)] ∧
    bst_traverse_inorder 6 (insert_step 6 demo_run 56 0 (some 4)) (some collect) [] =
      some [(30, 0), (55, 0), (56, 0), (57, 0), (70, 0), (80, 0), (90, 0)] :=
  ⟨C1_order_invariant demo_run demo_run_reachable cmp_int_total, by decide,
    by unfold Ascending; decide, by decide, by decide⟩

/-- C8 (size invariant).  Every state obtained from `bst_create` by a finite
sequence of `bst_insert`, `bst_remove` and `bst_clear` calls holds a tree
whose nodes sit at pairwise distinct addresses, and `bst_size` is the number
of nodes of that tree, which is the number of pairs `bst_traverse_inorder`
visits.  The counter never underflows: whenever `bst_remove` returns `true`
on such a state, `bst_size` afterwards is exactly one less. -/
theorem C8_size_invariant (b : bst K V) (hr : Reachable b) :
    ∃ t, Holds true b t ∧ t.addrs.Nodup ∧ bst_size b = t.count ∧
      (∀ fuel, t.depth < fuel →
        ∃ ps, bst_traverse_inorder fuel b (some collect) [] = some ps ∧
          ps.length = bst_size b) ∧
      (∀ fuel k b', bst_remove fuel b k = some (true, b') → bst_size b' + 1 = bst_size b) := by
  obtain ⟨t, hv, _⟩ := reachable_valid hr
  refine ⟨t, hv.1, hv.2.1, hv.2.2.1, fun fuel hf => ⟨t.pairs,
    bst_traverse_inorder_holds hv.1 hf, ?_⟩, fun fuel k b' h => ?_⟩
  · rw [pairs_length]
    exact hv.2.2.1.symm
  · obtain ⟨_, _, _, _, e⟩ := valid_remove hv h
    exact e rfl

/-- C8 at the state reached by creating a tree and inserting key 20. -/
theorem C8_size_invariant_witness :
    ∃ t, Holds true demo_one t ∧ t.addrs.Nodup ∧ bst_size demo_one = t.count ∧
      (∀ fuel, t.depth < fuel →
        ∃ ps, bst_traverse_inorder fuel demo_one (some collect) [] = some ps ∧
          ps.length = bst_size demo_one) ∧
      (∀ fuel k b', bst_remove fuel demo_one k = some (true, b') →
        bst_size b' + 1 = bst_size demo_one) :=
  C8_size_invariant demo_one demo_one_reachable

/-! ## The demonstration program, evaluated -/

theorem main_size : main_tree.map bst_size = some 5 := by
  decide

theorem main_inorder :
    main_tree.bind (fun b => bst_traverse_inorder 6 b (some collect) []) =
      some [(cstr "alpha", 1), (cstr "bravo", 2), (cstr "charlie", 3), (cstr "delta", 4),
        (cstr "echo", 5)] := by
  decide

theorem main_floor :
    main_tree.bind (fun b => bst_floor_key 6 b (cstr "delta")) = some (some (cstr "delta")) := by
  decide

theorem main_ceiling :
    main_tree.bind (fun b => bst_ceiling_key 6 b (cstr "bob")) = some (some (cstr "bravo")) := by
  decide

theorem main_remove :
    main_tree.bind (fun b => (bst_remove 6 b (cstr "charlie")).bind (fun p =>
      (bst_traverse_inorder 6 p.2 (some collect) []).map (fun l => (p.1, bst_size p.2, l)))) =
      some (true, 4, [(cstr "alpha", 1), (cstr "bravo", 2), (cstr "delta", 4),
        (cstr "echo", 5)]) := by
  decide

/-! ## The test suite, evaluated -/

theorem test_multiple_insertions :
    test_tree.map bst_size = some 5 ∧
      test_tree.bind (fun b => bst_get 6 b (cstr "delta")) = some (some 4) ∧
      test_tree.bind (fun b => bst_get 6 b (cstr "beta")) = some (some 2) ∧
      test_tree.bind (fun b => bst_get 6 b (cstr "gamma")) = some (some 3) ∧
      test_tree.bind (fun b => bst_get 6 b (cstr "epsilon")) = some (some 5) := by
  decide

theorem test_duplicate_insertion :
    test_tree.bind (fun b => bst_get 6 b (cstr "alpha")) = some (some 99) ∧
      test_tree.map (fun b => b.log) = some [release.value 1] := by
  decide

theorem test_floor_ceiling :
    test_tree.bind (fun b => bst_floor_key 6 b (cstr "delta")) = some (some (cstr "delta")) ∧
      test_tree.bind (fun b => bst_floor_key 6 b (cstr "charlie")) = some (some (cstr "beta")) ∧
      test_tree.bind (fun b => bst_ceiling_key 6 b (cstr "delta")) = some (some (cstr "delta")) ∧
      test_tree.bind (fun b => bst_ceiling_key 6 b (cstr "charlie")) =
        some (some (cstr "delta")) ∧
      test_tree.bind (fun b => bst_floor_key 6 b (cstr "aaa")) = some none ∧
      test_tree.bind (fun b => bst_ceiling_key 6 b (cstr "zzz")) = some none := by
  decide

theorem test_remove_leaf :
    (test_tree.bind (fun b => test_removes 6 b ["alpha"])).bind (fun p =>
      (bst_contains 6 p.2 (cstr "alpha")).map (fun c => (p.1, c, bst_size p.2))) =
      some ([true], false, 4) := by
  decide

theorem test_remove_one_child :
    (test_tree.bind (fun b => test_removes 6 b ["alpha", "gamma"])).bind (fun p =>
      (bst_contains 6 p.2 (cstr "gamma")).map (fun c => (p.1, c, bst_size p.2))) =
      some ([true, true], false, 3) := by
  decide

theorem test_remove_two_children :
    (test_tree.bind (fun b => test_removes 6 b ["alpha", "gamma", "delta"])).bind (fun p =>
      (bst_traverse_inorder 6 p.2 (some collect) []).map (fun l => (p.1, bst_size p.2, l))) =
      some ([true, true, true], 2, [(cstr "beta", 2), (cstr "epsilon", 5)]) := by
  decide

theorem test_remove_nonexistent :
    (test_tree.bind (fun b =>
      test_removes 6 b ["alpha", "gamma", "delta", "nonexistent"])).map
        (fun p => (p.1, bst_size p.2)) =
      some ([true, true, true, false], 2) := by
  decide

theorem test_clear :
    ((test_tree.bind (fun b => test_removes 6 b ["alpha", "gamma", "delta"])).bind (fun p =>
      bst_clear 6 p.2)).bind (fun b =>
        (bst_contains 6 b (cstr "beta")).map (fun c => (bst_size b, b.root, c))) =
      some (0, none, false) := by
  decide

/-- Removal of a node whose in-order successor is deeper in its right subtree
(the branch `y->parent != z`). -/
theorem deep_remove :
    deep_tree.bind (fun b => (bst_remove 6 b 50).bind (fun p =>
      (bst_traverse_inorder 6 p.2 (some collect) []).map (fun l => (p.1, bst_size p.2, l)))) =
      some (true, 6, [(30, 0), (55, 0), (57, 0), (60, 0), (80, 0), (90, 0)]) := by
  decide

/-! ## Minimum and maximum -/

theorem rootp_eq_none {t : Tree K V} (h : t.rootp = none) : t = Tree.nil := by
  cases t with
  | nil => rfl
  | node l a k v r => cases h

theorem keys_nil : (Tree.nil : Tree K V).keys = [] := rfl

theorem keys_node (l : Tree K V) (a : Nat) (k : K) (v : V) (r : Tree K V) :
    (Tree.node l a k v r).keys = l.keys ++ k :: r.keys := rfl

theorem depth_node (l : Tree K V) (a : Nat) (k : K) (v : V) (r : Tree K V) :
    (Tree.node l a k v r).depth = max l.depth r.depth + 1 := rfl

/-- The walk down the left spine ends at the node that carries the first key
of the in-order. -/
theorem min_loop_keys {s : Bool} {m : Nat → Option (node_t K V)} {par : ptr} {t : Tree K V}
    (h : Rep s m par t) {a : Nat} (ha : t.rootp = some a) {fuel : Nat} (hf : t.depth ≤ fuel) :
    ∃ ya yn rest, min_loop m fuel a = some ya ∧ m ya = some yn ∧ t.keys = yn.key :: rest := by
  induction t generalizing par a fuel with
  | nil => cases ha
  | node l a' k v r ihl _ =>
    rw [rootp_node] at ha
    cases ha
    rw [rep_node] at h
    obtain ⟨⟨n, hn, hk, _, hl, _, _⟩, h1, _⟩ := h
    rw [depth_node] at hf
    cases fuel with
    | zero => omega
    | succ f =>
      simp only [min_loop, hn]
      cases hlp : l.rootp with
      | none =>
        rw [hl, hlp]
        have := rootp_eq_none hlp
        subst this
        exact ⟨a', n, r.keys, rfl, hn, by rw [keys_node, keys_nil, hk]; rfl⟩
      | some la =>
        rw [hl, hlp]
        obtain ⟨ya, yn, rest, e1, e2, e3⟩ := ihl h1 hlp (show l.depth ≤ f by omega)
        exact ⟨ya, yn, rest ++ k :: r.keys, e1, e2, by rw [keys_node, e3]; rfl⟩

/-- The walk down the right spine ends at the node that carries the last key
of the in-order. -/
theorem max_loop_keys {s : Bool} {m : Nat → Option (node_t K V)} {par : ptr} {t : Tree K V}
    (h : Rep s m par t) {a : Nat} (ha : t.rootp = some a) {fuel : Nat} (hf : t.depth ≤ fuel) :
    ∃ ya yn init, max_loop m fuel a = some ya ∧ m ya = some yn ∧ t.keys = init ++ [yn.key] := by
  induction t generalizing par a fuel with
  | nil => cases ha
  | node l a' k v r _ ihr =>
    rw [rootp_node] at ha
    cases ha
    rw [rep_node] at h
    obtain ⟨⟨n, hn, hk, _, _, hr, _⟩, _, h2⟩ := h
    rw [depth_node] at hf
    cases fuel with
    | zero => omega
    | succ f =>
      simp only [max_loop, hn]
      cases hrp : r.rootp with
      | none =>
        rw [hr, hrp]
        have := rootp_eq_none hrp
        subst this
        exact ⟨a', n, l.keys, rfl, hn, by rw [keys_node, keys_nil, hk]⟩
      | some ra =>
        rw [hr, hrp]
        obtain ⟨ya, yn, init, e1, e2, e3⟩ := ihr h2 hrp (show r.depth ≤ f by omega)
        exact ⟨ya, yn, l.keys ++ k :: init, e1, e2, by rw [keys_node, e3]; simp⟩

/-- `bst_min_key` returns the first key of the in-order. -/
theorem bst_min_key_holds {s : Bool} {b : bst K V} {t : Tree K V} (h : Holds s b t)
    {fuel : Nat} (hf : t.depth < fuel) : bst_min_key fuel b = some t.keys.head? := by
  unfold bst_min_key
  cases hr : t.rootp with
  | none =>
    rw [h.1, hr]
    rw [rootp_eq_none hr]
    rfl
  | some a =>
    rw [h.1, hr]
    obtain ⟨ya, yn, rest, e1, e2, e3⟩ := min_loop_keys h.2 hr (Nat.le_of_lt hf)
    simp only [subtree_min, e1, key_of, e2, e3, List.head?_cons]

/-- `bst_max_key` returns the last key of the in-order. -/
theorem bst_max_key_holds {s : Bool} {b : bst K V} {t : Tree K V} (h : Holds s b t)
    {fuel : Nat} (hf : t.depth < fuel) : bst_max_key fuel b = some t.keys.getLast? := by
  unfold bst_max_key
  cases hr : t.rootp with
  | none =>
    rw [h.1, hr]
    rw [rootp_eq_none hr]
    rfl
  | some a =>
    rw [h.1, hr]
    obtain ⟨ya, yn, init, e1, e2, e3⟩ := max_loop_keys h.2 hr (Nat.le_of_lt hf)
    simp only [subtree_max, e1, key_of, e2, e3, List.getLast?_append, List.getLast?_singleton,
      Option.or]

/-- The first key of an ascending sequence is below all the others. -/
theorem ascending_head {cmp : K → K → Int} (hc : TotalCmp cmp) {l : List K}
    (ha : Ascending cmp l) {k : K} (hk : l.head? = some k) :
    k ∈ l ∧ ∀ x ∈ l, cmp k x ≤ 0 := by
  cases l with
  | nil => cases hk
  | cons y rest =>
    simp only [List.head?_cons, Option.some.injEq] at hk
    subst hk
    unfold Ascending at ha
    rw [List.pairwise_cons] at ha
    refine ⟨List.mem_cons_self _ _, ?_⟩
    intro x hx
    rcases List.mem_cons.1 hx with e | e
    · rw [e, hc.refl]
    · exact le_of_lt (ha.1 x e)

/-- The last key of an ascending sequence is above all the others. -/
theorem ascending_last {cmp : K → K → Int} (hc : TotalCmp cmp) {l : List K}
    (ha : Ascending cmp l) {k : K} (hk : l.getLast? = some k) :
    k ∈ l ∧ ∀ x ∈ l, cmp x k ≤ 0 := by
  have hm : k ∈ l := List.mem_of_getLast?_eq_some hk
  obtain ⟨init, e⟩ : ∃ init, l = init ++ [k] := by
    rcases List.eq_nil_or_concat l with e | ⟨init, y, e⟩
    · rw [e] at hk; cases hk
    · rw [e, List.concat_eq_append, List.getLast?_append, List.getLast?_singleton] at hk
      simp only [Option.or, Option.some.injEq] at hk
      exact ⟨init, by rw [e, hk, List.concat_eq_append]⟩
  refine ⟨hm, ?_⟩
  subst e
  unfold Ascending at ha
  rw [List.pairwise_append] at ha
  intro x hx
  rcases List.mem_append.1 hx with e | e
  · exact le_of_lt (ha.2.2 x e k (List.mem_singleton_self k))
  · rw [List.mem_singleton.1 e, hc.refl]

/-! ## Successor and predecessor -/

/-- The keys of the subtree the search stops at are a segment of the keys of
the tree. -/
theorem locate_keys (cmp : K → K → Int) (key : K) (t : Tree K V) :
    ∃ pre post, t.keys = pre ++ (t.locate cmp key).keys ++ post := by
  induction t with
  | nil => exact ⟨[], [], rfl⟩
  | node l a k v r ihl ihr =>
    simp only [Tree.locate]
    by_cases c0 : cmp key k = 0
    · simp only [c0, if_true]
      exact ⟨[], [], by simp⟩
    · by_cases c1 : cmp key k < 0
      · simp only [c0, c1, if_true, if_false]
        obtain ⟨pre, post, e⟩ := ihl
        exact ⟨pre, post ++ k :: r.keys, by rw [keys_node, e]; simp⟩
      · simp only [c0, c1, if_false]
        obtain ⟨pre, post, e⟩ := ihr
        exact ⟨l.keys ++ k :: pre, post, by rw [keys_node, e]; simp⟩

/-- The upward walk of `successor_node` from a node without right child: it
stops at the node that carries the next key, or, when the node carries the
last key of the subtree, it climbs to the root of the subtree and goes on
from there. -/
theorem succ_loop_up {m : Nat → Option (node_t K V)} {par : ptr} {t : Tree K V}
    (h : Rep true m par t) (hnd : t.addrs.Nodup) (cmp : K → K → Int) (key : K)
    {l0 : Tree K V} {z : Nat} {k0 : K} {v0 : V}
    (hloc : t.locate cmp key = Tree.node l0 z k0 v0 Tree.nil) :
    ∃ zn, m z = some zn ∧ zn.right = none ∧
      ((∃ sa sn pre post, (∀ fuel, t.depth ≤ fuel →
            succ_loop m fuel z zn.parent = some (some sa)) ∧
          m sa = some sn ∧ t.keys = pre ++ k0 :: sn.key :: post) ∨
        (∃ pre d ra, t.keys = pre ++ [k0] ∧ t.rootp = some ra ∧ d < t.depth ∧
          ∀ fuel, succ_loop m (fuel + d) z zn.parent = succ_loop m fuel ra par)) := by
  induction t generalizing par with
  | nil => cases hloc
  | node l a k v r ihl ihr =>
    rw [rep_node] at h
    obtain ⟨⟨n, hn, hk, _, hl, hr, hp⟩, h1, h2⟩ := h
    have hp := hp rfl
    simp only [Tree.addrs] at hnd
    rw [List.nodup_append] at hnd
    obtain ⟨ndl, ndr, hdis⟩ := hnd
    rw [List.nodup_cons] at ndr
    simp only [Tree.locate] at hloc
    by_cases c0 : cmp key k = 0
    · simp only [c0, if_true] at hloc
      cases hloc
      refine ⟨n, hn, by rw [hr, rootp_nil], Or.inr ⟨l0.keys, 0, z, ?_, rootp_node .., ?_, ?_⟩⟩
      · rw [keys_node, keys_nil]
      · rw [depth_node]; omega
      · intro fuel
        rw [hp]
        rfl
    · by_cases c1 : cmp key k < 0
      · simp only [c0, c1, if_true, if_false] at hloc
        obtain ⟨zn, hz, hzr, hcase⟩ := ihl h1 ndl hloc
        refine ⟨zn, hz, hzr, Or.inl ?_⟩
        rcases hcase with ⟨sa, sn, pre, post, hw, hs, hkeys⟩ | ⟨pre, d, la, hkeys, hroot, hd, hw⟩
        · refine ⟨sa, sn, pre, post ++ k :: r.keys, ?_, hs, by rw [keys_node, hkeys]; simp⟩
          intro fuel hf
          rw [depth_node] at hf
          exact hw fuel (by omega)
        · refine ⟨a, n, pre, r.keys, ?_, hn, by rw [keys_node, hkeys, hk]; simp⟩
          intro fuel hf
          rw [depth_node] at hf
          obtain ⟨f, rfl⟩ : ∃ f, fuel = (f + 1) + d := ⟨fuel - d - 1, by omega⟩
          rw [hw]
          have hne : n.right ≠ some la := by
            rw [hr]
            intro e
            exact hdis (rootp_mem_addrs hroot) (List.mem_cons_of_mem _ (rootp_mem_addrs e))
          simp only [succ_loop, hn, hne, if_false]
      · simp only [c0, c1, if_false] at hloc
        obtain ⟨zn, hz, hzr, hcase⟩ := ihr h2 ndr.2 hloc
        refine ⟨zn, hz, hzr, ?_⟩
        rcases hcase with ⟨sa, sn, pre, post, hw, hs, hkeys⟩ | ⟨pre, d, ra, hkeys, hroot, hd, hw⟩
        · refine Or.inl ⟨sa, sn, l.keys ++ k :: pre, post, ?_, hs, by rw [keys_node, hkeys]; simp⟩
          intro fuel hf
          rw [depth_node] at hf
          exact hw fuel (by omega)
        · refine Or.inr ⟨l.keys ++ k :: pre, d + 1, a, by rw [keys_node, hkeys]; simp,
            rootp_node .., by rw [depth_node]; omega, ?_⟩
          intro fuel
          rw [show fuel + (d + 1) = (fuel + 1) + d by omega, hw]
          have he : n.right = some ra := by rw [hr, hroot]
          simp only [succ_loop, hn, he, if_true, hp]

/-- The upward walk of `predecessor_node` from a node without left child. -/
theorem pred_loop_up {m : Nat → Option (node_t K V)} {par : ptr} {t : Tree K V}
    (h : Rep true m par t) (hnd : t.addrs.Nodup) (cmp : K → K → Int) (key : K)
    {r0 : Tree K V} {z : Nat} {k0 : K} {v0 : V}
    (hloc : t.locate cmp key = Tree.node Tree.nil z k0 v0 r0) :
    ∃ zn, m z = some zn ∧ zn.left = none ∧
      ((∃ sa sn pre post, (∀ fuel, t.depth ≤ fuel →
            pred_loop m fuel z zn.parent = some (some sa)) ∧
          m sa = some sn ∧ t.keys = pre ++ sn.key :: k0 :: post) ∨
        (∃ post d ra, t.keys = k0 :: post ∧ t.rootp = some ra ∧ d < t.depth ∧
          ∀ fuel, pred_loop m (fuel + d) z zn.parent = pred_loop m fuel ra par)) := by
  induction t generalizing par with
  | nil => cases hloc
  | node l a k v r ihl ihr =>
    rw [rep_node] at h
    obtain ⟨⟨n, hn, hk, _, hl, hr, hp⟩, h1, h2⟩ := h
    have hp := hp rfl
    simp only [Tree.addrs] at hnd
    rw [List.nodup_append] at hnd
    obtain ⟨ndl, ndr, hdis⟩ := hnd
    rw [List.nodup_cons] at ndr
    simp only [Tree.locate] at hloc
    by_cases c0 : cmp key k = 0
    · simp only [c0, if_true] at hloc
      cases hloc
      refine ⟨n, hn, by rw [hl, rootp_nil], Or.inr ⟨r0.keys, 0, z, ?_, rootp_node .., ?_, ?_⟩⟩
      · rw [keys_node, keys_nil]; rfl
      · rw [depth_node]; omega
      · intro fuel
        rw [hp]
        rfl
    · by_cases c1 : cmp key k < 0
      · simp only [c0, c1, if_true, if_false] at hloc
        obtain ⟨zn, hz, hzl, hcase⟩ := ihl h1 ndl hloc
        refine ⟨zn, hz, hzl, ?_⟩
        rcases hcase with ⟨sa, sn, pre, post, hw, hs, hkeys⟩ | ⟨post, d, la, hkeys, hroot, hd, hw⟩
        · refine Or.inl ⟨sa, sn, pre, post ++ k :: r.keys, ?_, hs, by rw [keys_node, hkeys]; simp⟩
          intro fuel hf
          rw [depth_node] at hf
          exact hw fuel (by omega)
        · refine Or.inr ⟨post ++ k :: r.keys, d + 1, a, by rw [keys_node, hkeys]; simp,
            rootp_node .., by rw [depth_node]; omega, ?_⟩
          intro fuel
          rw [show fuel + (d + 1) = (fuel + 1) + d by omega, hw]
          have he : n.left = some la := by rw [hl, hroot]
          simp only [pred_loop, hn, he, if_true, hp]
      · simp only [c0, c1, if_false] at hloc
        obtain ⟨zn, hz, hzl, hcase⟩ := ihr h2 ndr.2 hloc
        refine ⟨zn, hz, hzl, Or.inl ?_⟩
        rcases hcase with ⟨sa, sn, pre, post, hw, hs, hkeys⟩ | ⟨post, d, ra, hkeys, hroot, hd, hw⟩
        · refine ⟨sa, sn, l.keys ++ k :: pre, post, ?_, hs, by rw [keys_node, hkeys]; simp⟩
          intro fuel hf
          rw [depth_node] at hf
          exact hw fuel (by omega)
        · refine ⟨a, n, l.keys, post, ?_, hn, by rw [keys_node, hkeys, hk]⟩
          intro fuel hf
          rw [depth_node] at hf
          obtain ⟨f, rfl⟩ : ∃ f, fuel = (f + 1) + d := ⟨fuel - d - 1, by omega⟩
          rw [hw]
          have hne : n.left ≠ some ra := by
            rw [hl]
            intro e
            exact hdis (rootp_mem_addrs e) (List.mem_cons_of_mem _ (rootp_mem_addrs hroot))
          simp only [pred_loop, hn, hne, if_false]

/-- What `bst_successor_key` returns on a state holding `t`: NULL when the
search fails; otherwise the key that follows the found key in the in-order,
or NULL when the found key is the last one. -/
theorem bst_successor_key_holds {b : bst K V} {t : Tree K V} (h : Holds true b t)
    (hnd : t.addrs.Nodup) (key : K) {fuel : Nat} (hf : t.depth < fuel) :
    ∃ res, bst_successor_key fuel b key = some res ∧
      (t.locate b.cmp key = Tree.nil → res = none) ∧
      ∀ l0 z k0 v0 r0, t.locate b.cmp key = Tree.node l0 z k0 v0 r0 →
        (∃ s pre post, res = some s ∧ t.keys = pre ++ k0 :: s :: post) ∨
          (res = none ∧ ∃ pre, t.keys = pre ++ [k0]) := by
  have hfind := find_node_holds h key hf
  rcases locate_node b.cmp key t with hloc | ⟨l0, z, k0, v0, r0, hloc, _⟩
  · refine ⟨none, ?_, fun _ => rfl, ?_⟩
    · unfold bst_successor_key successor_node
      rw [hfind, hloc]
      rfl
    · intro l1 z1 k1 v1 r1 e
      rw [hloc] at e
      cases e
  · have hres : ∃ res, bst_successor_key fuel b key = some res ∧
        ((∃ s pre post, res = some s ∧ t.keys = pre ++ k0 :: s :: post) ∨
          (res = none ∧ ∃ pre, t.keys = pre ++ [k0])) := by
      unfold bst_successor_key successor_node
      rw [hfind, hloc, rootp_node]
      cases hr0 : r0.rootp with
      | none =>
        have := rootp_eq_none hr0
        subst this
        obtain ⟨zn, hz, hzr, hcase⟩ := succ_loop_up h.2 hnd b.cmp key hloc
        simp only [hz, hzr]
        rcases hcase with ⟨sa, sn, pre, post, hw, hs, hkeys⟩ | ⟨pre, d, ra, hkeys, _, hd, hw⟩
        · rw [hw fuel (Nat.le_of_lt hf)]
          exact ⟨some sn.key, by simp only [key_of, hs], Or.inl ⟨sn.key, pre, post, rfl, hkeys⟩⟩
        · obtain ⟨f, rfl⟩ : ∃ f, fuel = (f + 1) + d := ⟨fuel - d - 1, by omega⟩
          rw [hw]
          exact ⟨none, by simp only [succ_loop, key_of], Or.inr ⟨rfl, pre, hkeys⟩⟩
      | some ra =>
        obtain ⟨par1, hrep⟩ := Rep.locate h.2 b.cmp key
        rw [hloc, rep_node] at hrep
        obtain ⟨⟨zn, hz, _, _, _, hzr, _⟩, _, h2⟩ := hrep
        have hd := locate_depth b.cmp key t
        rw [hloc, depth_node] at hd
        obtain ⟨ya, yn, rest, e1, e2, e3⟩ :=
          min_loop_keys h2 hr0 (show r0.depth ≤ fuel by omega)
        obtain ⟨pre, post, hkeys⟩ := locate_keys b.cmp key t
        rw [hloc, keys_node, e3] at hkeys
        simp only [hz, hzr, hr0, subtree_min, e1]
        exact ⟨some yn.key, by simp only [key_of, e2],
          Or.inl ⟨yn.key, pre ++ l0.keys, rest ++ post, rfl, by rw [hkeys]; simp⟩⟩
    obtain ⟨res, e, hcase⟩ := hres
    refine ⟨res, e, ?_, ?_⟩
    · intro e1
      rw [hloc] at e1
      cases e1
    · intro l1 z1 k1 v1 r1 e1
      rw [hloc] at e1
      cases e1
      exact hcase

/-- What `bst_predecessor_key` returns on a state holding `t`: NULL when the
search fails; otherwise the key that precedes the found key in the in-order,
or NULL when the found key is the first one. -/
theorem bst_predecessor_key_holds {b : bst K V} {t : Tree K V} (h : Holds true b t)
    (hnd : t.addrs.Nodup) (key : K) {fuel : Nat} (hf : t.depth < fuel) :
    ∃ res, bst_predecessor_key fuel b key = some res ∧
      (t.locate b.cmp key = Tree.nil → res = none) ∧
      ∀ l0 z k0 v0 r0, t.locate b.cmp key = Tree.node l0 z k0 v0 r0 →
        (∃ s pre post, res = some s ∧ t.keys = pre ++ s :: k0 :: post) ∨
          (res = none ∧ ∃ post, t.keys = k0 :: post) := by
  have hfind := find_node_holds h key hf
  rcases locate_node b.cmp key t with hloc | ⟨l0, z, k0, v0, r0, hloc, _⟩
  · refine ⟨none, ?_, fun _ => rfl, ?_⟩
    · unfold bst_predecessor_key predecessor_node
      rw [hfind, hloc]
      rfl
    · intro l1 z1 k1 v1 r1 e
      rw [hloc] at e
      cases e
  · have hres : ∃ res, bst_predecessor_key fuel b key = some res ∧
        ((∃ s pre post, res = some s ∧ t.keys = pre ++ s :: k0 :: post) ∨
          (res = none ∧ ∃ post, t.keys = k0 :: post)) := by
      unfold bst_predecessor_key predecessor_node
      rw [hfind, hloc, rootp_node]
      cases hl0 : l0.rootp with
      | none =>
        have := rootp_eq_none hl0
        subst this
        obtain ⟨zn, hz, hzl, hcase⟩ := pred_loop_up h.2 hnd b.cmp key hloc
        simp only [hz, hzl]
        rcases hcase with ⟨sa, sn, pre, post, hw, hs, hkeys⟩ | ⟨post, d, ra, hkeys, _, hd, hw⟩
        · rw [hw fuel (Nat.le_of_lt hf)]
          exact ⟨some sn.key, by simp only [key_of, hs], Or.inl ⟨sn.key, pre, post, rfl, hkeys⟩⟩
        · obtain ⟨f, rfl⟩ : ∃ f, fuel = (f + 1) + d := ⟨fuel - d - 1, by omega⟩
          rw [hw]
          exact ⟨none, by simp only [pred_loop, key_of], Or.inr ⟨rfl, post, hkeys⟩⟩
      | some la =>
        obtain ⟨par1, hrep⟩ := Rep.locate h.2 b.cmp key
        rw [hloc, rep_node] at hrep
        obtain ⟨⟨zn, hz, _, _, hzl, _, _⟩, h1, _⟩ := hrep
        have hd := locate_depth b.cmp key t
        rw [hloc, depth_node] at hd
        obtain ⟨ya, yn, init, e1, e2, e3⟩ :=
          max_loop_keys h1 hl0 (show l0.depth ≤ fuel by omega)
        obtain ⟨pre, post, hkeys⟩ := locate_keys b.cmp key t
        rw [hloc, keys_node, e3] at hkeys
        simp only [hz, hzl, hl0, subtree_max, e1]
        exact ⟨some yn.key, by simp only [key_of, e2],
          Or.inl ⟨yn.key, pre ++ init, r0.keys ++ post, rfl, by rw [hkeys]; simp⟩⟩
    obtain ⟨res, e, hcase⟩ := hres
    refine ⟨res, e, ?_, ?_⟩
    · intro e1
      rw [hloc] at e1
      cases e1
    · intro l1 z1 k1 v1 r1 e1
      rw [hloc] at e1
      cases e1
      exact hcase

/-- In an ascending sequence the key after `k0` is the least key above `k0`. -/
theorem ascending_next {cmp : K → K → Int} (hc : TotalCmp cmp) {l pre post : List K}
    {k0 s key : K} (ha : Ascending cmp l) (e : l = pre ++ k0 :: s :: post)
    (hk : cmp key k0 = 0) :
    s ∈ l ∧ cmp key s < 0 ∧ ∀ x ∈ l, cmp key x < 0 → cmp s x ≤ 0 := by
  subst e
  unfold Ascending at ha
  rw [List.pairwise_append, List.pairwise_cons, List.pairwise_cons] at ha
  obtain ⟨_, ⟨h0, hs, _⟩, hpre⟩ := ha
  have h1 : cmp key s < 0 :=
    hc.lt_of_le_of_lt (le_of_eq hk) (h0 s (List.mem_cons_self _ _))
  refine ⟨by simp, h1, ?_⟩
  intro x hx hlt
  simp only [List.mem_append, List.mem_cons] at hx
  rcases hx with hx | hx | hx | hx
  · have h2 := hpre x hx k0 (List.mem_cons_self _ _)
    have h3 := hc.lt_trans hlt h2
    omega
  · subst hx; omega
  · subst hx; rw [hc.refl]
  · exact le_of_lt (hs x hx)

/-- The last key of an ascending sequence has no key above it. -/
theorem ascending_top {cmp : K → K → Int} (hc : TotalCmp cmp) {l pre : List K}
    {k0 key : K} (ha : Ascending cmp l) (e : l = pre ++ [k0]) (hk : cmp key k0 = 0) :
    ∀ x ∈ l, cmp x key ≤ 0 := by
  subst e
  unfold Ascending at ha
  rw [List.pairwise_append] at ha
  intro x hx
  have hk2 := hc.eq_symm hk
  rcases List.mem_append.1 hx with hx | hx
  · exact le_of_lt (hc.lt_of_lt_of_le (ha.2.2 x hx k0 (List.mem_singleton_self _)) (le_of_eq hk2))
  · rw [List.mem_singleton.1 hx, hk2]

/-- In an ascending sequence the key before `k0` is the greatest key below
`k0`. -/
theorem ascending_prev {cmp : K → K → Int} (hc : TotalCmp cmp) {l pre post : List K}
    {k0 s key : K} (ha : Ascending cmp l) (e : l = pre ++ s :: k0 :: post)
    (hk : cmp key k0 = 0) :
    s ∈ l ∧ cmp s key < 0 ∧ ∀ x ∈ l, cmp x key < 0 → cmp x s ≤ 0 := by
  subst e
  unfold Ascending at ha
  rw [List.pairwise_append, List.pairwise_cons, List.pairwise_cons] at ha
  obtain ⟨_, ⟨h0, hs, _⟩, hpre⟩ := ha
  have hk2 := hc.eq_symm hk
  have h1 : cmp s key < 0 :=
    hc.lt_of_lt_of_le (h0 k0 (List.mem_cons_self _ _)) (le_of_eq hk2)
  refine ⟨by simp, h1, ?_⟩
  intro x hx hlt
  simp only [List.mem_append, List.mem_cons] at hx
  rcases hx with hx | hx | hx | hx
  · exact le_of_lt (hpre x hx s (List.mem_cons_self _ _))
  · subst hx; rw [hc.refl]
  · subst hx; omega
  · have h2 := hs x hx
    have h3 := hc.lt_of_le_of_lt (le_of_eq hk) h2
    have h4 := hc.swap key x
    omega

/-- The first key of an ascending sequence has no key below it. -/
theorem ascending_bottom {cmp : K → K → Int} (hc : TotalCmp cmp) {l post : List K}
    {k0 key : K} (ha : Ascending cmp l) (e : l = k0 :: post) (hk : cmp key k0 = 0) :
    ∀ x ∈ l, cmp key x ≤ 0 := by
  subst e
  unfold Ascending at ha
  rw [List.pairwise_cons] at ha
  intro x hx
  rcases List.mem_cons.1 hx with hx | hx
  · rw [hx, hk]
  · exact le_of_lt (hc.lt_of_le_of_lt (le_of_eq hk) (ha.1 x hx))

/-! ## Successor, predecessor, minimum and maximum: the claims -/

theorem demo_nodup : demo_tree.addrs.Nodup := by
  simp [demo_tree, Tree.addrs]

theorem keys_eq_nil_iff (t : Tree K V) : t.keys = [] ↔ t.rootp = none := by
  cases t with
  | nil => simp [Tree.keys, Tree.rootp]
  | node l a k v r => simp [Tree.keys, Tree.rootp]

/-- C11 (successor correctness).  On a state holding an ordered tree with
consistent parent links, with any fuel above the depth of the tree,
`bst_successor_key` returns.  If the key is stored and some stored key is
greater, the result is a stored key strictly greater than the key, and no
stored key strictly greater than the key is below it.  If the key is stored
and no stored key is greater, or if the key is not stored, the result is
NULL. -/
theorem C11_successor (b : bst K V) (t : Tree K V) (key : K) (fuel : Nat)
    (hc : TotalCmp b.cmp) (h : Holds true b t) (ho : Ordered b.cmp t) (hf : t.depth < fuel) :
    ∃ res, bst_successor_key fuel b key = some res ∧
      ((∃ k0 ∈ t.keys, b.cmp key k0 = 0) → (∃ x ∈ t.keys, b.cmp key x < 0) →
        ∃ s, res = some s ∧ s ∈ t.keys ∧ b.cmp key s < 0 ∧
          ∀ x ∈ t.keys, b.cmp key x < 0 → b.cmp s x ≤ 0) ∧
      ((∃ k0 ∈ t.keys, b.cmp key k0 = 0) → (∀ x ∈ t.keys, b.cmp x key ≤ 0) → res = none) ∧
      ((∀ x ∈ t.keys, b.cmp key x ≠ 0) → res = none) := by
  have hnd := Rep.nodup hc h.2 ho
  have ha := ordered_ascending hc ho
  obtain ⟨res, e, hnil, hnode⟩ := bst_successor_key_holds h hnd key hf
  refine ⟨res, e, ?_, ?_, ?_⟩
  · rintro ⟨k0, hk0, ek⟩ ⟨x, hx, hlt⟩
    obtain ⟨l0, z, v0, r0, hloc⟩ := locate_of_stored hc ho hk0 ek
    rcases hnode l0 z k0 v0 r0 hloc with ⟨s, pre, post, er, hkeys⟩ | ⟨_, pre, hkeys⟩
    · exact ⟨s, er, ascending_next hc ha hkeys ek⟩
    · have h1 := ascending_top hc ha hkeys ek x hx
      have h2 := hc.swap key x
      omega
  · rintro ⟨k0, hk0, ek⟩ hall
    obtain ⟨l0, z, v0, r0, hloc⟩ := locate_of_stored hc ho hk0 ek
    rcases hnode l0 z k0 v0 r0 hloc with ⟨s, pre, post, er, hkeys⟩ | ⟨er, _⟩
    · obtain ⟨hs, hlt, _⟩ := ascending_next hc ha hkeys ek
      have h1 := hall s hs
      have h2 := hc.swap key s
      omega
    · exact er
  · intro habs
    exact hnil (locate_nil_of_absent habs)

/-- C11 at the three-node tree: the successor of 20 is 30. -/
theorem C11_successor_witness :
    (∃ res, bst_successor_key 3 demo 20 = some res ∧
      ((∃ k0 ∈ demo_tree.keys, demo.cmp 20 k0 = 0) → (∃ x ∈ demo_tree.keys, demo.cmp 20 x < 0) →
        ∃ s, res = some s ∧ s ∈ demo_tree.keys ∧ demo.cmp 20 s < 0 ∧
          ∀ x ∈ demo_tree.keys, demo.cmp 20 x < 0 → demo.cmp s x ≤ 0) ∧
      ((∃ k0 ∈ demo_tree.keys, demo.cmp 20 k0 = 0) →
        (∀ x ∈ demo_tree.keys, demo.cmp x 20 ≤ 0) → res = none) ∧
      ((∀ x ∈ demo_tree.keys, demo.cmp 20 x ≠ 0) → res = none)) ∧
    bst_successor_key 3 demo 20 = some (some 30) :=
  ⟨C11_successor demo demo_tree 20 3 cmp_int_total demo_holds demo_ordered (by decide),
    by decide⟩

/-- C12 (predecessor correctness).  On a state holding an ordered tree with
consistent parent links, with any fuel above the depth of the tree,
`bst_predecessor_key` returns.  If the key is stored and some stored key is
smaller, the result is a stored key strictly smaller than the key, and no
stored key strictly smaller than the key is above it.  If the key is stored
and no stored key is smaller, or if the key is not stored, the result is
NULL. -/
theorem C12_predecessor (b : bst K V) (t : Tree K V) (key : K) (fuel : Nat)
    (hc : TotalCmp b.cmp) (h : Holds true b t) (ho : Ordered b.cmp t) (hf : t.depth < fuel) :
    ∃ res, bst_predecessor_key fuel b key = some res ∧
      ((∃ k0 ∈ t.keys, b.cmp key k0 = 0) → (∃ x ∈ t.keys, b.cmp x key < 0) →
        ∃ s, res = some s ∧ s ∈ t.keys ∧ b.cmp s key < 0 ∧
          ∀ x ∈ t.keys, b.cmp x key < 0 → b.cmp x s ≤ 0) ∧
      ((∃ k0 ∈ t.keys, b.cmp key k0 = 0) → (∀ x ∈ t.keys, b.cmp key x ≤ 0) → res = none) ∧
      ((∀ x ∈ t.keys, b.cmp key x ≠ 0) → res = none) := by
  have hnd := Rep.nodup hc h.2 ho
  have ha := ordered_ascending hc ho
  obtain ⟨res, e, hnil, hnode⟩ := bst_predecessor_key_holds h hnd key hf
  refine ⟨res, e, ?_, ?_, ?_⟩
  · rintro ⟨k0, hk0, ek⟩ ⟨x, hx, hlt⟩
    obtain ⟨l0, z, v0, r0, hloc⟩ := locate_of_stored hc ho hk0 ek
    rcases hnode l0 z k0 v0 r0 hloc with ⟨s, pre, post, er, hkeys⟩ | ⟨_, post, hkeys⟩
    · exact ⟨s, er, ascending_prev hc ha hkeys ek⟩
    · have h1 := ascending_bottom hc ha hkeys ek x hx
      have h2 := hc.swap x key
      omega
  · rintro ⟨k0, hk0, ek⟩ hall
    obtain ⟨l0, z, v0, r0, hloc⟩ := locate_of_stored hc ho hk0 ek
    rcases hnode l0 z k0 v0 r0 hloc with ⟨s, pre, post, er, hkeys⟩ | ⟨er, _⟩
    · obtain ⟨hs, hlt, _⟩ := ascending_prev hc ha hkeys ek
      have h1 := hall s hs
      have h2 := hc.swap s key
      omega
    · exact er
  · intro habs
    exact hnil (locate_nil_of_absent habs)

/-- C12 at the three-node tree: the predecessor of 20 is 10. -/
theorem C12_predecessor_witness :
    (∃ res, bst_predecessor_key 3 demo 20 = some res ∧
      ((∃ k0 ∈ demo_tree.keys, demo.cmp 20 k0 = 0) → (∃ x ∈ demo_tree.keys, demo.cmp x 20 < 0) →
        ∃ s, res = some s ∧ s ∈ demo_tree.keys ∧ demo.cmp s 20 < 0 ∧
          ∀ x ∈ demo_tree.keys, demo.cmp x 20 < 0 → demo.cmp x s ≤ 0) ∧
      ((∃ k0 ∈ demo_tree.keys, demo.cmp 20 k0 = 0) →
        (∀ x ∈ demo_tree.keys, demo.cmp 20 x ≤ 0) → res = none) ∧
      ((∀ x ∈ demo_tree.keys, demo.cmp 20 x ≠ 0) → res = none)) ∧
    bst_predecessor_key 3 demo 20 = some (some 10) :=
  ⟨C12_predecessor demo demo_tree 20 3 cmp_int_total demo_holds demo_ordered (by decide),
    by decide⟩

/-- C13 (minimum and maximum).  On a state holding an ordered tree, with any
fuel above the depth of the tree, `bst_min_key` and `bst_max_key` return the
first and the last key of the in-order sequence: a returned minimum is a
stored key not above any stored key, a returned maximum is a stored key not
below any stored key, and each of the two results is NULL exactly when the
tree has no root. -/
theorem C13_min_max (b : bst K V) (t : Tree K V) (fuel : Nat)
    (hc : TotalCmp b.cmp) (h : Holds false b t) (ho : Ordered b.cmp t) (hf : t.depth < fuel) :
    ∃ lo hi, bst_min_key fuel b = some lo ∧ bst_max_key fuel b = some hi ∧
      lo = t.keys.head? ∧ hi = t.keys.getLast? ∧
      (∀ k, lo = some k → k ∈ t.keys ∧ ∀ x ∈ t.keys, b.cmp k x ≤ 0) ∧
      (∀ k, hi = some k → k ∈ t.keys ∧ ∀ x ∈ t.keys, b.cmp x k ≤ 0) ∧
      (lo = none ↔ b.root = none) ∧ (hi = none ↔ b.root = none) := by
  have ha := ordered_ascending hc ho
  refine ⟨t.keys.head?, t.keys.getLast?, bst_min_key_holds h hf, bst_max_key_holds h hf,
    rfl, rfl, ?_, ?_, ?_, ?_⟩
  · intro k hk
    exact ascending_head hc ha hk
  · intro k hk
    exact ascending_last hc ha hk
  · rw [List.head?_eq_none_iff, keys_eq_nil_iff, h.1]
  · rw [List.getLast?_eq_none_iff, keys_eq_nil_iff, h.1]

/-- C13 at the three-node tree: the minimum is 10 and the maximum is 30. -/
theorem C13_min_max_witness :
    (∃ lo hi, bst_min_key 3 demo = some lo ∧ bst_max_key 3 demo = some hi ∧
      lo = demo_tree.keys.head? ∧ hi = demo_tree.keys.getLast? ∧
      (∀ k, lo = some k → k ∈ demo_tree.keys ∧ ∀ x ∈ demo_tree.keys, demo.cmp k x ≤ 0) ∧
      (∀ k, hi = some k → k ∈ demo_tree.keys ∧ ∀ x ∈ demo_tree.keys, demo.cmp x k ≤ 0) ∧
      (lo = none ↔ demo.root = none) ∧ (hi = none ↔ demo.root = none)) ∧
    bst_min_key 3 demo = some (some 10) ∧ bst_max_key 3 demo = some (some 30) :=
  ⟨C13_min_max demo demo_tree 3 cmp_int_total demo_holds.weaken demo_ordered (by decide),
    by decide, by decide⟩

/-- The queries on the tree of the test suite ("Min/Max" and
"Successor/Predecessor"). -/
theorem test_min_max_neighbours :
    test_tree.bind (fun b => bst_min_key 5 b) = some (some (cstr "alpha")) ∧
    test_tree.bind (fun b => bst_max_key 5 b) = some (some (cstr "gamma")) ∧
    test_tree.bind (fun b => bst_successor_key 5 b (cstr "alpha")) = some (some (cstr "beta")) ∧
    test_tree.bind (fun b => bst_successor_key 5 b (cstr "epsilon")) =
      some (some (cstr "gamma")) ∧
    test_tree.bind (fun b => bst_successor_key 5 b (cstr "gamma")) = some none ∧
    test_tree.bind (fun b => bst_predecessor_key 5 b (cstr "gamma")) =
      some (some (cstr "epsilon")) ∧
    test_tree.bind (fun b => bst_predecessor_key 5 b (cstr "beta")) =
      some (some (cstr "alpha")) ∧
    test_tree.bind (fun b => bst_predecessor_key 5 b (cstr "alpha")) = some none := by
  decide

/-! ## Height -/

/-- An integer in the range of `int` is its own 32-bit value. -/
theorem int_wrap_small {x : Int} (h1 : -2147483648 ≤ x) (h2 : x < 2147483648) :
    int_wrap x = x := by
  unfold int_wrap
  omega

/-- `height_rec` computes `Tree.height` on the tree the heap holds. -/
theorem height_rec_rep {s : Bool} {m : Nat → Option (node_t K V)} {par : ptr} {t : Tree K V}
    (h : Rep s m par t) {fuel : Nat} (hf : t.depth < fuel) :
    height_rec m fuel t.rootp = some t.height := by
  induction t generalizing par fuel with
  | nil =>
    cases fuel with
    | zero => omega
    | succ f => rfl
  | node l a k v r ihl ihr =>
    rw [rep_node] at h
    obtain ⟨⟨n, hn, _, _, hl, hr, _⟩, h1, h2⟩ := h
    rw [depth_node] at hf
    cases fuel with
    | zero => omega
    | succ f =>
      rw [rootp_node]
      simp only [height_rec, hn]
      rw [hl, hr, ihl h1 (show l.depth < f by omega), ihr h2 (show r.depth < f by omega)]
      rfl

/-- `bst_height` computes `Tree.height` on a state holding a tree. -/
theorem bst_height_holds {s : Bool} {b : bst K V} {t : Tree K V} (h : Holds s b t)
    {fuel : Nat} (hf : t.depth < fuel) : bst_height fuel b = some t.height := by
  unfold bst_height
  rw [h.1]
  exact height_rec_rep h.2 hf

/-- While the longest path has at most `2 ^ 31` nodes, the computed height is
the number of edges on it. -/
theorem height_eq_depth (t : Tree K V) (hd : t.depth ≤ 2 ^ 31) :
    t.height = (t.depth : Int) - 1 := by
  induction t with
  | nil => rfl
  | node l a k v r ihl ihr =>
    rw [depth_node] at hd ⊢
    have e1 := ihl (by omega)
    have e2 := ihr (by omega)
    simp only [Tree.height]
    rw [e1, e2]
    have hm : ((max l.depth r.depth + 1 : Nat) : Int) = max (l.depth : Int) (r.depth : Int) + 1 := by
      push_cast
      rfl
    rw [hm]
    split
    · rw [int_wrap_small (by omega) (by omega)]
      omega
    · rw [int_wrap_small (by omega) (by omega)]
      omega

/-! ## Ascending insertions build a chain -/

theorem chain_nil : (Tree.chain ([] : List (K × V × Nat))) = Tree.nil := rfl

theorem chain_cons (k : K) (v : V) (a : Nat) (rest : List (K × V × Nat)) :
    Tree.chain ((k, v, a) :: rest) = Tree.node Tree.nil a k v (Tree.chain rest) := rfl

theorem chain_depth (l : List (K × V × Nat)) : (Tree.chain l).depth = l.length := by
  induction l with
  | nil => rfl
  | cons e rest ih =>
    obtain ⟨k, v, a⟩ := e
    rw [chain_cons, depth_node, ih]
    simp [Tree.depth]

theorem chain_addrs (l : List (K × V × Nat)) :
    (Tree.chain l).addrs = l.map fun e => e.2.2 := by
  induction l with
  | nil => rfl
  | cons e rest ih =>
    obtain ⟨k, v, a⟩ := e
    rw [chain_cons]
    simp [Tree.addrs, ih]

/-- The search for a key above all keys of a chain falls off the chain. -/
theorem chain_locate {cmp : K → K → Int} (hc : TotalCmp cmp) (l : List (K × V × Nat)) (key : K)
    (h : ∀ e ∈ l, cmp e.1 key < 0) : (Tree.chain l).locate cmp key = Tree.nil := by
  induction l with
  | nil => rfl
  | cons e rest ih =>
    obtain ⟨k, v, a⟩ := e
    have h1 : cmp k key < 0 := h (k, v, a) (List.mem_cons_self _ _)
    have h2 := hc.swap k key
    rw [chain_cons]
    simp only [Tree.locate]
    rw [if_neg (by omega), if_neg (by omega)]
    exact ih fun e he => h e (List.mem_cons_of_mem _ he)

/-- Inserting a key above all keys of a chain extends the chain. -/
theorem chain_insert {cmp : K → K → Int} (hc : TotalCmp cmp) (l : List (K × V × Nat)) (key : K)
    (value : V) (n : Nat) (h : ∀ e ∈ l, cmp e.1 key < 0) :
    (Tree.chain l).insert cmp key value n = Tree.chain (l ++ [(key, value, n)]) := by
  induction l with
  | nil => rfl
  | cons e rest ih =>
    obtain ⟨k, v, a⟩ := e
    have h1 : cmp k key < 0 := h (k, v, a) (List.mem_cons_self _ _)
    have h2 := hc.swap k key
    rw [List.cons_append, chain_cons, chain_cons]
    simp only [Tree.insert]
    rw [if_neg (by omega), if_neg (by omega), ih fun e he => h e (List.mem_cons_of_mem _ he)]

/-- A sequence of insertions of ascending keys after the keys of a chain, at
unused addresses, extends the chain. -/
theorem insert_all_chain {s : Bool} (rest : List (K × V × Nat)) :
    ∀ (b : bst K V) (done : List (K × V × Nat)) (fuel : Nat), TotalCmp b.cmp →
      Holds s b (Tree.chain done) → (∀ x, x ∉ (Tree.chain done).addrs → b.mem x = none) →
      Ascending b.cmp ((done ++ rest).map fun e => e.1) →
      ((done ++ rest).map fun e => e.2.2).Nodup → (done ++ rest).length < fuel →
      ∃ b', insert_all fuel b (with_alloc rest) = some b' ∧
        Holds s b' (Tree.chain (done ++ rest)) ∧ SameConfig b b' := by
  induction rest with
  | nil =>
    intro b done fuel _ h _ _ _ _
    exact ⟨b, rfl, by rw [List.append_nil]; exact h, rfl, rfl, rfl⟩
  | cons e rest ih =>
    intro b done fuel hc h hfree ha hnd hf
    obtain ⟨key, value, n⟩ := e
    have hlow : ∀ e ∈ done, b.cmp e.1 key < 0 := by
      intro e he
      unfold Ascending at ha
      rw [List.map_append, List.pairwise_append] at ha
      exact ha.2.2 e.1 (List.mem_map_of_mem _ he) key (by simp)
    have hn : n ∉ (Tree.chain done).addrs := by
      rw [chain_addrs]
      rw [List.map_append, List.nodup_append] at hnd
      intro hmem
      exact hnd.2.2 hmem (by simp)
    have hnd1 : (Tree.chain done).addrs.Nodup := by
      rw [chain_addrs]
      rw [List.map_append, List.nodup_append] at hnd
      exact hnd.1
    have hd : (Tree.chain done).depth < fuel := by
      rw [chain_depth]
      rw [List.length_append] at hf
      omega
    obtain ⟨b1, e1, e2, _, _, e5, e6⟩ :=
      bst_insert_new h hnd1 key value hd n (hfree n hn) (chain_locate hc done key hlow)
    rw [chain_insert hc done key value n hlow] at e2
    have hfree1 : ∀ x, x ∉ (Tree.chain (done ++ [(key, value, n)])).addrs → b1.mem x = none := by
      intro x hx
      rw [chain_addrs, List.map_append, List.mem_append] at hx
      have hx1 : x ∉ (Tree.chain done).addrs := by
        rw [chain_addrs]
        exact fun hm => hx (Or.inl hm)
      have hx2 : x ≠ n := fun e => hx (Or.inr (by simp [e]))
      rw [e6 x hx1 hx2]
      exact hfree x hx1
    have happ : (done ++ [(key, value, n)]) ++ rest = done ++ (key, value, n) :: rest := by
      simp
    obtain ⟨b', r1, r2, r3⟩ := ih b1 (done ++ [(key, value, n)]) fuel (by rw [e5.1]; exact hc)
      e2 hfree1 (by rw [happ, e5.1]; exact ha) (by rw [happ]; exact hnd) (by rw [happ]; exact hf)
    refine ⟨b', ?_, by rw [← happ]; exact r2, ⟨r3.1.trans e5.1, r3.2.1.trans e5.2.1,
      r3.2.2.trans e5.2.2⟩⟩
    show insert_all fuel b ((key, value, some n) :: with_alloc rest) = some b'
    simp only [insert_all, e1]
    exact r1

/-- The height `bst_height` computes after ascending insertions into an empty
tree is the 32-bit value of the height of the chain. -/
theorem insert_all_height {b0 : bst K V} (h0 : Holds false b0 Tree.nil)
    (hfree : ∀ x, b0.mem x = none) (hc : TotalCmp b0.cmp) (l : List (K × V × Nat))
    (ha : Ascending b0.cmp (l.map fun e => e.1)) (hn : (l.map fun e => e.2.2).Nodup)
    {fuel : Nat} (hf : l.length < fuel) :
    ∃ b, insert_all fuel b0 (with_alloc l) = some b ∧
      bst_height fuel b = some (Tree.chain l).height := by
  obtain ⟨b, e1, e2, _⟩ := @insert_all_chain K V false l b0 [] fuel hc h0 (fun x _ => hfree x)
    (by simpa using ha) (by simpa using hn) (by simpa using hf)
  rw [List.nil_append] at e2
  exact ⟨b, e1, bst_height_holds e2 (by rw [chain_depth]; exact hf)⟩

/-- A chain of `2 ^ 31 + 1` nodes: the height no longer fits an `int`. -/
theorem chain_height_wrapped (l : List (K × V × Nat)) (hl : l.length = 2 ^ 31 + 1) :
    (Tree.chain l).height = -2147483648 := by
  cases l with
  | nil => simp at hl
  | cons e rest =>
    obtain ⟨k, v, a⟩ := e
    rw [List.length_cons] at hl
    have hr : rest.length = 2 ^ 31 := by omega
    have e1 := height_eq_depth (Tree.chain rest) (by rw [chain_depth, hr])
    rw [chain_depth, hr] at e1
    rw [chain_cons]
    simp only [Tree.height]
    rw [e1]
    decide

theorem ramp_length (n : Nat) : (ramp n).length = n := by
  simp [ramp]

theorem ramp_ascending (n : Nat) : Ascending cmp_int ((ramp n).map fun e => e.1) := by
  unfold Ascending ramp
  rw [List.map_map, List.pairwise_map]
  refine List.Pairwise.imp ?_ (List.pairwise_lt_range n)
  intro i j hij
  simp only [Function.comp, cmp_int]
  have h1 : ¬ ((i : Int) > (j : Int)) := by omega
  have h2 : (i : Int) < (j : Int) := by omega
  rw [if_neg h1, if_pos h2]
  decide

theorem ramp_nodup (n : Nat) : ((ramp n).map fun e => e.2.2).Nodup := by
  unfold ramp
  rw [List.map_map]
  refine List.Nodup.map ?_ (List.nodup_range n)
  intro i j hij
  simp only [Function.comp] at hij
  omega

/-! ## Height after ascending insertions: the claim -/

theorem create_empty {cmp : K → K → Int} {fk fv : Bool} {b : bst K V}
    (h : bst_create (some cmp) fk fv true = some b) :
    Holds false b Tree.nil ∧ (∀ x, b.mem x = none) ∧ b.cmp = cmp ∧ b.root = none ∧ b.size = 0 := by
  simp only [bst_create, if_true, Option.some.injEq] at h
  subst h
  exact ⟨⟨rfl, by simp [Rep]⟩, fun _ => rfl, rfl, rfl, rfl⟩

/-- C14 (height after ascending insertions), within the range of `int`.  For
every strictly ascending sequence of at most `2 ^ 31` keys, inserting them in
that order into a freshly created tree, `malloc` returning pairwise distinct
addresses, succeeds, and with any fuel above the number of keys `bst_height`
then returns the number of keys minus one; so -1 for no key and 0 for one. -/
theorem C14_height_ascending (cmp : K → K → Int) (fk fv : Bool) (b0 : bst K V)
    (l : List (K × V × Nat)) (fuel : Nat) (hc : TotalCmp cmp)
    (hb : bst_create (some cmp) fk fv true = some b0)
    (ha : Ascending cmp (l.map fun e => e.1)) (hn : (l.map fun e => e.2.2).Nodup)
    (hl : l.length ≤ 2 ^ 31) (hf : l.length < fuel) :
    ∃ b, insert_all fuel b0 (with_alloc l) = some b ∧
      bst_height fuel b = some ((l.length : Int) - 1) := by
  obtain ⟨h0, hfree, ec, _, _⟩ := create_empty hb
  obtain ⟨b, e1, e2⟩ := insert_all_height h0 hfree (by rw [ec]; exact hc) l
    (by rw [ec]; exact ha) hn hf
  refine ⟨b, e1, ?_⟩
  rw [e2, height_eq_depth _ (by rw [chain_depth]; exact hl), chain_depth]

/-- C14 for the keys 10 and 20: the height is 1. -/
theorem C14_height_ascending_witness :
    ∃ b, insert_all 3 demo_empty (with_alloc [(10, 100, 1), (20, 200, 2)]) = some b ∧
      bst_height 3 b = some ((([(10, 100, 1), (20, 200, 2)] :
        List (Int × Int × Nat)).length : Int) - 1) :=
  C14_height_ascending cmp_int true true demo_empty [(10, 100, 1), (20, 200, 2)] 3
    cmp_int_total rfl (by simp [Ascending, cmp_int]) (by simp) (by decide) (by decide)

/-- C14 as stated fails beyond the range of `int`: after inserting the
`2 ^ 31 + 1` keys 0, 1, ..., `2 ^ 31` in ascending order into an empty tree,
`bst_height` returns -2147483648 and not the number of keys minus one,
2147483648. -/
theorem C14_height_overflow :
    (insert_all (2 ^ 31 + 2) demo_empty (with_alloc (ramp (2 ^ 31 + 1)))).bind
        (bst_height (2 ^ 31 + 2)) = some (-2147483648) ∧
      ((ramp (2 ^ 31 + 1)).length : Int) - 1 = 2147483648 := by
  obtain ⟨b, e1, e2⟩ := @insert_all_height Int Int demo_empty ⟨rfl, by simp [Rep]⟩
    (fun _ => rfl) cmp_int_total (ramp (2 ^ 31 + 1)) (ramp_ascending _) (ramp_nodup _)
    (2 ^ 31 + 2) (by rw [ramp_length]; omega)
  rw [chain_height_wrapped _ (ramp_length _)] at e2
  refine ⟨?_, ?_⟩
  · rw [e1]
    exact e2
  · rw [ramp_length]
    norm_num

/-- The heights of the test suite: -1 for the empty tree, 0 for a single
node. -/
theorem test_height :
    bst_height 1 demo_empty = some (-1) ∧ bst_height 2 demo_one = some 0 := by
  decide

/-! ## Two states that hold the same tree behave alike under insertion -/

/-- One `bst_insert` on two states that hold the same tree with the same
comparison: the same result, and again the same tree. -/
theorem insert_sim {b1 b2 : bst K V} {t : Tree K V} (h1 : Holds true b1 t)
    (h2 : Holds true b2 t) (hc : b2.cmp = b1.cmp) (hnd : t.addrs.Nodup) (key : K) (value : V)
    {fuel : Nat} (hf : t.depth < fuel) (fresh : ptr)
    (hm1 : ∀ n, fresh = some n → b1.mem n = none)
    (hm2 : ∀ n, fresh = some n → b2.mem n = none) :
    ∃ r b1' b2' t', bst_insert fuel b1 key value fresh = some (r, b1') ∧
      bst_insert fuel b2 key value fresh = some (r, b2') ∧
      Holds true b1' t' ∧ Holds true b2' t' ∧ t'.addrs.Nodup ∧ t'.depth ≤ t.depth + 1 ∧
      b2'.cmp = b1'.cmp ∧ (b1.size = b2.size → b1'.size = b2'.size) ∧
      (∀ x, b1.mem x = none → fresh ≠ some x → b1'.mem x = none) ∧
      (∀ x, b2.mem x = none → fresh ≠ some x → b2'.mem x = none) := by
  cases hloc : t.locate b1.cmp key with
  | nil =>
    have hloc2 : t.locate b2.cmp key = Tree.nil := by rw [hc]; exact hloc
    cases fresh with
    | none =>
      exact ⟨false, b1, b2, t, bst_insert_nomem h1 key value hf hloc,
        bst_insert_nomem h2 key value hf hloc2, h1, h2, hnd, by omega, hc, fun e => e,
        fun x hx _ => hx, fun x hx _ => hx⟩
    | some n =>
      obtain ⟨c1, p1, p2, p3, _, p5, p6⟩ :=
        bst_insert_new h1 hnd key value hf n (hm1 n rfl) hloc
      obtain ⟨c2, q1, q2, q3, _, q5, q6⟩ :=
        bst_insert_new h2 hnd key value hf n (hm2 n rfl) hloc2
      rw [hc] at q2
      obtain ⟨a1, a2, r1, r2⟩ := insert_addrs_new b1.cmp key value n hloc
      have hnt : n ∉ t.addrs := fun hx => h1.2.alloc hx (hm1 n rfl)
      refine ⟨true, c1, c2, t.insert b1.cmp key value n, p1, q1, p2, q2, ?_,
        insert_depth _ _ _ _ _, by rw [p5.1, q5.1, hc], fun e => by rw [p3, q3, e], ?_, ?_⟩
      · rw [r2, List.nodup_middle, List.nodup_cons, ← r1]
        exact ⟨hnt, hnd⟩
      · intro x hx hne
        rw [p6 x (fun hm => h1.2.alloc hm hx) (fun e => hne (by rw [e]))]
        exact hx
      · intro x hx hne
        rw [q6 x (fun hm => h2.2.alloc hm hx) (fun e => hne (by rw [e]))]
        exact hx
  | node l0 a0 k0 v0 r0 =>
    have hloc2 : t.locate b2.cmp key = Tree.node l0 a0 k0 v0 r0 := by rw [hc]; exact hloc
    have hne : t.locate b1.cmp key ≠ Tree.nil := by rw [hloc]; simp
    obtain ⟨cn1, p1, _, _, p4, p5⟩ :=
      bst_insert_found h1 hnd key value hf fresh (fresh.getD 0) hloc
    obtain ⟨cn2, q1, _, _, q4, q5⟩ :=
      bst_insert_found h2 hnd key value hf fresh (fresh.getD 0) hloc2
    rw [hc] at q5
    obtain ⟨s1, _, _, s4, _⟩ := insert_found_same b1.cmp key value (fresh.getD 0) t hne
    refine ⟨true, _, _, t.insert b1.cmp key value (fresh.getD 0), p4, q4, p5, q5,
      by rw [s1]; exact hnd, by rw [s4]; omega, hc, fun e => e, ?_, ?_⟩
    · intro x hx _
      have hxa : x ≠ a0 := by
        intro e
        rw [e, p1] at hx
        cases hx
      show store b1.mem a0 _ x = none
      rw [store_other _ _ hxa]
      exact hx
    · intro x hx _
      have hxa : x ≠ a0 := by
        intro e
        rw [e, q1] at hx
        cases hx
      show store b2.mem a0 _ x = none
      rw [store_other _ _ hxa]
      exact hx

/-- A sequence of `bst_insert` calls on two states that hold the same tree
with the same comparison and the same entry count: the same results, and in
the end the same tree and the same entry count. -/
theorem insert_seq_sim (l : List (K × V × ptr)) :
    ∀ (b1 b2 : bst K V) (t : Tree K V) (fuel : Nat), Holds true b1 t → Holds true b2 t →
      b2.cmp = b1.cmp → b1.size = b2.size → t.addrs.Nodup → t.depth + l.length < fuel →
      (∀ e ∈ l, ∀ n, e.2.2 = some n → b1.mem n = none ∧ b2.mem n = none) →
      l.Pairwise (fun e1 e2 => ∀ n, e1.2.2 = some n → e2.2.2 ≠ some n) →
      ∃ rs b1' b2' t', insert_seq fuel b1 l = some (rs, b1') ∧
        insert_seq fuel b2 l = some (rs, b2') ∧ Holds true b1' t' ∧ Holds true b2' t' ∧
        b1'.size = b2'.size := by
  induction l with
  | nil =>
    intro b1 b2 t fuel h1 h2 _ hs _ _ _ _
    exact ⟨[], b1, b2, t, rfl, rfl, h1, h2, hs⟩
  | cons e rest ih =>
    intro b1 b2 t fuel h1 h2 hc hs hnd hf hfree hpw
    obtain ⟨key, value, fresh⟩ := e
    rw [List.length_cons] at hf
    rw [List.pairwise_cons] at hpw
    obtain ⟨r, c1, c2, t1, p1, p2, p3, p4, p5, p6, p7, p8, p9, p10⟩ :=
      insert_sim h1 h2 hc hnd key value (show t.depth < fuel by omega) fresh
        (fun n e => (hfree (key, value, fresh) (List.mem_cons_self _ _) n e).1)
        (fun n e => (hfree (key, value, fresh) (List.mem_cons_self _ _) n e).2)
    obtain ⟨rs, d1, d2, t2, q1, q2, q3, q4, q5⟩ := ih c1 c2 t1 fuel p3 p4 p7 (p8 hs) p5
      (by omega)
      (fun e he n en =>
        have hf1 := hfree e (List.mem_cons_of_mem _ he) n en
        have hne : fresh ≠ some n := fun ef => hpw.1 e he n ef en
        ⟨p9 n hf1.1 hne, p10 n hf1.2 hne⟩)
      hpw.2
    refine ⟨r :: rs, d1, d2, t2, ?_, ?_, q3, q4, q5⟩
    · simp only [insert_seq, p1, q1]
    · simp only [insert_seq, p2, q2]

/-! ## Clearing and parent links: the claims -/

/-- C17 (clear empties the map).  On a state holding a tree, with any fuel
above its depth, `bst_clear` returns; afterwards the root is NULL, `bst_size`
is 0, `bst_height` is -1 and `bst_contains` is false for every key.  The state
satisfies the data-model invariants of an empty tree, and any later sequence
of `bst_insert` calls (at unused, pairwise distinct addresses) has the same
results on it as on a freshly created tree, and leaves the two states holding
the same tree with the same entry count. -/
theorem C17_clear (b : bst K V) (t : Tree K V) (fuel : Nat) (h : Holds false b t)
    (hnd : t.addrs.Nodup) (hf : t.depth < fuel) :
    ∃ b', bst_clear fuel b = some b' ∧ b'.root = none ∧ bst_size b' = 0 ∧
      (∀ f, 0 < f → bst_height f b' = some (-1)) ∧
      (∀ f key, 0 < f → bst_contains f b' key = some false) ∧
      Valid b' Tree.nil ∧ SameConfig b b' ∧
      ∀ c l f, bst_create (some b.cmp) b.free_key b.free_val true = some c →
        l.length < f → (∀ e ∈ l, ∀ n, e.2.2 = some n → b'.mem n = none) →
        l.Pairwise (fun e1 e2 => ∀ n, e1.2.2 = some n → e2.2.2 ≠ some n) →
        ∃ rs b1 c1 t1, insert_seq f b' l = some (rs, b1) ∧ insert_seq f c l = some (rs, c1) ∧
          Holds true b1 t1 ∧ Holds true c1 t1 ∧ bst_size b1 = bst_size c1 := by
  obtain ⟨b', e1, e2, e3, e4⟩ := bst_clear_holds h hnd hf
  have hroot : b'.root = none := e2.1
  refine ⟨b', e1, hroot, e3, ?_, ?_, ⟨e2, by simp [Tree.addrs], e3, by simp [Tree.addrs]⟩, e4, ?_⟩
  · intro f hf0
    rw [bst_height_holds e2 (show (Tree.nil : Tree K V).depth < f from hf0)]
    rfl
  · intro f key hf0
    rw [bst_contains_holds e2 key (show (Tree.nil : Tree K V).depth < f from hf0)]
    rfl
  · intro c l f hcr hlf hfree hpw
    obtain ⟨_, cfree, ccmp, _, csize⟩ := create_empty hcr
    have hvc := (valid_create b.cmp b.free_key b.free_val c hcr).1
    exact insert_seq_sim l b' c Tree.nil f e2 hvc.1 (by rw [ccmp, e4.1]) (by rw [e3, csize])
      (by simp [Tree.addrs]) (by simpa [Tree.depth] using hlf)
      (fun e he n en => ⟨hfree e he n en, cfree n⟩) hpw

/-- C17 at the three-node tree: clearing releases the three nodes in
post-order. -/
theorem C17_clear_witness :
    (∃ b', bst_clear 3 demo = some b' ∧ b'.root = none ∧ bst_size b' = 0 ∧
      (∀ f, 0 < f → bst_height f b' = some (-1)) ∧
      (∀ f key, 0 < f → bst_contains f b' key = some false) ∧
      Valid b' Tree.nil ∧ SameConfig demo b' ∧
      ∀ c l f, bst_create (some demo.cmp) demo.free_key demo.free_val true = some c →
        l.length < f → (∀ e ∈ l, ∀ n, e.2.2 = some n → b'.mem n = none) →
        l.Pairwise (fun e1 e2 => ∀ n, e1.2.2 = some n → e2.2.2 ≠ some n) →
        ∃ rs b1 c1 t1, insert_seq f b' l = some (rs, b1) ∧ insert_seq f c l = some (rs, c1) ∧
          Holds true b1 t1 ∧ Holds true c1 t1 ∧ bst_size b1 = bst_size c1) ∧
    (bst_clear 3 demo).map (fun b' => (b'.root, bst_size b', bst_height 1 b', b'.log)) =
      some (none, 0, some (-1), [release.key 10, release.value 100, release.key 30,
        release.value 300, release.key 20, release.value 200]) :=
  ⟨C17_clear demo demo_tree 3 demo_holds.weaken demo_nodup (by decide), by decide⟩

/-- The node at the root of a held tree has the expected parent. -/
theorem Rep.root_parent {m : Nat → Option (node_t K V)} {par : ptr} {t : Tree K V}
    (h : Rep true m par t) {c : Nat} (hc : t.rootp = some c) :
    c ∈ t.addrs ∧ ∃ cn, m c = some cn ∧ cn.parent = par := by
  cases t with
  | nil => cases hc
  | node l a k v r =>
    rw [rootp_node] at hc
    cases hc
    rw [rep_node] at h
    obtain ⟨⟨n, hn, _, _, _, _, hp⟩, _, _⟩ := h
    exact ⟨by simp [Tree.addrs], n, hn, hp rfl⟩

/-- In a held tree with consistent parent links every child points back to
its parent. -/
theorem Rep.parent_links {m : Nat → Option (node_t K V)} {par : ptr} {t : Tree K V}
    (h : Rep true m par t) :
    ∀ a ∈ t.addrs, ∃ n, m a = some n ∧
      (∀ c, n.left = some c → c ∈ t.addrs ∧ ∃ cn, m c = some cn ∧ cn.parent = some a) ∧
      (∀ c, n.right = some c → c ∈ t.addrs ∧ ∃ cn, m c = some cn ∧ cn.parent = some a) := by
  induction t generalizing par with
  | nil => intro a ha; simp [Tree.addrs] at ha
  | node l a k v r ihl ihr =>
    intro x hx
    rw [rep_node] at h
    obtain ⟨⟨n, hn, _, _, hl, hr, _⟩, h1, h2⟩ := h
    rw [mem_addrs_node] at hx
    rcases hx with hx | hx | hx
    · obtain ⟨xn, e1, e2, e3⟩ := ihl h1 x hx
      refine ⟨xn, e1, fun c hc => ?_, fun c hc => ?_⟩
      · exact ⟨mem_addrs_node.2 (Or.inl (e2 c hc).1), (e2 c hc).2⟩
      · exact ⟨mem_addrs_node.2 (Or.inl (e3 c hc).1), (e3 c hc).2⟩
    · subst hx
      refine ⟨n, hn, fun c hc => ?_, fun c hc => ?_⟩
      · rw [hl] at hc
        obtain ⟨q1, q2⟩ := h1.root_parent hc
        exact ⟨mem_addrs_node.2 (Or.inl q1), q2⟩
      · rw [hr] at hc
        obtain ⟨q1, q2⟩ := h2.root_parent hc
        exact ⟨mem_addrs_node.2 (Or.inr (Or.inr q1)), q2⟩
    · obtain ⟨xn, e1, e2, e3⟩ := ihr h2 x hx
      refine ⟨xn, e1, fun c hc => ?_, fun c hc => ?_⟩
      · exact ⟨mem_addrs_node.2 (Or.inr (Or.inr (e2 c hc).1)), (e2 c hc).2⟩
      · exact ⟨mem_addrs_node.2 (Or.inr (Or.inr (e3 c hc).1)), (e3 c hc).2⟩

/-- C19 (parent-link consistency).  Every state obtained from `bst_create` by
calls of `bst_insert`, `bst_remove` and `bst_clear` holds a tree in which the
root node has a NULL `parent` field and every node that is the `left` or
`right` child of a node `a` is a node of the tree whose `parent` field is
`a`. -/
theorem C19_parent_links (b : bst K V) (hr : Reachable b) :
    ∃ t, Holds true b t ∧
      (∀ r, b.root = some r → r ∈ t.addrs ∧ ∃ rn, b.mem r = some rn ∧ rn.parent = none) ∧
      ∀ a ∈ t.addrs, ∃ n, b.mem a = some n ∧
        (∀ c, n.left = some c → c ∈ t.addrs ∧ ∃ cn, b.mem c = some cn ∧ cn.parent = some a) ∧
        (∀ c, n.right = some c → c ∈ t.addrs ∧ ∃ cn, b.mem c = some cn ∧ cn.parent = some a) := by
  obtain ⟨t, hv, _⟩ := reachable_valid hr
  refine ⟨t, hv.1, ?_, hv.1.2.parent_links⟩
  intro r hroot
  rw [hv.1.1] at hroot
  exact hv.1.2.root_parent hroot

/-- C19 at the state `demo_run`, reached from `bst_create` by seven insertions
(keys 50, 30, 80, 60, 90, 55, 57 at the addresses 1, ..., 7), the removal of
the root 50 (two children, successor 55 deeper in the right subtree), the
removal of 60 (one child) and the insertion of 70 at the released address 1.
Right after the removal of 50 the node of 55 (address 6) is the root, without
parent, its children 30 and 80 point back to it, and 57 took the place of 55
below 60.  In `demo_run` the root 55 has the children 30 (address 2) and 80
(address 3), 80 has the children 57 (address 7) and 90 (address 5), 57 has
the right child 70 (address 1), and each child names its parent. -/
theorem C19_parent_links_witness :
    (∃ t, Holds true demo_run t ∧
      (∀ r, demo_run.root = some r →
        r ∈ t.addrs ∧ ∃ rn, demo_run.mem r = some rn ∧ rn.parent = none) ∧
      ∀ a ∈ t.addrs, ∃ n, demo_run.mem a = some n ∧
        (∀ c, n.left = some c →
          c ∈ t.addrs ∧ ∃ cn, demo_run.mem c = some cn ∧ cn.parent = some a) ∧
        (∀ c, n.right = some c →
          c ∈ t.addrs ∧ ∃ cn, demo_run.mem c = some cn ∧ cn.parent = some a)) ∧
    (remove_step 6 demo_grown 50).root = some 6 ∧
    [1, 2, 3, 4, 5, 6, 7].map (fun a => ((remove_step 6 demo_grown 50).mem a).map node_t.links) =
      [none, some (30, none, none, some 6), some (80, some 4, some 5, some 6),
        some (60, some 7, none, some 3), some (90, none, none, some 3),
        some (55, some 2, some 3, none), some (57, none, none, some 4)] ∧
    demo_pruned.root = some 6 ∧
    [1, 2, 3, 4, 5, 6, 7].map (fun a => (demo_pruned.mem a).map node_t.links) =
      [none, some (30, none, none, some 6), some (80, some 7, some 5, some 6), none,
        some (90, none, none, some 3), some (55, some 2, some 3, none),
        some (57, none, none, some 3)] ∧
    demo_run.root = some 6 ∧
    [1, 2, 3, 4, 5, 6, 7].map (fun a => (demo_run.mem a).map node_t.links) =
      [some (70, none, none, some 7), some (30, none, none, some 6),
        some (80, some 7, some 5, some 6), none, some (90, none, none, some 3),
        some (55, some 2, some 3, none), some (57, none, some 1, some 3)] :=
  ⟨C19_parent_links demo_run demo_run_reachable, by decide, by decide, by decide, by decide,
    by decide, by decide⟩

/-! ## Removal keeps every other node where it is -/

theorem nodes_nil : (Tree.nil : Tree K V).nodes = [] := rfl

theorem nodes_node (l : Tree K V) (a : Nat) (k : K) (v : V) (r : Tree K V) :
    (Tree.node l a k v r).nodes = l.nodes ++ (a, k, v) :: r.nodes := rfl

/-- Every node of the tree is stored at its address with its key and value. -/
theorem Rep.node_mem {s : Bool} {m : Nat → Option (node_t K V)} {par : ptr} {t : Tree K V}
    (h : Rep s m par t) {e : Nat × K × V} (he : e ∈ t.nodes) :
    ∃ n, m e.1 = some n ∧ n.key = e.2.1 ∧ n.value = e.2.2 := by
  induction t generalizing par with
  | nil => simp [Tree.nodes] at he
  | node l a k v r ihl ihr =>
    rw [rep_node] at h
    obtain ⟨⟨n, hn, hk, hv, _⟩, h1, h2⟩ := h
    rw [nodes_node, List.mem_append, List.mem_cons] at he
    rcases he with he | he | he
    · exact ihl h1 he
    · subst he
      exact ⟨n, hn, hk, hv⟩
    · exact ihr h2 he

/-- The leftmost node is the first node of the in-order. -/
theorem leftmost_nodes (t : Tree K V) (hne : t ≠ Tree.nil) :
    ∃ ya yk yv yr, t.leftmost = Tree.node Tree.nil ya yk yv yr ∧
      t.nodes = (ya, yk, yv) :: t.remove_min.nodes := by
  induction t with
  | nil => exact absurd rfl hne
  | node l a k v r ihl _ =>
    cases l with
    | nil => exact ⟨a, k, v, r, by simp [Tree.leftmost], by simp [Tree.remove_min, Tree.nodes]⟩
    | node ll la lk lv lr =>
      obtain ⟨ya, yk, yv, yr, e1, e2⟩ := ihl (by simp)
      refine ⟨ya, yk, yv, yr, by simpa [Tree.leftmost] using e1, ?_⟩
      rw [nodes_node, e2]
      simp [Tree.remove_min, Tree.nodes]

/-- Removing the root node deletes exactly that node from the in-order. -/
theorem remove_root_nodes (l : Tree K V) (a : Nat) (k : K) (v : V) (r : Tree K V) :
    (Tree.node l a k v r).remove_root.nodes = l.nodes ++ r.nodes := by
  cases l with
  | nil => simp [Tree.remove_root, Tree.nodes]
  | node ll la lk lv lr =>
    cases r with
    | nil => simp [Tree.remove_root, Tree.nodes]
    | node rl ra rk rv rr =>
      obtain ⟨ya, yk, yv, yr, e1, e2⟩ := leftmost_nodes (Tree.node rl ra rk rv rr) (by simp)
      simp only [Tree.remove_root, e1]
      rw [e2, nodes_node]

/-- Removing the located node deletes exactly that node from the in-order:
the nodes before it, those of its two subtrees and the nodes after it keep
their addresses, keys and values. -/
theorem remove_nodes (cmp : K → K → Int) (key : K) {t : Tree K V}
    {l0 r0 : Tree K V} {z : Nat} {k0 : K} {v0 : V}
    (hloc : t.locate cmp key = Tree.node l0 z k0 v0 r0) :
    ∃ pre post, t.nodes = pre ++ l0.nodes ++ (z, k0, v0) :: (r0.nodes ++ post) ∧
      (t.remove cmp key).nodes = pre ++ l0.nodes ++ (r0.nodes ++ post) := by
  induction t with
  | nil => simp [Tree.locate] at hloc
  | node l a k v r ihl ihr =>
    simp only [Tree.locate] at hloc
    simp only [Tree.remove]
    by_cases c0 : cmp key k = 0
    · simp only [c0, if_true, Tree.node.injEq] at hloc ⊢
      obtain ⟨e1, e2, e3, e4, e5⟩ := hloc
      subst e1 e2 e3 e4 e5
      exact ⟨[], [], by simp [nodes_node], by rw [remove_root_nodes]; simp⟩
    · by_cases c1 : cmp key k < 0
      · simp only [c0, c1, if_true, if_false] at hloc ⊢
        obtain ⟨pre, post, e1, e2⟩ := ihl hloc
        exact ⟨pre, post ++ (a, k, v) :: r.nodes, by rw [nodes_node, e1]; simp,
          by rw [nodes_node, e2]; simp⟩
      · simp only [c0, c1, if_false] at hloc ⊢
        obtain ⟨pre, post, e1, e2⟩ := ihr hloc
        exact ⟨l.nodes ++ (a, k, v) :: pre, post, by rw [nodes_node, e1]; simp,
          by rw [nodes_node, e2]; simp⟩

/-- C18 (release discipline of removal).  On a state holding an ordered tree
with both release callbacks registered, `bst_remove` of a stored key returns
`true` and appends exactly two calls to the release log: the key callback on
the key of the located node and the value callback on its value.  The new
state holds the tree without that node: every other node is still stored at
its address with its key and value.  When the located node has two children,
the leftmost node of its right subtree (the in-order successor) is among
them: it takes the place of the removed node, with its own key and value. -/
theorem C18_remove_release (b : bst K V) (t : Tree K V) (key k0 : K) (fuel : Nat)
    (hc : TotalCmp b.cmp) (h : Holds true b t) (ho : Ordered b.cmp t)
    (hfk : b.free_key = true) (hfv : b.free_val = true)
    (hk0 : k0 ∈ t.keys) (he : b.cmp key k0 = 0) (hf : t.depth < fuel) :
    ∃ b' l0 z v0 r0 pre post, t.locate b.cmp key = Tree.node l0 z k0 v0 r0 ∧
      bst_remove fuel b key = some (true, b') ∧
      b'.log = b.log ++ [release.key k0, release.value v0] ∧
      Holds true b' (t.remove b.cmp key) ∧
      t.nodes = pre ++ l0.nodes ++ (z, k0, v0) :: (r0.nodes ++ post) ∧
      (t.remove b.cmp key).nodes = pre ++ l0.nodes ++ (r0.nodes ++ post) ∧
      (∀ e ∈ (t.remove b.cmp key).nodes,
        ∃ n, b'.mem e.1 = some n ∧ n.key = e.2.1 ∧ n.value = e.2.2) ∧
      (l0 ≠ Tree.nil → r0 ≠ Tree.nil → ∃ ya yk yv yr,
        r0.leftmost = Tree.node Tree.nil ya yk yv yr ∧
        (Tree.node l0 z k0 v0 r0).remove_root = Tree.node l0 ya yk yv r0.remove_min ∧
        (ya, yk, yv) ∈ (t.remove b.cmp key).nodes) := by
  have hnd := Rep.nodup hc h.2 ho
  obtain ⟨l0, z, v0, r0, hloc⟩ := locate_of_stored hc ho hk0 he
  obtain ⟨b', e1, e2, _, e4, _⟩ := bst_remove_found h hnd key hf hloc
  obtain ⟨pre, post, n1, n2⟩ := remove_nodes b.cmp key hloc
  refine ⟨b', l0, z, v0, r0, pre, post, hloc, e1, ?_, e2, n1, n2, ?_, ?_⟩
  · rw [e4]
    simp [release_calls, hfk, hfv]
  · intro e hmem
    exact e2.2.node_mem hmem
  · intro hl hr
    obtain ⟨ya, yk, yv, yr, q1, q2⟩ := leftmost_nodes r0 hr
    refine ⟨ya, yk, yv, yr, q1, ?_, ?_⟩
    · cases l0 with
      | nil => exact absurd rfl hl
      | node ll la lk lv lr =>
        cases r0 with
        | nil => exact absurd rfl hr
        | node rl ra rk rv rr => simp only [Tree.remove_root, q1]
    · rw [n2, q2]
      simp

/-- C18 at the three-node tree: removing the root 20, a node with two
children, releases the key 20 and the value 200; the successor node at
address 3, with its key 30, becomes the root and takes over the left child,
and the node at address 1 is freed. -/
theorem C18_remove_release_witness :
    (∃ b' l0 z v0 r0 pre post, demo_tree.locate demo.cmp 20 = Tree.node l0 z 20 v0 r0 ∧
      bst_remove 3 demo 20 = some (true, b') ∧
      b'.log = demo.log ++ [release.key 20, release.value v0] ∧
      Holds true b' (demo_tree.remove demo.cmp 20) ∧
      demo_tree.nodes = pre ++ l0.nodes ++ (z, 20, v0) :: (r0.nodes ++ post) ∧
      (demo_tree.remove demo.cmp 20).nodes = pre ++ l0.nodes ++ (r0.nodes ++ post) ∧
      (∀ e ∈ (demo_tree.remove demo.cmp 20).nodes,
        ∃ n, b'.mem e.1 = some n ∧ n.key = e.2.1 ∧ n.value = e.2.2) ∧
      (l0 ≠ Tree.nil → r0 ≠ Tree.nil → ∃ ya yk yv yr,
        r0.leftmost = Tree.node Tree.nil ya yk yv yr ∧
        (Tree.node l0 z 20 v0 r0).remove_root = Tree.node l0 ya yk yv r0.remove_min ∧
        (ya, yk, yv) ∈ (demo_tree.remove demo.cmp 20).nodes)) ∧
    (bst_remove 3 demo 20).map (fun p => (p.1, p.2.log, p.2.root)) =
      some (true, [release.key 20, release.value 200], some 3) ∧
    (bst_remove 3 demo 20).map (fun p => (p.2.mem 3).map node_t.links) =
      some (some (30, some 2, none, none)) ∧
    (bst_remove 3 demo 20).map (fun p => (p.2.mem 1).isSome) = some false :=
  ⟨C18_remove_release demo demo_tree 20 20 3 cmp_int_total demo_holds demo_ordered rfl rfl
    (by decide) (by decide) (by decide), by decide, by decide, by decide⟩

/-! ## The cursor -/

theorem push_current (it : bst_iter) (n : ptr) : (push it n).current = it.current := by
  unfold push
  cases n with
  | none => rfl
  | some a =>
    simp only []
    split <;> rfl

theorem push_room (it : bst_iter) (a : Nat) (h : it.stack.length < iter_capacity) :
    (push it (some a)).stack = a :: it.stack := by
  simp only [push, h, if_true]

theorem spine_len_nil : (Tree.nil : Tree K V).spine_len = 0 := rfl

theorem spine_len_node (l : Tree K V) (a : Nat) (k : K) (v : V) (r : Tree K V) :
    (Tree.node l a k v r).spine_len = l.spine_len + 1 := rfl

theorem spine_nil (fs : List (Tree K V)) : (Tree.nil : Tree K V).spine fs = fs := rfl

theorem spine_node (l : Tree K V) (a : Nat) (k : K) (v : V) (r : Tree K V)
    (fs : List (Tree K V)) :
    (Tree.node l a k v r).spine fs = l.spine (Tree.node l a k v r :: fs) := rfl

theorem spine_len_le_depth (t : Tree K V) : t.spine_len ≤ t.depth := by
  induction t with
  | nil => exact Nat.le_refl _
  | node l a k v r ihl _ =>
    rw [spine_len_node, depth_node]
    omega

theorem frames_cons {m : Nat → Option (node_t K V)} {a : Nat} {st : List Nat}
    {l r : Tree K V} {k : K} {v : V} {fs : List (Tree K V)} {n : node_t K V}
    (hn : m a = some n) (hk : n.key = k) (hv : n.value = v) (hr : n.right = r.rootp)
    (h2 : Rep false m (some a) r) (h : Frames m st fs) :
    Frames m (a :: st) (Tree.node l a k v r :: fs) :=
  List.Forall₂.cons ⟨rfl, ⟨n, hn, hk, hv, hr⟩, h2⟩ h

/-- The loop of `bst_iter_next` walks down the left spine of a subtree and
returns; when the stack has room for the spine, every node of it is pushed. -/
theorem next_loop_spine {m : Nat → Option (node_t K V)} {par : ptr} {t : Tree K V}
    (h : Rep false m par t) :
    ∀ (it : bst_iter) (fuel : Nat), t.spine_len < fuel →
      ∃ it', next_loop m fuel it t.rootp = some it' ∧ it'.current = it.current ∧
        ∀ fs, Frames m it.stack fs → t.spine_len + it.stack.length ≤ iter_capacity →
          Frames m it'.stack (t.spine fs) := by
  induction t generalizing par with
  | nil =>
    intro it fuel hf
    cases fuel with
    | zero => omega
    | succ f => exact ⟨it, rfl, rfl, fun fs hfr _ => hfr⟩
  | node l a k v r ihl _ =>
    intro it fuel hf
    rw [rep_node] at h
    obtain ⟨⟨n, hn, hk, hv, hl, hr, _⟩, h1, h2⟩ := h
    rw [spine_len_node] at hf
    cases fuel with
    | zero => omega
    | succ f =>
      obtain ⟨it', e1, e2, e3⟩ := ihl h1 (push it (some a)) f (by omega)
      refine ⟨it', ?_, e2.trans (push_current _ _), ?_⟩
      · rw [rootp_node]
        simp only [next_loop, hn]
        rw [hl]
        exact e1
      · intro fs hfr hb
        rw [spine_len_node] at hb
        rw [spine_node]
        have hp := push_room it a (by omega)
        refine e3 _ ?_ ?_
        · rw [hp]
          exact frames_cons hn hk hv hr h2 hfr
        · rw [hp, List.length_cons]
          omega

/-- The loop of `bst_iter_inorder_create` walks down the left spine of the
tree and returns; when the stack has room for the spine, every node of it is
pushed. -/
theorem create_loop_spine {m : Nat → Option (node_t K V)} {par : ptr} {t : Tree K V}
    (h : Rep false m par t) :
    ∀ (it : bst_iter) (fuel : Nat), it.current = t.rootp → t.spine_len < fuel →
      ∃ it', create_loop m fuel it = some it' ∧ it'.current = none ∧
        ∀ fs, Frames m it.stack fs → t.spine_len + it.stack.length ≤ iter_capacity →
          Frames m it'.stack (t.spine fs) := by
  induction t generalizing par with
  | nil =>
    intro it fuel hc hf
    cases fuel with
    | zero => omega
    | succ f =>
      rw [rootp_nil] at hc
      exact ⟨it, by simp only [create_loop, hc], hc, fun fs hfr _ => hfr⟩
  | node l a k v r ihl _ =>
    intro it fuel hc hf
    rw [rep_node] at h
    obtain ⟨⟨n, hn, hk, hv, hl, hr, _⟩, h1, h2⟩ := h
    rw [spine_len_node] at hf
    rw [rootp_node] at hc
    cases fuel with
    | zero => omega
    | succ f =>
      obtain ⟨it', e1, e2, e3⟩ :=
        ihl h1 { push it (some a) with current := n.left } f hl (by omega)
      refine ⟨it', ?_, e2, ?_⟩
      · simp only [create_loop, hc, hn]
        exact e1
      · intro fs hfr hb
        rw [spine_len_node] at hb
        rw [spine_node]
        have hp := push_room it a (by omega)
        refine e3 _ ?_ ?_
        · show Frames m (push it (some a)).stack _
          rw [hp]
          exact frames_cons hn hk hv hr h2 hfr
        · show l.spine_len + (push it (some a)).stack.length ≤ iter_capacity
          rw [hp, List.length_cons]
          omega

/-- The pairs still to come after the left spine of a subtree is pushed: the
pairs of the subtree, then those that were to come before. -/
theorem pending_spine (t : Tree K V) (fs : List (Tree K V)) :
    pending (t.spine fs) = t.pairs ++ pending fs := by
  induction t generalizing fs with
  | nil => rfl
  | node l a k v r ihl _ =>
    rw [spine_node, ihl]
    simp [pending, Tree.pairs]

theorem fits_spine (t : Tree K V) (fs : List (Tree K V)) (h : Fits fs)
    (hd : t.depth + fs.length ≤ iter_capacity) : Fits (t.spine fs) := by
  induction t generalizing fs with
  | nil => exact h
  | node l a k v r ihl _ =>
    rw [spine_node]
    rw [depth_node] at hd
    refine ihl _ ⟨by rw [depth_node]; exact hd, h⟩ ?_
    rw [List.length_cons]
    omega

theorem spine_depth (t : Tree K V) (fs : List (Tree K V)) :
    ∀ g ∈ t.spine fs, g ∈ fs ∨ g.depth ≤ t.depth := by
  induction t generalizing fs with
  | nil => intro g hg; exact Or.inl hg
  | node l a k v r ihl _ =>
    intro g hg
    rw [spine_node] at hg
    rcases ihl _ g hg with e | e
    · rcases List.mem_cons.1 e with e | e
      · right; rw [e]
      · left; exact e
    · right
      rw [depth_node]
      omega

theorem spine_length (t : Tree K V) (fs : List (Tree K V)) :
    (t.spine fs).length = t.spine_len + fs.length := by
  induction t generalizing fs with
  | nil => simp [spine_nil, spine_len_nil]
  | node l a k v r ihl _ =>
    rw [spine_node, ihl, spine_len_node, List.length_cons]
    omega

/-- The top of the stack after the left spine is pushed is the leftmost
node. -/
theorem spine_leftmost (t : Tree K V) (fs : List (Tree K V)) (hne : t ≠ Tree.nil) :
    ∃ rest, t.spine fs = t.leftmost :: rest := by
  induction t generalizing fs with
  | nil => exact absurd rfl hne
  | node l a k v r ihl _ =>
    cases l with
    | nil => exact ⟨fs, rfl⟩
    | node ll la lk lv lr =>
      obtain ⟨rest, e⟩ := ihl (Tree.node (Tree.node ll la lk lv lr) a k v r :: fs) (by simp)
      exact ⟨rest, by rw [spine_node, e]; rfl⟩

/-- `bst_iter_next` on an empty stack returns `false`. -/
theorem iter_next_empty (fuel : Nat) (b : bst K V) (it : bst_iter) (h : it.stack = []) :
    bst_iter_next fuel b it = some (none, it) := by
  simp only [bst_iter_next, pop, h]

/-- `bst_iter_next` on a non-empty stack yields the pair of the node on top;
when the stack has room, it then holds the left spine of the right subtree on
top of the rest. -/
theorem iter_next_frames {b : bst K V} {it : bst_iter} {f : Tree K V} {fs : List (Tree K V)}
    (hfr : Frames b.mem it.stack (f :: fs)) {fuel : Nat} (hf : f.depth ≤ fuel) :
    ∃ l a k v r it', f = Tree.node l a k v r ∧
      bst_iter_next fuel b it = some (some (k, v), it') ∧
      (Fits (f :: fs) → Frames b.mem it'.stack (r.spine fs)) := by
  obtain ⟨stack, current⟩ := it
  unfold Frames at hfr
  rw [List.forall₂_cons_right_iff] at hfr
  obtain ⟨a, st, hfa, hrest, hst⟩ := hfr
  simp only at hst
  subst hst
  cases f with
  | nil => exact absurd hfa (by simp [Frame])
  | node l a' k v r =>
    obtain ⟨ea, ⟨n, hn, hk, hv, hr⟩, h2⟩ := hfa
    subst ea
    rw [depth_node] at hf
    have hs := spine_len_le_depth r
    obtain ⟨it', e1, _, e3⟩ :=
      next_loop_spine h2 ⟨st, current⟩ fuel (by omega)
    refine ⟨l, a, k, v, r, it', rfl, ?_, ?_⟩
    · simp only [bst_iter_next, pop, hn]
      rw [hr, e1, hk, hv]
    · intro hfit
      have hlen := List.Forall₂.length_eq hrest
      have hb : (Tree.node l a k v r).depth + fs.length ≤ iter_capacity := hfit.1
      rw [depth_node] at hb
      refine e3 fs hrest ?_
      show r.spine_len + st.length ≤ iter_capacity
      omega

/-- The caller's loop on a cursor whose stack has room for every path still
to be walked yields exactly the pairs still to come. -/
theorem iter_drain_frames {b : bst K V} (fuel : Nat) :
    ∀ (calls : Nat) (it : bst_iter) (fs : List (Tree K V)), Frames b.mem it.stack fs →
      Fits fs → (∀ f ∈ fs, f.depth ≤ fuel) → (pending fs).length < calls →
      iter_drain fuel b calls it = some (pending fs) := by
  intro calls
  induction calls with
  | zero => intro it fs _ _ _ hc; omega
  | succ c ih =>
    intro it fs hfr hfit hdep hc
    cases fs with
    | nil =>
      unfold Frames at hfr
      rw [List.forall₂_nil_right_iff] at hfr
      simp only [iter_drain, iter_next_empty fuel b it hfr]
      rfl
    | cons f fs' =>
      obtain ⟨l, a, k, v, r, it', ef, enext, hfr'⟩ :=
        iter_next_frames hfr (hdep f (List.mem_cons_self _ _))
      subst ef
      have hb : (Tree.node l a k v r).depth + fs'.length ≤ iter_capacity := hfit.1
      have hd0 := hdep _ (List.mem_cons_self _ _)
      rw [depth_node] at hb hd0
      have hp : pending (Tree.node l a k v r :: fs') = (k, v) :: pending (r.spine fs') := by
        rw [pending_spine]
        rfl
      rw [hp, List.length_cons] at hc
      have hrec := ih it' (r.spine fs') (hfr' hfit) (fits_spine r fs' hfit.2 (by omega))
        (by
          intro g hg
          rcases spine_depth r fs' g hg with e | e
          · exact hdep g (List.mem_cons_of_mem _ e)
          · omega)
        (by omega)
      simp only [iter_drain, enext, hrec]
      rw [hp]

/-- With a stack that has room for the longest path of the tree, the cursor
is created with the whole left spine on its stack, and the caller's loop
yields the pairs of the tree in in-order. -/
theorem cursor_holds {s : Bool} {b : bst K V} {t : Tree K V} (h : Holds s b t)
    (hd : t.depth ≤ iter_capacity) {fuel calls : Nat} (hf : t.depth < fuel)
    (hc : t.count < calls) :
    ∃ it, bst_iter_inorder_create fuel b true = some (some it) ∧
      it.stack.length = t.spine_len ∧ iter_drain fuel b calls it = some t.pairs := by
  have hs := spine_len_le_depth t
  obtain ⟨it, e1, _, e3⟩ := create_loop_spine (@Rep.forget _ _ _ _ _ none _ h.2) ⟨[], b.root⟩ fuel
    h.1 (by omega)
  have hfr : Frames b.mem it.stack (t.spine []) :=
    e3 [] List.Forall₂.nil (by simp only [List.length_nil]; omega)
  refine ⟨it, ?_, ?_, ?_⟩
  · simp only [bst_iter_inorder_create, if_true, e1]
  · rw [List.Forall₂.length_eq hfr, spine_length]
    rfl
  · have hdr := iter_drain_frames fuel calls it (t.spine []) hfr
      (fits_spine t [] trivial (by simpa using hd))
      (by
        intro g hg
        rcases spine_depth t [] g hg with e | e
        · cases e
        · omega)
      (by rw [pending_spine]; simp only [pending, List.append_nil, pairs_length]; exact hc)
    rw [hdr, pending_spine]
    simp [pending]

/-! ## The cursor: the claims -/

/-- A run on a left spine of 65 nodes, built by inserting the keys 65, 64,
..., 1 in this order into an empty tree: the cursor is created, its first
`bst_iter_next` yields the key 2, the caller's loop yields 64 pairs, while
`bst_size` is 65 and `bst_min_key` returns the key 1. -/
theorem slope_run :
    ∃ b it first ps, insert_all 66 demo_empty (with_alloc (slope 65)) = some b ∧
      bst_iter_inorder_create 66 b true = some (some it) ∧
      bst_iter_next 66 b it = some first ∧ first.1 = some (2, 0) ∧
      cursor_pairs 66 66 b = some ps ∧ ps.length = 64 ∧ bst_size b = 65 ∧
      bst_min_key 66 b = some (some 1) := by
  have h : (insert_all 66 demo_empty (with_alloc (slope 65))).bind (fun b =>
      (bst_iter_inorder_create 66 b true).bind fun o => o.bind fun it =>
        (bst_iter_next 66 b it).bind fun first =>
          (cursor_pairs 66 66 b).bind fun ps =>
            (bst_min_key 66 b).map fun lo => (first.1, ps.length, bst_size b, lo)) =
      some (some (2, 0), 64, 65, some 1) := by
    set_option maxRecDepth 1000000 in decide
  obtain ⟨b, hb, h1⟩ := Option.bind_eq_some.mp h
  obtain ⟨o, ho, h2⟩ := Option.bind_eq_some.mp h1
  obtain ⟨it, hit, h3⟩ := Option.bind_eq_some.mp h2
  obtain ⟨first, hfirst, h4⟩ := Option.bind_eq_some.mp h3
  obtain ⟨ps, hps, h5⟩ := Option.bind_eq_some.mp h4
  obtain ⟨lo, hlo, h6⟩ := Option.map_eq_some'.mp h5
  simp only [Prod.mk.injEq] at h6
  obtain ⟨q1, q2, q3, q4⟩ := h6
  subst hit
  subst q4
  exact ⟨b, it, first, ps, hb, ho, hfirst, q1, hps, q2, q3, hlo⟩

/-- C15 as stated fails on a deep tree: on the left spine of 65 nodes built by
inserting the keys 65, 64, ..., 1 into an empty tree, the caller's loop over a
cursor yields 64 pairs, while `bst_size` is 65. -/
theorem C15_cursor_truncated :
    ∃ b, insert_all 66 demo_empty (with_alloc (slope 65)) = some b ∧
      (cursor_pairs 66 66 b).map List.length = some 64 ∧ bst_size b = 65 := by
  obtain ⟨b, _, _, ps, hb, _, _, _, hps, hlen, hsize, _⟩ := slope_run
  exact ⟨b, hb, by rw [hps, Option.map_some', hlen], hsize⟩

/-- A heap holds at most one tree below a pointer. -/
theorem rep_one_tree {s s' : Bool} {m : Nat → Option (node_t K V)} {t : Tree K V} :
    ∀ {t' : Tree K V} {par par' : ptr}, Rep s m par t → Rep s' m par' t' →
      t.rootp = t'.rootp → t = t' := by
  induction t with
  | nil =>
    intro t' par par' _ _ e
    rw [rootp_nil] at e
    exact (rootp_eq_none e.symm).symm
  | node l a k v r ihl ihr =>
    intro t' par par' h h' e
    cases t' with
    | nil => cases e
    | node l' a' k' v' r' =>
      rw [rootp_node, rootp_node] at e
      cases e
      rw [rep_node] at h h'
      obtain ⟨⟨n, hn, hk, hv, hl, hr, _⟩, h1, h2⟩ := h
      obtain ⟨⟨n', hn', hk', hv', hl', hr', _⟩, h1', h2'⟩ := h'
      rw [hn] at hn'
      cases hn'
      rw [ihl h1 h1' (hl.symm.trans hl'), ihr h2 h2' (hr.symm.trans hr'), ← hk, ← hv, hk', hv']

/-- A state holds at most one tree. -/
theorem Holds.unique {s s' : Bool} {b : bst K V} {t t' : Tree K V} (h : Holds s b t)
    (h' : Holds s' b t') : t = t' :=
  rep_one_tree h.2 h'.2 (h.1.symm.trans h'.1)

theorem demo_one_holds : Holds false demo_one (Tree.node Tree.nil 1 20 200 Tree.nil) :=
  ⟨rfl, by simp [Rep, demo_one, demo_empty, store, Tree.rootp]⟩

/-- C15 (cursor completeness), for trees the stack has room for.  On a state
obtained from `bst_create` by calls of `bst_insert`, `bst_remove` and
`bst_clear`, holding a tree in which no path from the root down has more than
64 nodes: creating a cursor and calling `bst_iter_next` until it returns
`false` (with fuel above the depth, and more calls allowed than there are
nodes) yields exactly `bst_size` pairs, the pairs of the tree. -/
theorem C15_cursor_complete (b : bst K V) (t : Tree K V) (fuel calls : Nat)
    (hr : Reachable b) (h : Holds false b t) (hd : t.depth ≤ iter_capacity)
    (hf : t.depth < fuel) (hc : t.count < calls) :
    ∃ ps, cursor_pairs fuel calls b = some ps ∧ ps.length = bst_size b ∧ ps = t.pairs := by
  obtain ⟨t0, hv, _⟩ := reachable_valid hr
  have e0 : t0 = t := hv.1.unique h
  subst e0
  obtain ⟨it, e1, _, e3⟩ := cursor_holds h hd hf hc
  refine ⟨t0.pairs, by simp only [cursor_pairs, e1, e3], ?_, rfl⟩
  rw [pairs_length]
  exact hv.2.2.1.symm

/-- C15 at the state reached by inserting key 20 into an empty tree: the
cursor yields one pair. -/
theorem C15_cursor_complete_witness :
    ∃ ps, cursor_pairs 2 2 demo_one = some ps ∧ ps.length = bst_size demo_one ∧
      ps = (Tree.node Tree.nil 1 20 200 Tree.nil : Tree Int Int).pairs :=
  C15_cursor_complete demo_one (Tree.node Tree.nil 1 20 200 Tree.nil) 2 2 demo_one_reachable
    demo_one_holds (by decide) (by decide) (by decide)

/-- C16 as stated fails twice.  On the empty tree `bst_iter_inorder_create`
returns a cursor, not NULL.  On the left spine of 65 nodes built by inserting
the keys 65, 64, ..., 1 into an empty tree, the first `bst_iter_next` yields
the key 2, while the minimum key is 1. -/
theorem C16_cursor_not_null :
    (demo_empty.root = none ∧ bst_size demo_empty = 0 ∧
      bst_iter_inorder_create 1 demo_empty true = some (some ⟨[], none⟩)) ∧
    ∃ b it first, insert_all 66 demo_empty (with_alloc (slope 65)) = some b ∧
      bst_iter_inorder_create 66 b true = some (some it) ∧
      bst_iter_next 66 b it = some first ∧ first.1 = some (2, 0) ∧
      bst_min_key 66 b = some (some 1) := by
  refine ⟨⟨rfl, rfl, by decide⟩, ?_⟩
  obtain ⟨b, it, first, _, hb, hit, hfirst, hkey, _, _, _, hmin⟩ := slope_run
  exact ⟨b, it, first, hb, hit, hfirst, hkey, hmin⟩

/-- C16 (cursor creation), as the code behaves.  On a state holding an
ordered tree, with fuel above the depth of the tree, `bst_iter_inorder_create`
returns NULL when the allocation of the cursor fails, and a cursor otherwise.
On a tree without root the cursor has an empty stack and its first
`bst_iter_next` returns `false`.  On a tree with a root whose left spine has
at most 64 nodes, the first `bst_iter_next` yields the first pair of the
in-order: its key is the key `bst_min_key` returns, a stored key not above any
stored key. -/
theorem C16_cursor_create (b : bst K V) (t : Tree K V) (fuel : Nat)
    (hc : TotalCmp b.cmp) (h : Holds false b t) (ho : Ordered b.cmp t) (hf : t.depth < fuel) :
    bst_iter_inorder_create fuel b false = some none ∧
    ∃ it, bst_iter_inorder_create fuel b true = some (some it) ∧
      (b.root = none → it = ⟨[], none⟩ ∧ bst_iter_next fuel b it = some (none, it)) ∧
      (b.root ≠ none → t.spine_len ≤ iter_capacity →
        ∃ k v it', bst_iter_next fuel b it = some (some (k, v), it') ∧
          bst_min_key fuel b = some (some k) ∧ (∃ rest, t.pairs = (k, v) :: rest) ∧
          k ∈ t.keys ∧ ∀ x ∈ t.keys, b.cmp k x ≤ 0) := by
  have hs := spine_len_le_depth t
  obtain ⟨it, e1, _, e3⟩ := create_loop_spine h.2 ⟨[], b.root⟩ fuel h.1 (by omega)
  refine ⟨by simp only [bst_iter_inorder_create, Bool.false_eq_true, if_false], it,
    by simp only [bst_iter_inorder_create, if_true, e1], ?_, ?_⟩
  · intro hroot
    have hit : it = ⟨[], none⟩ := by
      rw [hroot] at e1
      cases fuel with
      | zero => omega
      | succ f =>
        simp only [create_loop, Option.some.injEq] at e1
        exact e1.symm
    exact ⟨hit, iter_next_empty fuel b it (by rw [hit])⟩
  · intro hroot hspine
    have hne : t ≠ Tree.nil := by
      intro e
      rw [h.1, e] at hroot
      exact hroot rfl
    have hfr : Frames b.mem it.stack (t.spine []) :=
      e3 [] List.Forall₂.nil (by simp only [List.length_nil]; omega)
    obtain ⟨rest, hsp⟩ := spine_leftmost t [] hne
    obtain ⟨ya, yk, yv, yr, q1, q2, _, q4, _⟩ := leftmost_spec t hne
    have hdep : t.leftmost.depth ≤ fuel := by
      rcases spine_depth t [] t.leftmost (by rw [hsp]; exact List.mem_cons_self _ _) with e | e
      · cases e
      · omega
    rw [hsp] at hfr
    obtain ⟨l, a, k, v, r, it', ef, enext, _⟩ := iter_next_frames hfr hdep
    rw [q1] at ef
    cases ef
    have hmin := bst_min_key_holds h hf
    rw [q4, List.head?_cons] at hmin
    have hhead : t.keys.head? = some yk := by rw [q4, List.head?_cons]
    exact ⟨yk, yv, it', enext, hmin, ⟨_, q2⟩,
      ascending_head hc (ordered_ascending hc ho) hhead⟩

/-- C16 at the three-node tree: the first pair the cursor yields has the
minimum key 10. -/
theorem C16_cursor_create_witness :
    (bst_iter_inorder_create 3 demo false = some none ∧
    ∃ it, bst_iter_inorder_create 3 demo true = some (some it) ∧
      (demo.root = none → it = ⟨[], none⟩ ∧ bst_iter_next 3 demo it = some (none, it)) ∧
      (demo.root ≠ none → demo_tree.spine_len ≤ iter_capacity →
        ∃ k v it', bst_iter_next 3 demo it = some (some (k, v), it') ∧
          bst_min_key 3 demo = some (some k) ∧ (∃ rest, demo_tree.pairs = (k, v) :: rest) ∧
          k ∈ demo_tree.keys ∧ ∀ x ∈ demo_tree.keys, demo.cmp k x ≤ 0)) ∧
    (bst_iter_inorder_create 3 demo true).bind (fun o => o.bind fun it =>
      (bst_iter_next 3 demo it).map Prod.fst) = some (some (10, 100)) :=
  ⟨C16_cursor_create demo demo_tree 3 cmp_int_total demo_holds.weaken demo_ordered
    (by decide), by decide⟩

/-- C20 (the cursor agrees with the in-order traversal on trees the stack has
room for).  On a state holding a tree in which no path from the root down has
more than 64 nodes (height at most 63), with fuel above the depth and more
calls allowed than there are nodes: the cursor is created with every node of
the left spine on its stack, and the pairs `bst_iter_next` yields until it
returns `false` are the pairs `bst_traverse_inorder` visits, in the same
order, namely all pairs of the tree; so no node was dropped by `push`. -/
theorem C20_cursor_inorder (b : bst K V) (t : Tree K V) (fuel calls : Nat)
    (h : Holds false b t) (hd : t.depth ≤ iter_capacity) (hf : t.depth < fuel)
    (hc : t.count < calls) :
    ∃ it, bst_iter_inorder_create fuel b true = some (some it) ∧
      it.stack.length = t.spine_len ∧
      iter_drain fuel b calls it = some t.pairs ∧
      bst_traverse_inorder fuel b (some collect) [] = some t.pairs ∧
      cursor_pairs fuel calls b = bst_traverse_inorder fuel b (some collect) [] ∧
      t.pairs.length = t.count := by
  obtain ⟨it, e1, e2, e3⟩ := cursor_holds h hd hf hc
  have e4 := bst_traverse_inorder_holds h hf
  refine ⟨it, e1, e2, e3, e4, ?_, pairs_length t⟩
  rw [e4]
  simp only [cursor_pairs, e1, e3]

/-- C20 at the three-node tree. -/
theorem C20_cursor_inorder_witness :
    ∃ it, bst_iter_inorder_create 3 demo true = some (some it) ∧
      it.stack.length = demo_tree.spine_len ∧
      iter_drain 3 demo 4 it = some demo_tree.pairs ∧
      bst_traverse_inorder 3 demo (some collect) [] = some demo_tree.pairs ∧
      cursor_pairs 3 4 demo = bst_traverse_inorder 3 demo (some collect) [] ∧
      demo_tree.pairs.length = demo_tree.count :=
  C20_cursor_inorder demo demo_tree 3 4 demo_holds.weaken (by decide) (by decide) (by decide)

/-- The cursor test of the test suite: after inserting "charlie", "alpha",
"bravo" the cursor yields "alpha", "bravo", "charlie", three pairs. -/
theorem test_iterator :
    (bst_create (some strcmp) true true true).bind (fun b =>
      (insert_all 4 b [(cstr "charlie", 0, some 1), (cstr "alpha", 1, some 2),
        (cstr "bravo", 2, some 3)]).bind (cursor_pairs 4 4)) =
      some [(cstr "alpha", (1 : Int)), (cstr "bravo", 2), (cstr "charlie", 0)] := by
  decide

/-- The integer-key test of the test suite: after inserting 10, 5, 15 the key
10 is contained, the minimum is 5 and the maximum 15. -/
theorem test_int_keys :
    (insert_all 3 demo_empty [(10, 0, some 1), (5, 1, some 2), (15, 2, some 3)]).bind (fun b =>
      (bst_contains 3 b 10).bind fun c => (bst_min_key 3 b).bind fun lo =>
        (bst_max_key 3 b).map fun hi => (c, lo, hi)) = some (true, some 5, some 15) := by
  decide

/-! ## Pre-order and post-order traversal -/

theorem traverse_pre_rep {s : Bool} {m : Nat → Option (node_t K V)} {par : ptr} {t : Tree K V}
    (h : Rep s m par t) (visit : K → V → U → U) {fuel : Nat} (hf : t.depth < fuel) (u : U) :
    traverse_pre m visit fuel t.rootp u =
      some (t.pre_pairs.foldl (fun acc p => visit p.1 p.2 acc) u) := by
  induction t generalizing par fuel u with
  | nil =>
    cases fuel with
    | zero => omega
    | succ f => simp [traverse_pre, rootp_nil, Tree.pre_pairs]
  | node l a k v r ihl ihr =>
    rw [rep_node] at h
    obtain ⟨⟨n, hn, hk, hv, hl, hr, _⟩, h1, h2⟩ := h
    cases fuel with
    | zero => omega
    | succ f =>
      simp only [Tree.depth] at hf
      have e1 := fun u => @ihl (some a) h1 f (by omega) u
      have e2 := fun u => @ihr (some a) h2 f (by omega) u
      simp only [traverse_pre, rootp_node, hn, hl, hr, hk, hv, e1, e2]
      simp [Tree.pre_pairs, List.foldl_append]

theorem traverse_post_rep {s : Bool} {m : Nat → Option (node_t K V)} {par : ptr} {t : Tree K V}
    (h : Rep s m par t) (visit : K → V → U → U) {fuel : Nat} (hf : t.depth < fuel) (u : U) :
    traverse_post m visit fuel t.rootp u =
      some (t.post_pairs.foldl (fun acc p => visit p.1 p.2 acc) u) := by
  induction t generalizing par fuel u with
  | nil =>
    cases fuel with
    | zero => omega
    | succ f => simp [traverse_post, rootp_nil, Tree.post_pairs]
  | node l a k v r ihl ihr =>
    rw [rep_node] at h
    obtain ⟨⟨n, hn, hk, hv, hl, hr, _⟩, h1, h2⟩ := h
    cases fuel with
    | zero => omega
    | succ f =>
      simp only [Tree.depth] at hf
      have e1 := fun u => @ihl (some a) h1 f (by omega) u
      have e2 := fun u => @ihr (some a) h2 f (by omega) u
      simp only [traverse_post, rootp_node, hn, hl, hr, hk, hv, e1, e2]
      simp [Tree.post_pairs, List.foldl_append]

/-- The pre-order traversal visits the pairs of the tree in pre-order. -/
theorem bst_traverse_preorder_holds {s : Bool} {b : bst K V} {t : Tree K V} (h : Holds s b t)
    {fuel : Nat} (hf : t.depth < fuel) :
    bst_traverse_preorder fuel b (some collect) [] = some t.pre_pairs := by
  unfold bst_traverse_preorder
  simp only []
  rw [h.1, traverse_pre_rep h.2 collect hf, foldl_collect]
  simp

/-- The post-order traversal visits the pairs of the tree in post-order. -/
theorem bst_traverse_postorder_holds {s : Bool} {b : bst K V} {t : Tree K V} (h : Holds s b t)
    {fuel : Nat} (hf : t.depth < fuel) :
    bst_traverse_postorder fuel b (some collect) [] = some t.post_pairs := by
  unfold bst_traverse_postorder
  simp only []
  rw [h.1, traverse_post_rep h.2 collect hf, foldl_collect]
  simp

/-- The three traversal orders visit the same keys. -/
theorem orders_keys_mem (t : Tree K V) (k : K) :
    (k ∈ t.pre_pairs.map Prod.fst ↔ k ∈ t.keys) ∧
      (k ∈ t.post_pairs.map Prod.fst ↔ k ∈ t.keys) := by
  induction t with
  | nil => simp [Tree.pre_pairs, Tree.post_pairs, Tree.keys]
  | node l a k' v r ihl ihr =>
    obtain ⟨l1, l2⟩ := ihl
    obtain ⟨r1, r2⟩ := ihr
    simp only [List.mem_map] at l1 l2 r1 r2
    simp only [Tree.pre_pairs, Tree.post_pairs, Tree.keys, List.map_cons, List.map_append,
      List.mem_cons, List.mem_append, List.mem_map, List.map_nil, List.mem_singleton, l1, l2,
      r1, r2, List.not_mem_nil, or_false]
    constructor <;> tauto

/-! ## Updating a stored key -/

/-- Inserting a key that compares equal to the key of the located node
replaces the value of that node and leaves every node, key and address in
place. -/
theorem insert_found_nodes (cmp : K → K → Int) (key : K) (value : V) (n : Nat) {t : Tree K V}
    {l0 r0 : Tree K V} {a0 : Nat} {k0 : K} {v0 : V}
    (hloc : t.locate cmp key = Tree.node l0 a0 k0 v0 r0) :
    ∃ n1 n2, t.nodes = n1 ++ (a0, k0, v0) :: n2 ∧
      (t.insert cmp key value n).nodes = n1 ++ (a0, k0, value) :: n2 := by
  induction t with
  | nil => simp [Tree.locate] at hloc
  | node l a k v r ihl ihr =>
    simp only [Tree.locate] at hloc
    simp only [Tree.insert]
    by_cases c0 : cmp key k = 0
    · simp only [c0, if_true, Tree.node.injEq] at hloc ⊢
      obtain ⟨e1, e2, e3, e4, e5⟩ := hloc
      subst e1 e2 e3 e4 e5
      exact ⟨l.nodes, r.nodes, rfl, rfl⟩
    · by_cases c1 : cmp key k < 0
      · simp only [c0, c1, if_true, if_false] at hloc ⊢
        obtain ⟨n1, n2, e1, e2⟩ := ihl hloc
        exact ⟨n1, n2 ++ (a, k, v) :: r.nodes, by rw [nodes_node, e1]; simp,
          by rw [nodes_node, e2]; simp⟩
      · simp only [c0, c1, if_false] at hloc ⊢
        obtain ⟨n1, n2, e1, e2⟩ := ihr hloc
        exact ⟨l.nodes ++ (a, k, v) :: n1, n2, by rw [nodes_node, e1]; simp,
          by rw [nodes_node, e2]; simp⟩

/-- Inserting a key that compares equal to a stored key keeps the key
sequences of the pre-order and the post-order. -/
theorem insert_found_orders (cmp : K → K → Int) (key : K) (value : V) (n : Nat) (t : Tree K V)
    (hne : t.locate cmp key ≠ Tree.nil) :
    (t.insert cmp key value n).pre_pairs.map Prod.fst = t.pre_pairs.map Prod.fst ∧
      (t.insert cmp key value n).post_pairs.map Prod.fst = t.post_pairs.map Prod.fst := by
  induction t with
  | nil => simp [Tree.locate] at hne
  | node l a k v r ihl ihr =>
    simp only [Tree.locate] at hne
    simp only [Tree.insert]
    by_cases c0 : cmp key k = 0
    · simp only [c0, if_true]
      simp [Tree.pre_pairs, Tree.post_pairs]
    · by_cases c1 : cmp key k < 0
      · simp only [c0, c1, if_true, if_false] at hne ⊢
        obtain ⟨e1, e2⟩ := ihl hne
        simp [Tree.pre_pairs, Tree.post_pairs, e1, e2]
      · simp only [c0, c1, if_false] at hne ⊢
        obtain ⟨e1, e2⟩ := ihr hne
        simp [Tree.pre_pairs, Tree.post_pairs, e1, e2]

theorem cmp_obj_total : TotalCmp cmp_obj :=
  ⟨fun a b => cmp_int_total.swap a.1 b.1, fun a b c => cmp_int_total.le_trans a.1 b.1 c.1⟩

theorem obj_holds : Holds false obj_demo obj_tree := by
  refine ⟨rfl, ?_⟩
  simp [obj_tree, Rep, obj_demo, obj_mem, Tree.rootp]

theorem obj_ordered : Ordered obj_demo.cmp obj_tree := by
  simp [obj_tree, Ordered, Tree.keys, obj_demo, cmp_obj, cmp_int]

/-! ## Key ownership on update: the claim -/

theorem nodes_pairs (t : Tree K V) : t.nodes.map (fun e => (e.2.1, e.2.2)) = t.pairs := by
  induction t with
  | nil => rfl
  | node l a k v r ihl ihr => simp [Tree.nodes, Tree.pairs, ihl, ihr]

/-- C21 (key ownership on update).  On a state holding an ordered tree that
stores a key `k0` comparing equal to the supplied key `k1`, `bst_insert(k1, v)`
returns `true` whatever `malloc` would do.  The node of `k0` keeps its key and
gets the value `v`; the key and the links of every node of the heap are
unchanged, so `k1` is not stored.  The release log grows by the value callback
on the old value when a value callback is registered, and by nothing
otherwise: no key callback is called.  `bst_min_key` returns what it returned
before; the three traversals and (when the stack has room for the longest
path) the cursor yield the pairs of the new tree, whose key sequences are the
old ones: they contain `k0` with the value `v`, and a `k1` different from
`k0` nowhere. -/
theorem C21_key_ownership (b : bst K V) (t : Tree K V) (k0 k1 : K) (v : V) (fresh : ptr)
    (fuel : Nat) (hc : TotalCmp b.cmp) (h : Holds false b t) (ho : Ordered b.cmp t)
    (hk0 : k0 ∈ t.keys) (he : b.cmp k1 k0 = 0) (hf : t.depth < fuel) :
    ∃ b' t' a0 v0 n1 n2, bst_insert fuel b k1 v fresh = some (true, b') ∧
      Holds false b' t' ∧
      t.nodes = n1 ++ (a0, k0, v0) :: n2 ∧ t'.nodes = n1 ++ (a0, k0, v) :: n2 ∧
      (∀ x, (b'.mem x).map node_t.links = (b.mem x).map node_t.links) ∧
      b'.log = b.log ++ (if b.free_val then [release.value v0] else []) ∧
      (k0, v) ∈ t'.pairs ∧
      (k1 ≠ k0 → k1 ∉ t'.keys ∧ k1 ∉ t'.pre_pairs.map Prod.fst ∧
        k1 ∉ t'.post_pairs.map Prod.fst) ∧
      bst_min_key fuel b' = bst_min_key fuel b ∧
      bst_traverse_inorder fuel b' (some collect) [] = some t'.pairs ∧
      bst_traverse_preorder fuel b' (some collect) [] = some t'.pre_pairs ∧
      bst_traverse_postorder fuel b' (some collect) [] = some t'.post_pairs ∧
      t'.pairs.map Prod.fst = t.pairs.map Prod.fst ∧
      t'.pre_pairs.map Prod.fst = t.pre_pairs.map Prod.fst ∧
      t'.post_pairs.map Prod.fst = t.post_pairs.map Prod.fst ∧
      (t.depth ≤ iter_capacity → ∀ calls, t.count < calls →
        cursor_pairs fuel calls b' = some t'.pairs) := by
  have hnd := h.2.nodup hc ho
  obtain ⟨l0, a0, v0, r0, hloc⟩ := locate_of_stored hc ho hk0 he
  obtain ⟨cn, e1, e2, e3, e4, e5⟩ := bst_insert_found h hnd k1 v hf fresh 0 hloc
  have hne : t.locate b.cmp k1 ≠ Tree.nil := by rw [hloc]; simp
  obtain ⟨_, s2, s3, s4, _⟩ := insert_found_same b.cmp k1 v 0 t hne
  obtain ⟨n1, n2, q1, q2⟩ := insert_found_nodes b.cmp k1 v 0 hloc
  obtain ⟨o1, o2⟩ := insert_found_orders b.cmp k1 v 0 t hne
  have hd : (t.insert b.cmp k1 v 0).depth < fuel := by rw [s4]; exact hf
  have hk1 : k1 ≠ k0 → k1 ∉ t.keys := fun hdiff hm =>
    hdiff (ascending_eq hc (ordered_ascending hc ho) hm hk0 he)
  refine ⟨_, t.insert b.cmp k1 v 0, a0, v0, n1, n2, e4, e5, q1, q2, ?_, rfl, ?_, ?_, ?_,
    bst_traverse_inorder_holds e5 hd, bst_traverse_preorder_holds e5 hd,
    bst_traverse_postorder_holds e5 hd, ?_, o1, o2, ?_⟩
  · intro x
    by_cases hx : x = a0
    · subst hx
      simp [store_same, e1, node_t.links]
    · simp [store_other _ _ hx]
  · rw [← nodes_pairs, q2]
    simp
  · intro hdiff
    refine ⟨by rw [s2]; exact hk1 hdiff, ?_, ?_⟩
    · rw [o1]
      exact fun hm => hk1 hdiff ((orders_keys_mem t k1).1.1 hm)
    · rw [o2]
      exact fun hm => hk1 hdiff ((orders_keys_mem t k1).2.1 hm)
  · rw [bst_min_key_holds e5 hd, bst_min_key_holds h hf, s2]
  · rw [pairs_keys, pairs_keys, s2]
  · intro hcap calls hcalls
    obtain ⟨it, c1, _, c3⟩ := cursor_holds e5 (by rw [s4]; exact hcap) hd
      (show (t.insert b.cmp k1 v 0).count < calls by rw [s3]; exact hcalls)
    simp only [cursor_pairs, c1, c3]

/-- C21 at a three-node tree of tagged key objects: inserting a second key
object with content 10 (tag 1) and value 111, where the key object with
content 10 and tag 0 is stored.  The only release call is the value callback
on the old value 100; minimum, traversals and cursor yield the key object
tagged 0. -/
theorem C21_key_ownership_witness :
    (∃ b' t' a0 v0 n1 n2, bst_insert 3 obj_demo (10, 1) 111 none = some (true, b') ∧
      Holds false b' t' ∧
      obj_tree.nodes = n1 ++ (a0, (10, 0), v0) :: n2 ∧
      t'.nodes = n1 ++ (a0, (10, 0), 111) :: n2 ∧
      (∀ x, (b'.mem x).map node_t.links = (obj_demo.mem x).map node_t.links) ∧
      b'.log = obj_demo.log ++ (if obj_demo.free_val then [release.value v0] else []) ∧
      (((10, 0) : Int × Nat), (111 : Int)) ∈ t'.pairs ∧
      (((10, 1) : Int × Nat) ≠ (10, 0) → ((10, 1) : Int × Nat) ∉ t'.keys ∧
        ((10, 1) : Int × Nat) ∉ t'.pre_pairs.map Prod.fst ∧
        ((10, 1) : Int × Nat) ∉ t'.post_pairs.map Prod.fst) ∧
      bst_min_key 3 b' = bst_min_key 3 obj_demo ∧
      bst_traverse_inorder 3 b' (some collect) [] = some t'.pairs ∧
      bst_traverse_preorder 3 b' (some collect) [] = some t'.pre_pairs ∧
      bst_traverse_postorder 3 b' (some collect) [] = some t'.post_pairs ∧
      t'.pairs.map Prod.fst = obj_tree.pairs.map Prod.fst ∧
      t'.pre_pairs.map Prod.fst = obj_tree.pre_pairs.map Prod.fst ∧
      t'.post_pairs.map Prod.fst = obj_tree.post_pairs.map Prod.fst ∧
      (obj_tree.depth ≤ iter_capacity → ∀ calls, obj_tree.count < calls →
        cursor_pairs 3 calls b' = some t'.pairs)) ∧
    (bst_insert 3 obj_demo (10, 1) 111 none).map (fun p => (p.1, p.2.log)) =
      some (true, [release.value 100]) ∧
    (bst_insert 3 obj_demo (10, 1) 111 none).bind (fun p => bst_min_key 3 p.2) =
      some (some (10, 0)) ∧
    (bst_insert 3 obj_demo (10, 1) 111 none).bind
        (fun p => bst_traverse_inorder 3 p.2 (some collect) []) =
      some [((10, 0), 111), ((20, 0), 200), ((30, 0), 300)] ∧
    (bst_insert 3 obj_demo (10, 1) 111 none).bind
        (fun p => bst_traverse_preorder 3 p.2 (some collect) []) =
      some [((20, 0), 200), ((10, 0), 111), ((30, 0), 300)] ∧
    (bst_insert 3 obj_demo (10, 1) 111 none).bind
        (fun p => bst_traverse_postorder 3 p.2 (some collect) []) =
      some [((10, 0), 111), ((30, 0), 300), ((20, 0), 200)] ∧
    (bst_insert 3 obj_demo (10, 1) 111 none).bind (fun p => cursor_pairs 3 4 p.2) =
      some [((10, 0), 111), ((20, 0), 200), ((30, 0), 300)] :=
  ⟨C21_key_ownership obj_demo obj_tree (10, 0) (10, 1) 111 none 3 cmp_obj_total obj_holds
    obj_ordered (by decide) (by decide) (by decide), by decide, by decide, by decide, by decide,
    by decide, by decide⟩

/-- The update without a value callback: no release call at all. -/
theorem update_without_callback :
    (bst_insert 3 { obj_demo with free_val := false } (10, 1) 111 none).map
      (fun p => (p.1, p.2.log)) = some (true, []) := by
  decide

end CBst
